import Mathlib

/-!
Shallow embedding of the linked-list library in `src/Algorithms/`
(`singly_linked_list.py` and `doubly_linked_list.py`).

Heap model: nodes live in an arena (`List Node` / `List DNode`); a Python
object reference is the node's arena index, so Python `None` becomes
`Option.none` and a link field becomes `Option Nat`.  Object identity
(Python `==` on nodes, which have no `__eq__`, and `is`) is index equality.
Allocation (`Node(data)`) appends a fresh node at the end of the arena;
deleted nodes simply become unreachable, as in a garbage-collected runtime.
Each method of the two Python classes is transcribed statement by statement;
unbounded `while` loops take a fuel argument, always called with fuel that
suffices under the representation invariant.  A `raise` is transcribed as
an `Except.error` result paired with the entry state (the Python guards
run before any mutation).  Branches that Python could only reach by
raising `AttributeError` (attribute access on `None`), which are
unreachable under the representation invariant, return a harmless default.
-/

/-- Python exceptions raised by the library: `IndexError("Index .. out of
range")` carrying the offending index, and
`IndexError("Cannot delete from empty list")`. -/
inductive Err where
  | outOfRange (index : Int)
  | emptyCollection
deriving DecidableEq, Repr

/-- One dereference step `current = current.next` over a link table
`f` (arena index to stored link; `f i = none` means index `i` is not
allocated, which in Python would raise).  `step f none k` models the
situation after Python would have raised `AttributeError`. -/
def step (f : Nat → Option (Option Nat)) (p : Option Nat) : Option Nat :=
  match p with
  | some i => (f i).getD none
  | none => none

/-- Iterated dereference: `for _ in range(k): current = current.next`. -/
def walkN (f : Nat → Option (Option Nat)) (p : Option Nat) : Nat → Option Nat
  | 0 => p
  | k + 1 => walkN f (step f p) k

/-- A pointer segment: starting from pointer `p`, following the link table
`f` visits exactly the arena indices `xs` in order and then holds pointer
`q`. -/
inductive Seg (f : Nat → Option (Option Nat)) : Option Nat → List Nat → Option Nat → Prop where
  | nil {p : Option Nat} : Seg f p [] p
  | cons {i : Nat} {nx : Option Nat} {rest : List Nat} {q : Option Nat} :
      f i = some nx → Seg f nx rest q → Seg f (some i) (i :: rest) q

/-- A complete null-terminated chain: from `p`, following `f` visits
exactly `xs` and ends at the null pointer. -/
def NullChain (f : Nat → Option (Option Nat)) (p : Option Nat) (xs : List Nat) : Prop :=
  Seg f p xs none

/-- A node in a singly linked list (`Node.__init__`): `data` plus the
forward link `next`. -/
structure Node where
  data : Int
  next : Option Nat
deriving DecidableEq, Repr

/-- Arena read with a junk default (reading through a dangling index is
the embedding of a Python `AttributeError` site). -/
def getNode (ns : List Node) (i : Nat) : Node := (ns[i]?).getD ⟨0, none⟩

/-- Link table of a singly arena: the `next` field of each allocated node. -/
def nextF (ns : List Node) : Nat → Option (Option Nat) :=
  fun i => (ns[i]?).map Node.next

/-- Stored value of the node at arena index `i`. -/
def dataOf (ns : List Node) (i : Nat) : Int := (getNode ns i).data

/-- Values stored at a list of arena indices. -/
def valuesOf (ns : List Node) (idxs : List Nat) : List Int := idxs.map (dataOf ns)

/-- State of `SinglyLinkedList`: the arena plus the three instance fields
`head`, `tail`, `size`. -/
structure SinglyLinkedList where
  nodes : List Node
  head : Option Nat
  tail : Option Nat
  size : Nat
deriving DecidableEq, Repr

namespace SinglyLinkedList

/-- Transcribes `SinglyLinkedList.__init__`. -/
def empty : SinglyLinkedList := ⟨[], none, none, 0⟩

/-- Transcribes `is_empty`: `return self.head is None`. -/
def is_empty (s : SinglyLinkedList) : Bool := s.head.isNone

/-- Transcribes `__len__`: `return self.size`. -/
def len (s : SinglyLinkedList) : Nat := s.size

/-- Transcribes `append`. -/
def append (s : SinglyLinkedList) (d : Int) : SinglyLinkedList :=
  let newIdx := s.nodes.length
  let ns := s.nodes ++ [⟨d, none⟩]
  if s.is_empty then
    ⟨ns, some newIdx, some newIdx, s.size + 1⟩
  else
    match s.tail with
    | some t =>
        let ns1 := ns.set t { getNode ns t with next := some newIdx }
        ⟨ns1, s.head, some newIdx, s.size + 1⟩
    | none => s

/-- Transcribes `prepend`. -/
def prepend (s : SinglyLinkedList) (d : Int) : SinglyLinkedList :=
  let newIdx := s.nodes.length
  let ns := s.nodes ++ [⟨d, none⟩]
  if s.is_empty then
    ⟨ns, some newIdx, some newIdx, s.size + 1⟩
  else
    let ns1 := ns.set newIdx ⟨d, s.head⟩
    ⟨ns1, some newIdx, s.tail, s.size + 1⟩

/-- Transcribes `insert_at`. -/
def insert_at (s : SinglyLinkedList) (index : Int) (d : Int) :
    Except Err Unit × SinglyLinkedList :=
  if index < 0 ∨ (s.size : Int) < index then (.error (.outOfRange index), s)
  else if index = 0 then (.ok (), s.prepend d)
  else if index = (s.size : Int) then (.ok (), s.append d)
  else
    let newIdx := s.nodes.length
    let ns := s.nodes ++ [⟨d, none⟩]
    match walkN (nextF ns) s.head (index.toNat - 1) with
    | some c =>
        let ns1 := ns.set newIdx ⟨d, (getNode ns c).next⟩
        let ns2 := ns1.set c { getNode ns1 c with next := some newIdx }
        (.ok (), ⟨ns2, s.head, s.tail, s.size + 1⟩)
    | none => (.ok (), s)

/-- Transcribes `delete_first`. -/
def delete_first (s : SinglyLinkedList) : Except Err Int × SinglyLinkedList :=
  if s.is_empty then (.error .emptyCollection, s)
  else
    match s.head with
    | some h =>
        let d := (getNode s.nodes h).data
        let s1 : SinglyLinkedList := ⟨s.nodes, (getNode s.nodes h).next, s.tail, s.size - 1⟩
        if s1.is_empty then (.ok d, { s1 with tail := none })
        else (.ok d, s1)
    | none => (.error .emptyCollection, s)

/-- Loop of `delete_last`: `while current.next != self.tail: current =
current.next`, returning the predecessor of the tail. -/
def findPred (ns : List Node) (t : Option Nat) : Option Nat → Nat → Option Nat
  | _, 0 => none
  | none, _ + 1 => none
  | some c, fuel + 1 =>
      if (getNode ns c).next = t then some c
      else findPred ns t (getNode ns c).next fuel

/-- Transcribes `delete_last`. -/
def delete_last (s : SinglyLinkedList) : Except Err Int × SinglyLinkedList :=
  if s.is_empty then (.error .emptyCollection, s)
  else if s.head = s.tail then
    match s.head with
    | some h => (.ok (getNode s.nodes h).data, ⟨s.nodes, none, none, s.size - 1⟩)
    | none => (.error .emptyCollection, s)
  else
    match findPred s.nodes s.tail s.head s.size with
    | some c =>
        let d := match s.tail with
          | some t => (getNode s.nodes t).data
          | none => 0
        let ns1 := s.nodes.set c { getNode s.nodes c with next := none }
        (.ok d, ⟨ns1, s.head, some c, s.size - 1⟩)
    | none => (.ok 0, s)

/-- Transcribes `delete_at`. -/
def delete_at (s : SinglyLinkedList) (index : Int) : Except Err Int × SinglyLinkedList :=
  if index < 0 ∨ (s.size : Int) ≤ index then (.error (.outOfRange index), s)
  else if index = 0 then s.delete_first
  else
    match walkN (nextF s.nodes) s.head (index.toNat - 1) with
    | some c =>
        match (getNode s.nodes c).next with
        | some victim =>
            let d := (getNode s.nodes victim).data
            let ns1 := s.nodes.set c
              { getNode s.nodes c with next := (getNode s.nodes victim).next }
            let tl := if index = (s.size : Int) - 1 then some c else s.tail
            (.ok d, ⟨ns1, s.head, tl, s.size - 1⟩)
        | none => (.ok 0, s)
    | none => (.ok 0, s)

/-- Loop of `search`: `while current: if current.data == data: return index
...`; `fuel` bounds the walk (the invariant shows `size` suffices). -/
def searchLoop (ns : List Node) (d : Int) : Option Nat → Nat → Nat → Int
  | none, _, _ => -1
  | some _, _, 0 => -1
  | some c, idx, fuel + 1 =>
      if (getNode ns c).data = d then (idx : Int)
      else searchLoop ns d (getNode ns c).next (idx + 1) fuel

/-- Transcribes `search`. -/
def search (s : SinglyLinkedList) (d : Int) : Int :=
  searchLoop s.nodes d s.head 0 s.size

/-- Transcribes `get`. -/
def get (s : SinglyLinkedList) (index : Int) : Except Err Int × SinglyLinkedList :=
  if index < 0 ∨ (s.size : Int) ≤ index then (.error (.outOfRange index), s)
  else
    match walkN (nextF s.nodes) s.head index.toNat with
    | some c => (.ok (getNode s.nodes c).data, s)
    | none => (.ok 0, s)

/-- Loop of `reverse`: flips each `next` link while walking, returning the
updated arena and the final `prev` pointer. -/
def revLoop (ns : List Node) (prev current : Option Nat) : Nat → List Node × Option Nat
  | 0 => (ns, prev)
  | fuel + 1 =>
      match current with
      | none => (ns, prev)
      | some c =>
          let nextNode := (getNode ns c).next
          revLoop (ns.set c { getNode ns c with next := prev }) (some c) nextNode fuel

/-- Transcribes `reverse`. -/
def reverse (s : SinglyLinkedList) : SinglyLinkedList :=
  if s.is_empty ∨ s.head = s.tail then s
  else
    let r := revLoop s.nodes none s.head s.size
    ⟨r.1, r.2, s.head, s.size⟩

/-- Loop of `__iter__` / `__str__`: collect the data along the chain
(`fuel` bounds the walk; `size` suffices under the invariant). -/
def iterLoop (ns : List Node) : Option Nat → Nat → List Int
  | none, _ => []
  | some _, 0 => []
  | some c, fuel + 1 => (getNode ns c).data :: iterLoop ns (getNode ns c).next fuel

/-- Transcribes `__iter__`: the forward sequence of yielded values. -/
def toList (s : SinglyLinkedList) : List Int := iterLoop s.nodes s.head s.size

/-- Transcribes `__str__`. -/
def toStr (s : SinglyLinkedList) : String :=
  if s.is_empty then "[]"
  else String.intercalate " -> " ((iterLoop s.nodes s.head s.size).map toString)

end SinglyLinkedList

/-- A node in a doubly linked list (`DNode.__init__`): `data`, forward
link `next`, backward link `prev`. -/
structure DNode where
  data : Int
  next : Option Nat
  prev : Option Nat
deriving DecidableEq, Repr

/-- Arena read with a junk default, doubly variant. -/
def getDNode (ns : List DNode) (i : Nat) : DNode := (ns[i]?).getD ⟨0, none, none⟩

/-- Forward link table of a doubly arena. -/
def dnextF (ns : List DNode) : Nat → Option (Option Nat) :=
  fun i => (ns[i]?).map DNode.next

/-- Backward link table of a doubly arena. -/
def dprevF (ns : List DNode) : Nat → Option (Option Nat) :=
  fun i => (ns[i]?).map DNode.prev

/-- Stored value of the doubly node at arena index `i`. -/
def ddataOf (ns : List DNode) (i : Nat) : Int := (getDNode ns i).data

/-- Values stored at a list of arena indices, doubly variant. -/
def dvaluesOf (ns : List DNode) (idxs : List Nat) : List Int := idxs.map (ddataOf ns)

/-- State of `DoublyLinkedList`: the arena plus the three instance fields
`head`, `tail`, `size`. -/
structure DoublyLinkedList where
  nodes : List DNode
  head : Option Nat
  tail : Option Nat
  size : Nat
deriving DecidableEq, Repr

namespace DoublyLinkedList

/-- Transcribes `DoublyLinkedList.__init__`. -/
def empty : DoublyLinkedList := ⟨[], none, none, 0⟩

/-- Transcribes `is_empty`: `return self.head is None`. -/
def is_empty (s : DoublyLinkedList) : Bool := s.head.isNone

/-- Transcribes `__len__`: `return self.size`. -/
def len (s : DoublyLinkedList) : Nat := s.size

/-- Transcribes `append`. -/
def append (s : DoublyLinkedList) (d : Int) : DoublyLinkedList :=
  let newIdx := s.nodes.length
  let ns := s.nodes ++ [⟨d, none, none⟩]
  if s.is_empty then
    ⟨ns, some newIdx, some newIdx, s.size + 1⟩
  else
    match s.tail with
    | some t =>
        let ns1 := ns.set newIdx ⟨d, none, some t⟩
        let ns2 := ns1.set t { getDNode ns1 t with next := some newIdx }
        ⟨ns2, s.head, some newIdx, s.size + 1⟩
    | none => s

/-- Transcribes `prepend`. -/
def prepend (s : DoublyLinkedList) (d : Int) : DoublyLinkedList :=
  let newIdx := s.nodes.length
  let ns := s.nodes ++ [⟨d, none, none⟩]
  if s.is_empty then
    ⟨ns, some newIdx, some newIdx, s.size + 1⟩
  else
    match s.head with
    | some h =>
        let ns1 := ns.set newIdx ⟨d, some h, none⟩
        let ns2 := ns1.set h { getDNode ns1 h with prev := some newIdx }
        ⟨ns2, some newIdx, s.tail, s.size + 1⟩
    | none => s

/-- Nearest-end cursor selection shared by `insert_at`, `delete_at`,
`get`: `if index < self.size // 2` walk forward from head, else walk
backward from tail. -/
def cursor (s : DoublyLinkedList) (index : Int) : Option Nat :=
  if index < ((s.size / 2 : Nat) : Int) then
    walkN (dnextF s.nodes) s.head index.toNat
  else
    walkN (dprevF s.nodes) s.tail ((s.size : Int) - index - 1).toNat

/-- Transcribes `insert_at`. -/
def insert_at (s : DoublyLinkedList) (index : Int) (d : Int) :
    Except Err Unit × DoublyLinkedList :=
  if index < 0 ∨ (s.size : Int) < index then (.error (.outOfRange index), s)
  else if index = 0 then (.ok (), s.prepend d)
  else if index = (s.size : Int) then (.ok (), s.append d)
  else
    let newIdx := s.nodes.length
    let ns := s.nodes ++ [⟨d, none, none⟩]
    match cursor ⟨ns, s.head, s.tail, s.size⟩ index with
    | some c =>
        let ns1 := ns.set newIdx ⟨d, some c, (getDNode ns c).prev⟩
        match (getDNode ns c).prev with
        | some p =>
            let ns2 := ns1.set p { getDNode ns1 p with next := some newIdx }
            let ns3 := ns2.set c { getDNode ns2 c with prev := some newIdx }
            (.ok (), ⟨ns3, s.head, s.tail, s.size + 1⟩)
        | none => (.ok (), s)
    | none => (.ok (), s)

/-- Transcribes `delete_first`. -/
def delete_first (s : DoublyLinkedList) : Except Err Int × DoublyLinkedList :=
  if s.is_empty then (.error .emptyCollection, s)
  else
    match s.head with
    | some h =>
        let d := (getDNode s.nodes h).data
        if s.head = s.tail then (.ok d, ⟨s.nodes, none, none, s.size - 1⟩)
        else
          match (getDNode s.nodes h).next with
          | some h2 =>
              let ns1 := s.nodes.set h2 { getDNode s.nodes h2 with prev := none }
              (.ok d, ⟨ns1, some h2, s.tail, s.size - 1⟩)
          | none => (.ok 0, s)
    | none => (.error .emptyCollection, s)

/-- Transcribes `delete_last`. -/
def delete_last (s : DoublyLinkedList) : Except Err Int × DoublyLinkedList :=
  if s.is_empty then (.error .emptyCollection, s)
  else
    match s.tail with
    | some t =>
        let d := (getDNode s.nodes t).data
        if s.head = s.tail then (.ok d, ⟨s.nodes, none, none, s.size - 1⟩)
        else
          match (getDNode s.nodes t).prev with
          | some t2 =>
              let ns1 := s.nodes.set t2 { getDNode s.nodes t2 with next := none }
              (.ok d, ⟨ns1, s.head, some t2, s.size - 1⟩)
          | none => (.ok 0, s)
    | none => (.error .emptyCollection, s)

/-- Transcribes `delete_at`. -/
def delete_at (s : DoublyLinkedList) (index : Int) : Except Err Int × DoublyLinkedList :=
  if index < 0 ∨ (s.size : Int) ≤ index then (.error (.outOfRange index), s)
  else if index = 0 then s.delete_first
  else if index = (s.size : Int) - 1 then s.delete_last
  else
    match cursor s index with
    | some c =>
        let d := (getDNode s.nodes c).data
        match (getDNode s.nodes c).prev, (getDNode s.nodes c).next with
        | some p, some nx =>
            let ns1 := s.nodes.set p { getDNode s.nodes p with next := some nx }
            let ns2 := ns1.set nx { getDNode ns1 nx with prev := some p }
            (.ok d, ⟨ns2, s.head, s.tail, s.size - 1⟩)
        | _, _ => (.ok 0, s)
    | none => (.ok 0, s)

/-- Loop of `search` for the doubly list. -/
def searchLoop (ns : List DNode) (d : Int) : Option Nat → Nat → Nat → Int
  | none, _, _ => -1
  | some _, _, 0 => -1
  | some c, idx, fuel + 1 =>
      if (getDNode ns c).data = d then (idx : Int)
      else searchLoop ns d (getDNode ns c).next (idx + 1) fuel

/-- Transcribes `search`. -/
def search (s : DoublyLinkedList) (d : Int) : Int :=
  searchLoop s.nodes d s.head 0 s.size

/-- Transcribes `get`. -/
def get (s : DoublyLinkedList) (index : Int) : Except Err Int × DoublyLinkedList :=
  if index < 0 ∨ (s.size : Int) ≤ index then (.error (.outOfRange index), s)
  else
    match cursor s index with
    | some c => (.ok (getDNode s.nodes c).data, s)
    | none => (.ok 0, s)

/-- Loop of `reverse`: swap the `next`/`prev` links of each node while
walking along the original forward order. -/
def revLoop (ns : List DNode) (current : Option Nat) : Nat → List DNode
  | 0 => ns
  | fuel + 1 =>
      match current with
      | none => ns
      | some c =>
          let n := getDNode ns c
          revLoop (ns.set c { n with next := n.prev, prev := n.next }) n.next fuel

/-- Transcribes `reverse`. -/
def reverse (s : DoublyLinkedList) : DoublyLinkedList :=
  if s.is_empty ∨ s.head = s.tail then s
  else ⟨revLoop s.nodes s.head s.size, s.tail, s.head, s.size⟩

/-- Loop of `__iter__` / `__str__`: collect data forward along `next`. -/
def iterLoop (ns : List DNode) : Option Nat → Nat → List Int
  | none, _ => []
  | some _, 0 => []
  | some c, fuel + 1 => (getDNode ns c).data :: iterLoop ns (getDNode ns c).next fuel

/-- Loop of `reverse_iter` / `str_reverse`: collect data backward along
`prev`. -/
def reverseIterLoop (ns : List DNode) : Option Nat → Nat → List Int
  | none, _ => []
  | some _, 0 => []
  | some c, fuel + 1 => (getDNode ns c).data :: reverseIterLoop ns (getDNode ns c).prev fuel

/-- Transcribes `__iter__`: the forward sequence of yielded values. -/
def toList (s : DoublyLinkedList) : List Int := iterLoop s.nodes s.head s.size

/-- Transcribes `reverse_iter`: the backward sequence of yielded values. -/
def reverse_iter (s : DoublyLinkedList) : List Int :=
  reverseIterLoop s.nodes s.tail s.size

/-- Transcribes `__str__`. -/
def toStr (s : DoublyLinkedList) : String :=
  if s.is_empty then "[]"
  else String.intercalate " <-> " ((iterLoop s.nodes s.head s.size).map toString)

/-- Transcribes `str_reverse`. -/
def str_reverse (s : DoublyLinkedList) : String :=
  if s.is_empty then "[]"
  else String.intercalate " <-> " ((reverseIterLoop s.nodes s.tail s.size).map toString)

end DoublyLinkedList

/-- An insertion-only operation, for comparing a chain against a reference
array built with equivalent end/start insertions. -/
inductive InsOp where
  | append (v : Int)
  | prepend (v : Int)
deriving DecidableEq, Repr

/-- Runs a sequence of append/prepend operations on a fresh singly list. -/
def runInsS (ops : List InsOp) : SinglyLinkedList :=
  ops.foldl
    (fun s op =>
      match op with
      | .append v => s.append v
      | .prepend v => s.prepend v)
    SinglyLinkedList.empty

/-- Runs a sequence of append/prepend operations on a fresh doubly list. -/
def runInsD (ops : List InsOp) : DoublyLinkedList :=
  ops.foldl
    (fun s op =>
      match op with
      | .append v => s.append v
      | .prepend v => s.prepend v)
    DoublyLinkedList.empty

/-- Reference array semantics: `append` inserts at the end, `prepend` at
the start of a plain list. -/
def refArray (ops : List InsOp) : List Int :=
  ops.foldl
    (fun l op =>
      match op with
      | .append v => l ++ [v]
      | .prepend v => v :: l)
    []

/-- One public mutating operation of either list class. -/
inductive ListOp where
  | append (v : Int)
  | prepend (v : Int)
  | insert_at (i : Int) (v : Int)
  | delete_first
  | delete_last
  | delete_at (i : Int)
  | reverse
deriving DecidableEq, Repr

/-- Applies one operation to a singly list, keeping the post state (a
raising call leaves the state unchanged). -/
def stepS (s : SinglyLinkedList) (op : ListOp) : SinglyLinkedList :=
  match op with
  | .append v => s.append v
  | .prepend v => s.prepend v
  | .insert_at i v => (s.insert_at i v).2
  | .delete_first => s.delete_first.2
  | .delete_last => s.delete_last.2
  | .delete_at i => (s.delete_at i).2
  | .reverse => s.reverse

/-- Runs a sequence of operations on a fresh singly list. -/
def runS (ops : List ListOp) : SinglyLinkedList :=
  ops.foldl stepS SinglyLinkedList.empty

/-- Applies one operation to a doubly list, keeping the post state. -/
def stepD (s : DoublyLinkedList) (op : ListOp) : DoublyLinkedList :=
  match op with
  | .append v => s.append v
  | .prepend v => s.prepend v
  | .insert_at i v => (s.insert_at i v).2
  | .delete_first => s.delete_first.2
  | .delete_last => s.delete_last.2
  | .delete_at i => (s.delete_at i).2
  | .reverse => s.reverse

/-- Runs a sequence of operations on a fresh doubly list. -/
def runD (ops : List ListOp) : DoublyLinkedList :=
  ops.foldl stepD DoublyLinkedList.empty

/-- Counts the successful insertions and removals of a singly run starting
from `s`: first component net insertions, second net removals. -/
def countS (s : SinglyLinkedList) : List ListOp → Nat × Nat
  | [] => (0, 0)
  | op :: rest =>
      let c := countS (stepS s op) rest
      match op with
      | .append _ => (c.1 + 1, c.2)
      | .prepend _ => (c.1 + 1, c.2)
      | .insert_at i v =>
          match (s.insert_at i v).1 with
          | .ok _ => (c.1 + 1, c.2)
          | .error _ => c
      | .delete_first =>
          match s.delete_first.1 with
          | .ok _ => (c.1, c.2 + 1)
          | .error _ => c
      | .delete_last =>
          match s.delete_last.1 with
          | .ok _ => (c.1, c.2 + 1)
          | .error _ => c
      | .delete_at i =>
          match (s.delete_at i).1 with
          | .ok _ => (c.1, c.2 + 1)
          | .error _ => c
      | .reverse => c

/-- Counts the successful insertions and removals of a doubly run. -/
def countD (s : DoublyLinkedList) : List ListOp → Nat × Nat
  | [] => (0, 0)
  | op :: rest =>
      let c := countD (stepD s op) rest
      match op with
      | .append _ => (c.1 + 1, c.2)
      | .prepend _ => (c.1 + 1, c.2)
      | .insert_at i v =>
          match (s.insert_at i v).1 with
          | .ok _ => (c.1 + 1, c.2)
          | .error _ => c
      | .delete_first =>
          match s.delete_first.1 with
          | .ok _ => (c.1, c.2 + 1)
          | .error _ => c
      | .delete_last =>
          match s.delete_last.1 with
          | .ok _ => (c.1, c.2 + 1)
          | .error _ => c
      | .delete_at i =>
          match (s.delete_at i).1 with
          | .ok _ => (c.1, c.2 + 1)
          | .error _ => c
      | .reverse => c

/-- Pointer held after `k` forward steps through the index list `xs`
(`none` once past the end). -/
def ptrAt (xs : List Nat) (k : Nat) : Option Nat := (xs.drop k).head?

/-- Representation invariant of `SinglyLinkedList`: `xs` lists the arena
indices of the chain in forward order; `head` starts it, the chain is
null-terminated, `tail` is its last node and `size` its length. -/
structure SInv (s : SinglyLinkedList) (xs : List Nat) : Prop where
  chain : NullChain (nextF s.nodes) s.head xs
  tail_eq : s.tail = xs.getLast?
  size_eq : s.size = xs.length

/-- Representation invariant of `DoublyLinkedList`: forward chain from
`head` through `next`, backward chain from `tail` through `prev` visiting
the same nodes reversed, `size` the length. -/
structure DInv (s : DoublyLinkedList) (xs : List Nat) : Prop where
  fwd : NullChain (dnextF s.nodes) s.head xs
  bwd : NullChain (dprevF s.nodes) s.tail xs.reverse
  size_eq : s.size = xs.length

/-- Scenario chain from the spec: append 1, 2, 3 on a singly list. -/
def demoS3 : SinglyLinkedList :=
  ((SinglyLinkedList.empty.append 1).append 2).append 3

/-- Scenario chain from the spec: append 1, 2, 3 on a doubly list. -/
def demoD3 : DoublyLinkedList :=
  ((DoublyLinkedList.empty.append 1).append 2).append 3

/-- Scenario chain from the spec: append 10, 20, 30 on a singly list. -/
def demoSearchS : SinglyLinkedList :=
  ((SinglyLinkedList.empty.append 10).append 20).append 30

/-- Scenario chain from the spec: append 10, 20, 30 on a doubly list. -/
def demoSearchD : DoublyLinkedList :=
  ((DoublyLinkedList.empty.append 10).append 20).append 30

/-- Scenario chain of size 10 holding 1..10, singly. -/
def demoS10 : SinglyLinkedList :=
  (((((((((SinglyLinkedList.empty.append 1).append 2).append 3).append
    4).append 5).append 6).append 7).append 8).append 9).append 10

/-- Scenario chain of size 10 holding 1..10, doubly. -/
def demoD10 : DoublyLinkedList :=
  (((((((((DoublyLinkedList.empty.append 1).append 2).append 3).append
    4).append 5).append 6).append 7).append 8).append 9).append 10

/-! Generic lemmas about pointer segments and chains. -/

theorem seg_nil_inv {f : Nat → Option (Option Nat)} {p q : Option Nat}
    (h : Seg f p [] q) : p = q := by
  cases h; rfl

theorem seg_cons_inv {f : Nat → Option (Option Nat)} {p q : Option Nat} {i : Nat}
    {rest : List Nat} (h : Seg f p (i :: rest) q) :
    p = some i ∧ ∃ nx, f i = some nx ∧ Seg f nx rest q := by
  cases h with
  | cons hf hr => exact ⟨rfl, _, hf, hr⟩

theorem seg_congr {f g : Nat → Option (Option Nat)} {p q : Option Nat} {xs : List Nat}
    (hfg : ∀ i ∈ xs, g i = f i) (h : Seg f p xs q) : Seg g p xs q := by
  induction h with
  | nil => exact .nil
  | @cons i nx rest q hf hr ih =>
      exact .cons ((hfg i (List.mem_cons_self i rest)).trans hf)
        (ih fun j hj => hfg j (List.mem_cons_of_mem i hj))

theorem seg_trans {f : Nat → Option (Option Nat)} {p q r : Option Nat} {xs ys : List Nat}
    (h1 : Seg f p xs q) (h2 : Seg f q ys r) : Seg f p (xs ++ ys) r := by
  induction h1 with
  | nil => exact h2
  | cons hf _ ih => exact .cons hf (ih h2)

theorem seg_split {f : Nat → Option (Option Nat)} {p r : Option Nat} {xs ys : List Nat}
    (h : Seg f p (xs ++ ys) r) : ∃ q, Seg f p xs q ∧ Seg f q ys r := by
  induction xs generalizing p with
  | nil => exact ⟨p, .nil, h⟩
  | cons i rest ih =>
      obtain ⟨hp, nx, hf, hr⟩ := seg_cons_inv h
      obtain ⟨q, hq1, hq2⟩ := ih hr
      exact ⟨q, hp ▸ .cons hf hq1, hq2⟩

theorem nullchain_head_eq {f : Nat → Option (Option Nat)} {p : Option Nat} {xs : List Nat}
    (h : NullChain f p xs) : p = xs.head? := by
  cases h with
  | nil => rfl
  | cons hf hr => rfl

theorem seg_valid {f : Nat → Option (Option Nat)} {p q : Option Nat} {xs : List Nat}
    (h : Seg f p xs q) : ∀ i ∈ xs, ∃ nx, f i = some nx := by
  induction h with
  | nil => intro i hi; cases hi
  | @cons i nx rest q hf hr ih =>
      intro j hj
      rcases List.mem_cons.mp hj with rfl | hj
      · exact ⟨nx, hf⟩
      · exact ih j hj

theorem nullchain_unique {f : Nat → Option (Option Nat)} {p : Option Nat} {xs ys : List Nat}
    (h1 : NullChain f p xs) (h2 : NullChain f p ys) : xs = ys := by
  induction xs generalizing p ys with
  | nil =>
      have hp := seg_nil_inv h1
      subst hp
      cases h2 with
      | nil => rfl
  | cons i rest ih =>
      obtain ⟨hp, nx, hf, hr⟩ := seg_cons_inv h1
      subst hp
      cases ys with
      | nil => exact absurd (seg_nil_inv h2) (by simp)
      | cons j rest2 =>
          obtain ⟨hp2, nx2, hf2, hr2⟩ := seg_cons_inv h2
          have hij : i = j := Option.some.inj hp2
          subst hij
          have hnx : nx2 = nx := Option.some.inj (hf2.symm.trans hf)
          subst hnx
          exact congrArg (i :: ·) (ih hr hr2)

theorem nullchain_nodup {f : Nat → Option (Option Nat)} {p : Option Nat} {xs : List Nat}
    (h : NullChain f p xs) : xs.Nodup := by
  induction xs generalizing p with
  | nil => exact List.nodup_nil
  | cons i rest ih =>
      obtain ⟨hp, nx, hf, hr⟩ := seg_cons_inv h
      refine List.nodup_cons.mpr ⟨?_, ih hr⟩
      intro hmem
      obtain ⟨a, b, hab⟩ := List.append_of_mem hmem
      have hr2 : Seg f nx (a ++ i :: b) none := hab ▸ hr
      obtain ⟨q, hq1, hq2⟩ := seg_split hr2
      obtain ⟨hq, nx2, hf2, hb⟩ := seg_cons_inv hq2
      have hnx : nx2 = nx := Option.some.inj (hf2.symm.trans hf)
      subst hnx
      have hrb : rest = b := nullchain_unique hr hb
      have hlen : rest.length = a.length + (b.length + 1) := by
        rw [hab]; simp [List.length_append]
      rw [hrb] at hlen
      omega

theorem seg_walk {f : Nat → Option (Option Nat)} {p q : Option Nat} {xs : List Nat}
    (h : Seg f p xs q) : walkN f p xs.length = q := by
  induction h with
  | nil => rfl
  | @cons i nx rest q hf hr ih =>
      show walkN f (step f (some i)) rest.length = q
      have hstep : step f (some i) = nx := by simp [step, hf]
      rw [hstep]; exact ih

theorem nullchain_walk {f : Nat → Option (Option Nat)} {p : Option Nat} {xs : List Nat}
    (h : NullChain f p xs) {k : Nat} (hk : k ≤ xs.length) :
    walkN f p k = ptrAt xs k := by
  have hx : xs.take k ++ xs.drop k = xs := List.take_append_drop k xs
  obtain ⟨q, h1, h2⟩ := seg_split (p := p) (r := none) (hx ▸ h)
  have hlen : (xs.take k).length = k := by
    rw [List.length_take]; omega
  have hw : walkN f p k = q := hlen ▸ seg_walk h1
  have hq : q = ptrAt xs k := nullchain_head_eq h2
  rw [hw, hq]

theorem nullchain_next_at {f : Nat → Option (Option Nat)} {p : Option Nat} {xs : List Nat}
    (h : NullChain f p xs) {k : Nat} (hk : k < xs.length) :
    f (xs.get ⟨k, hk⟩) = some (ptrAt xs (k + 1)) := by
  have hx : xs.take k ++ xs.drop k = xs := List.take_append_drop k xs
  obtain ⟨q, h1, h2⟩ := seg_split (p := p) (r := none) (hx ▸ h)
  rw [List.drop_eq_getElem_cons hk] at h2
  obtain ⟨hq, nx, hf, hr⟩ := seg_cons_inv h2
  have : nx = ptrAt xs (k + 1) := nullchain_head_eq hr
  subst this
  exact hf

theorem nullchain_getLast_next {f : Nat → Option (Option Nat)} {p : Option Nat}
    {xs : List Nat} (h : NullChain f p xs) (hne : xs ≠ []) :
    f (xs.getLast hne) = some none := by
  have hk : xs.length - 1 < xs.length := by
    cases xs with
    | nil => exact absurd rfl hne
    | cons a l => simp
  have := nullchain_next_at h hk
  rw [List.getLast_eq_getElem]
  have hdrop : xs.drop (xs.length - 1 + 1) = [] := by
    apply List.drop_eq_nil_of_le; omega
  rw [show ptrAt xs (xs.length - 1 + 1) = none by rw [ptrAt, hdrop]; rfl] at this
  exact this

/-! Arena access helpers. -/

theorem getElem_some_lt {α : Type} {ns : List α} {i : Nat} {a : α}
    (h : ns[i]? = some a) : i < ns.length := by
  by_contra hlt
  rw [List.getElem?_eq_none (by omega)] at h
  cases h

theorem nextF_getNode {ns : List Node} {i : Nat} {nx : Option Nat}
    (h : nextF ns i = some nx) : (getNode ns i).next = nx ∧ i < ns.length := by
  unfold nextF at h
  cases hh : ns[i]? with
  | none => rw [hh] at h; cases h
  | some node =>
      rw [hh] at h
      refine ⟨?_, getElem_some_lt hh⟩
      simp [getNode, hh]
      exact Option.some.inj h

theorem dnextF_getDNode {ns : List DNode} {i : Nat} {nx : Option Nat}
    (h : dnextF ns i = some nx) : (getDNode ns i).next = nx ∧ i < ns.length := by
  unfold dnextF at h
  cases hh : ns[i]? with
  | none => rw [hh] at h; cases h
  | some node =>
      rw [hh] at h
      refine ⟨?_, getElem_some_lt hh⟩
      simp [getDNode, hh]
      exact Option.some.inj h

theorem dprevF_getDNode {ns : List DNode} {i : Nat} {nx : Option Nat}
    (h : dprevF ns i = some nx) : (getDNode ns i).prev = nx ∧ i < ns.length := by
  unfold dprevF at h
  cases hh : ns[i]? with
  | none => rw [hh] at h; cases h
  | some node =>
      rw [hh] at h
      refine ⟨?_, getElem_some_lt hh⟩
      simp [getDNode, hh]
      exact Option.some.inj h

theorem seg_next_mem_lt {ns : List Node} {p q : Option Nat} {xs : List Nat}
    (h : Seg (nextF ns) p xs q) : ∀ i ∈ xs, i < ns.length := by
  intro i hi
  obtain ⟨nx, hnx⟩ := seg_valid h i hi
  exact (nextF_getNode hnx).2

theorem dseg_next_mem_lt {ns : List DNode} {p q : Option Nat} {xs : List Nat}
    (h : Seg (dnextF ns) p xs q) : ∀ i ∈ xs, i < ns.length := by
  intro i hi
  obtain ⟨nx, hnx⟩ := seg_valid h i hi
  exact (dnextF_getDNode hnx).2

theorem dseg_prev_mem_lt {ns : List DNode} {p q : Option Nat} {xs : List Nat}
    (h : Seg (dprevF ns) p xs q) : ∀ i ∈ xs, i < ns.length := by
  intro i hi
  obtain ⟨nx, hnx⟩ := seg_valid h i hi
  exact (dprevF_getDNode hnx).2

theorem nextF_eq_of_getElem_eq {ns2 ns : List Node} {i : Nat}
    (h : ns2[i]? = ns[i]?) : nextF ns2 i = nextF ns i := by
  simp [nextF, h]

theorem dataOf_eq_of_getElem_eq {ns2 ns : List Node} {i : Nat}
    (h : ns2[i]? = ns[i]?) : dataOf ns2 i = dataOf ns i := by
  simp [dataOf, getNode, h]

theorem valuesOf_congr {ns2 ns : List Node} {xs : List Nat}
    (h : ∀ i ∈ xs, dataOf ns2 i = dataOf ns i) : valuesOf ns2 xs = valuesOf ns xs :=
  List.map_congr_left h

theorem dvaluesOf_congr {ns2 ns : List DNode} {xs : List Nat}
    (h : ∀ i ∈ xs, ddataOf ns2 i = ddataOf ns i) : dvaluesOf ns2 xs = dvaluesOf ns xs :=
  List.map_congr_left h

/-! Traversal-loop specifications for the singly linked list. -/

theorem sll_iterLoop_spec {ns : List Node} {p : Option Nat} {xs : List Nat} {fuel : Nat}
    (h : NullChain (nextF ns) p xs) (hf : xs.length ≤ fuel) :
    SinglyLinkedList.iterLoop ns p fuel = valuesOf ns xs := by
  induction xs generalizing p fuel with
  | nil =>
      have hp := seg_nil_inv h
      subst hp
      cases fuel <;> rfl
  | cons i rest ih =>
      obtain ⟨hp, nx, hnx, hr⟩ := seg_cons_inv h
      subst hp
      cases fuel with
      | zero => simp at hf
      | succ f =>
          have hnode := (nextF_getNode hnx).1
          show (getNode ns i).data :: SinglyLinkedList.iterLoop ns (getNode ns i).next f = _
          rw [hnode, ih hr (by simpa using hf)]
          rfl

theorem sll_searchLoop_spec {ns : List Node} {d : Int} {p : Option Nat} {xs : List Nat}
    {k fuel : Nat} (h : NullChain (nextF ns) p xs) (hf : xs.length ≤ fuel) :
    SinglyLinkedList.searchLoop ns d p k fuel =
      match (valuesOf ns xs).findIdx? (fun v => v == d) with
      | some j => ((k + j : Nat) : Int)
      | none => -1 := by
  induction xs generalizing p fuel k with
  | nil =>
      have hp := seg_nil_inv h
      subst hp
      cases fuel <;> simp [SinglyLinkedList.searchLoop, valuesOf]
  | cons i rest ih =>
      obtain ⟨hp, nx, hnx, hr⟩ := seg_cons_inv h
      subst hp
      cases fuel with
      | zero => simp at hf
      | succ f =>
          have hnode := (nextF_getNode hnx).1
          have hds : dataOf ns i = (getNode ns i).data := rfl
          show (if (getNode ns i).data = d then (k : Int)
            else SinglyLinkedList.searchLoop ns d (getNode ns i).next (k + 1) f) = _
          rw [hnode]
          have hvals : valuesOf ns (i :: rest) = dataOf ns i :: valuesOf ns rest := rfl
          rw [hvals, List.findIdx?_cons, List.findIdx?_succ]
          by_cases hd : (getNode ns i).data = d
          · rw [if_pos hd]
            have hb : (dataOf ns i == d) = true := by rw [hds]; simp [hd]
            rw [hb]
            simp
          · rw [if_neg hd]
            have hb : (dataOf ns i == d) = false := by rw [hds]; simp [hd]
            rw [hb]
            rw [ih hr (by simpa using hf)]
            cases hfind : (valuesOf ns rest).findIdx? (fun v => v == d) with
            | none => simp
            | some j =>
                simp only [Option.map_some']
                show ((k + 1 + j : Nat) : Int) = ((k + (j + 1) : Nat) : Int)
                congr 1
                omega

/-! Derived facts from the singly invariant, and per-operation
specifications. -/

theorem sinv_head_eq {s : SinglyLinkedList} {xs : List Nat} (h : SInv s xs) :
    s.head = xs.head? := nullchain_head_eq h.chain

theorem sinv_mem_lt {s : SinglyLinkedList} {xs : List Nat} (h : SInv s xs) :
    ∀ i ∈ xs, i < s.nodes.length := seg_next_mem_lt h.chain

theorem sinv_nodup {s : SinglyLinkedList} {xs : List Nat} (h : SInv s xs) :
    xs.Nodup := nullchain_nodup h.chain

theorem sinv_is_empty_iff {s : SinglyLinkedList} {xs : List Nat} (h : SInv s xs) :
    s.is_empty = true ↔ xs = [] := by
  rw [SinglyLinkedList.is_empty, sinv_head_eq h, Option.isNone_iff_eq_none,
    List.head?_eq_none_iff]

theorem sll_empty_inv : SInv SinglyLinkedList.empty [] := ⟨Seg.nil, rfl, rfl⟩

theorem sll_append_spec {s : SinglyLinkedList} {xs : List Nat} (d : Int) (h : SInv s xs) :
    SInv (s.append d) (xs ++ [s.nodes.length]) ∧
      valuesOf (s.append d).nodes (xs ++ [s.nodes.length]) = valuesOf s.nodes xs ++ [d] := by
  by_cases hemp : s.is_empty = true
  · have hxs : xs = [] := (sinv_is_empty_iff h).mp hemp
    subst hxs
    have happ : s.append d =
        ⟨s.nodes ++ [⟨d, none⟩], some s.nodes.length, some s.nodes.length, s.size + 1⟩ := by
      simp [SinglyLinkedList.append, hemp]
    rw [happ]
    refine ⟨⟨?_, by simp, by simpa using h.size_eq⟩, ?_⟩
    · refine Seg.cons ?_ Seg.nil
      show ((s.nodes ++ [⟨d, none⟩])[s.nodes.length]?).map Node.next = some none
      rw [List.getElem?_concat_length]
      rfl
    · simp [valuesOf, dataOf, getNode, List.getElem?_concat_length]
  · have hxs : xs ≠ [] := fun hh => hemp ((sinv_is_empty_iff h).mpr hh)
    have htail : s.tail = some (xs.getLast hxs) := by
      rw [h.tail_eq, List.getLast?_eq_getLast xs hxs]
    have hempf : s.is_empty = false := by
      cases hb : s.is_empty with
      | true => exact absurd hb hemp
      | false => rfl
    set t := xs.getLast hxs with ht
    set newIdx := s.nodes.length with hni
    set ns := s.nodes ++ [(⟨d, none⟩ : Node)] with hns
    set m : Node := { getNode ns t with next := some newIdx } with hm
    have happ : s.append d = ⟨ns.set t m, s.head, some newIdx, s.size + 1⟩ := by
      simp only [SinglyLinkedList.append, hempf, Bool.false_eq_true, if_false, htail]
    have htlt : t < s.nodes.length := sinv_mem_lt h t (List.getLast_mem hxs)
    have hsplit : xs.dropLast ++ [t] = xs := List.dropLast_append_getLast hxs
    have hnodup : xs.Nodup := sinv_nodup h
    have htnotin : t ∉ xs.dropLast := by
      have hnd : (xs.dropLast ++ [t]).Nodup := hsplit.symm ▸ hnodup
      have h2 := List.nodup_append.mp hnd
      intro hmem
      exact h2.2.2 hmem (List.mem_singleton.mpr rfl)
    -- frame: nodes of the old chain other than t keep their links
    have hframe : ∀ i ∈ xs, i ≠ t → nextF (ns.set t m) i = nextF s.nodes i := by
      intro i hi hit
      have hilt : i < s.nodes.length := sinv_mem_lt h i hi
      apply nextF_eq_of_getElem_eq
      rw [List.getElem?_set_ne (fun hh => hit hh.symm), List.getElem?_append_left hilt]
    have hdata : ∀ i ∈ xs, dataOf (ns.set t m) i = dataOf s.nodes i := by
      intro i hi
      have hilt : i < s.nodes.length := sinv_mem_lt h i hi
      by_cases hit : i = t
      · rw [hit]
        have hlen2 : t < ns.length := by rw [hns, List.length_append]; omega
        have h1 : (ns.set t m)[t]? = some m := List.getElem?_set_self hlen2
        have h3 : ns[t]? = s.nodes[t]? := by rw [hns, List.getElem?_append_left htlt]
        simp only [dataOf, getNode, hm, h3]
        rw [List.getElem?_set_self hlen2, Option.getD_some]
      · apply dataOf_eq_of_getElem_eq
        rw [List.getElem?_set_ne (fun hh => hit hh.symm), List.getElem?_append_left hilt]
    -- the old chain decomposed at its last node
    obtain ⟨q, hq1, hq2⟩ := seg_split (p := s.head) (r := none) (hsplit ▸ h.chain)
    obtain ⟨hqt, nx, hnx, hnil⟩ := seg_cons_inv hq2
    have hchain : NullChain (nextF (ns.set t m)) s.head (xs ++ [newIdx]) := by
      have hseg1 : Seg (nextF (ns.set t m)) s.head xs.dropLast q := by
        apply seg_congr _ hq1
        intro i hi
        exact hframe i (hsplit ▸ List.mem_append_left [t] hi) (fun hh => htnotin (hh ▸ hi))
      have hseg2 : Seg (nextF (ns.set t m)) q [t] (some newIdx) := by
        rw [hqt]
        refine Seg.cons ?_ Seg.nil
        show ((ns.set t m)[t]?).map Node.next = some (some newIdx)
        rw [List.getElem?_set_self (by rw [hns, List.length_append]; omega)]
        rfl
      have hseg3 : Seg (nextF (ns.set t m)) (some newIdx) [newIdx] none := by
        refine Seg.cons ?_ Seg.nil
        show ((ns.set t m)[newIdx]?).map Node.next = some none
        rw [List.getElem?_set_ne (by omega), hns, List.getElem?_concat_length]
        rfl
      have := seg_trans (seg_trans hseg1 hseg2) hseg3
      rw [← hsplit]
      simpa using this
    refine ⟨⟨by rw [happ]; exact hchain, ?_, ?_⟩, ?_⟩
    · rw [happ]
      show some newIdx = (xs ++ [newIdx]).getLast?
      rw [List.getLast?_concat]
    · rw [happ]
      show s.size + 1 = (xs ++ [newIdx]).length
      rw [h.size_eq, List.length_append, List.length_singleton]
    · rw [happ]
      show valuesOf (ns.set t m) (xs ++ [newIdx]) = valuesOf s.nodes xs ++ [d]
      rw [valuesOf, List.map_append, ← valuesOf, ← valuesOf, valuesOf_congr hdata]
      congr 1
      show [dataOf (ns.set t m) newIdx] = [d]
      congr 1
      rw [dataOf, getNode, List.getElem?_set_ne (by omega), hns,
        List.getElem?_concat_length]
      rfl

theorem sll_prepend_spec {s : SinglyLinkedList} {xs : List Nat} (d : Int) (h : SInv s xs) :
    SInv (s.prepend d) (s.nodes.length :: xs) ∧
      valuesOf (s.prepend d).nodes (s.nodes.length :: xs) = d :: valuesOf s.nodes xs := by
  by_cases hemp : s.is_empty = true
  · have hxs : xs = [] := (sinv_is_empty_iff h).mp hemp
    subst hxs
    have hpre : s.prepend d =
        ⟨s.nodes ++ [⟨d, none⟩], some s.nodes.length, some s.nodes.length, s.size + 1⟩ := by
      simp [SinglyLinkedList.prepend, hemp]
    rw [hpre]
    refine ⟨⟨?_, by simp, by simpa using h.size_eq⟩, ?_⟩
    · refine Seg.cons ?_ Seg.nil
      show ((s.nodes ++ [⟨d, none⟩])[s.nodes.length]?).map Node.next = some none
      rw [List.getElem?_concat_length]
      rfl
    · simp [valuesOf, dataOf, getNode, List.getElem?_concat_length]
  · have hxs : xs ≠ [] := fun hh => hemp ((sinv_is_empty_iff h).mpr hh)
    have hempf : s.is_empty = false := by
      cases hb : s.is_empty with
      | true => exact absurd hb hemp
      | false => rfl
    set newIdx := s.nodes.length with hni
    set ns := s.nodes ++ [(⟨d, none⟩ : Node)] with hns
    set ns1 := ns.set newIdx ⟨d, s.head⟩ with hns1
    have hpre : s.prepend d = ⟨ns1, some newIdx, s.tail, s.size + 1⟩ := by
      simp only [SinglyLinkedList.prepend, hempf, Bool.false_eq_true, if_false]
    have hnewlt : newIdx < ns.length := by rw [hns, List.length_append]; simp
    have hold : ∀ i ∈ xs, ns1[i]? = s.nodes[i]? := by
      intro i hi
      have hilt : i < s.nodes.length := sinv_mem_lt h i hi
      rw [hns1, List.getElem?_set_ne (by omega), hns, List.getElem?_append_left hilt]
    have hchain : NullChain (nextF ns1) (some newIdx) (newIdx :: xs) := by
      have hstep1 : nextF ns1 newIdx = some s.head := by
        show (ns1[newIdx]?).map Node.next = some s.head
        rw [hns1, List.getElem?_set_self hnewlt]
        rfl
      have hstep2 : Seg (nextF ns1) s.head xs none :=
        seg_congr (fun i hi => nextF_eq_of_getElem_eq (hold i hi)) h.chain
      exact Seg.cons hstep1 hstep2
    rw [hpre]
    refine ⟨⟨hchain, ?_, ?_⟩, ?_⟩
    · show s.tail = (newIdx :: xs).getLast?
      rw [h.tail_eq]
      cases xs with
      | nil => exact absurd rfl hxs
      | cons b l => rw [List.getLast?_cons_cons]
    · show s.size + 1 = (newIdx :: xs).length
      rw [h.size_eq]; rfl
    · show valuesOf ns1 (newIdx :: xs) = d :: valuesOf s.nodes xs
      have hd : dataOf ns1 newIdx = d := by
        simp only [dataOf, getNode, hns1, List.getElem?_set_self hnewlt, Option.getD_some]
      have hrest : valuesOf ns1 xs = valuesOf s.nodes xs :=
        valuesOf_congr fun i hi => dataOf_eq_of_getElem_eq (hold i hi)
      show dataOf ns1 newIdx :: valuesOf ns1 xs = d :: valuesOf s.nodes xs
      rw [hd, hrest]

theorem sll_toList_eq {s : SinglyLinkedList} {xs : List Nat} (h : SInv s xs) :
    s.toList = valuesOf s.nodes xs :=
  sll_iterLoop_spec h.chain (by rw [h.size_eq])

theorem sll_search_eq {s : SinglyLinkedList} {xs : List Nat} (h : SInv s xs) (d : Int) :
    s.search d =
      match (valuesOf s.nodes xs).findIdx? (fun v => v == d) with
      | some j => (j : Int)
      | none => -1 := by
  rw [SinglyLinkedList.search, sll_searchLoop_spec h.chain (le_of_eq h.size_eq.symm)]
  cases (valuesOf s.nodes xs).findIdx? (fun v => v == d) <;> simp

theorem sll_get_ok {s : SinglyLinkedList} {xs : List Nat} (h : SInv s xs) {index : Int}
    (h0 : 0 ≤ index) (h1 : index < (s.size : Int)) :
    ∃ v, (valuesOf s.nodes xs)[index.toNat]? = some v ∧ s.get index = (.ok v, s) := by
  have hk : index.toNat < xs.length := by
    rw [← h.size_eq]; omega
  have hwalk : walkN (nextF s.nodes) s.head index.toNat = ptrAt xs index.toNat :=
    nullchain_walk h.chain (by omega)
  have hptr : ptrAt xs index.toNat = some (xs.get ⟨index.toNat, hk⟩) := by
    rw [ptrAt, List.drop_eq_getElem_cons hk]
    simp [List.get_eq_getElem]
  refine ⟨dataOf s.nodes (xs.get ⟨index.toNat, hk⟩), ?_, ?_⟩
  · rw [valuesOf, List.getElem?_eq_getElem (by simpa using hk)]
    simp [List.get_eq_getElem]
  · rw [SinglyLinkedList.get, if_neg (by omega), hwalk, hptr]
    rfl

theorem sll_toStr_eq {s : SinglyLinkedList} {xs : List Nat} (h : SInv s xs) :
    s.toStr = if xs = [] then "[]"
      else String.intercalate " -> " ((valuesOf s.nodes xs).map toString) := by
  rw [SinglyLinkedList.toStr]
  by_cases hemp : s.is_empty = true
  · rw [if_pos hemp, if_pos ((sinv_is_empty_iff h).mp hemp)]
  · have hxs : xs ≠ [] := fun hh => hemp ((sinv_is_empty_iff h).mpr hh)
    rw [if_neg hemp, if_neg hxs,
      sll_iterLoop_spec h.chain (le_of_eq h.size_eq.symm)]

theorem dataOf_set_samedata {ns : List Node} {c : Nat} {m : Node}
    (hd : m.data = (getNode ns c).data) (i : Nat) :
    dataOf (ns.set c m) i = dataOf ns i := by
  by_cases hic : i = c
  · subst hic
    by_cases hlt : i < ns.length
    · have h1 : (ns.set i m)[i]? = some m := List.getElem?_set_self hlt
      simp only [dataOf, getNode, h1, Option.getD_some]
      exact hd
    · rw [List.set_eq_of_length_le (by omega)]
  · have h1 : (ns.set c m)[i]? = ns[i]? := List.getElem?_set_ne (fun hh => hic hh.symm)
    simp only [dataOf, getNode, h1]

theorem sll_delete_first_err {s : SinglyLinkedList} {xs : List Nat} (h : SInv s xs)
    (hsz : s.size = 0) : s.delete_first = (.error .emptyCollection, s) := by
  have hxs : xs = [] := by
    have := h.size_eq
    rw [hsz] at this
    exact List.eq_nil_of_length_eq_zero this.symm
  have hemp : s.is_empty = true := (sinv_is_empty_iff h).mpr hxs
  rw [SinglyLinkedList.delete_first, if_pos hemp]

theorem sll_delete_first_ok {s : SinglyLinkedList} {xs : List Nat} (h : SInv s xs)
    (hsz : s.size ≠ 0) :
    ∃ v s2, s.delete_first = (.ok v, s2) ∧ SInv s2 xs.tail ∧
      (valuesOf s.nodes xs).head? = some v ∧ s2.nodes = s.nodes ∧
      s2.head = ptrAt xs 1 ∧ s2.size = s.size - 1 ∧
      (s2.size = 0 → s2.tail = none) := by
  have hxs : xs ≠ [] := by
    intro hh
    rw [h.size_eq, hh] at hsz
    exact hsz rfl
  obtain ⟨a, rest, rfl⟩ : ∃ a l, xs = a :: l := by
    cases xs with
    | nil => exact absurd rfl hxs
    | cons a l => exact ⟨a, l, rfl⟩
  obtain ⟨hp, nx, hnx, hr⟩ := seg_cons_inv h.chain
  have hempf : s.is_empty = false := by rw [SinglyLinkedList.is_empty, hp]; rfl
  have hnode := (nextF_getNode hnx).1
  have hnxhead : nx = rest.head? := nullchain_head_eq hr
  have hdel : s.delete_first =
      if (⟨s.nodes, (getNode s.nodes a).next, s.tail, s.size - 1⟩ :
          SinglyLinkedList).is_empty
      then (.ok (getNode s.nodes a).data,
        ⟨s.nodes, (getNode s.nodes a).next, none, s.size - 1⟩)
      else (.ok (getNode s.nodes a).data,
        ⟨s.nodes, (getNode s.nodes a).next, s.tail, s.size - 1⟩) := by
    rw [SinglyLinkedList.delete_first,
      if_neg (by rw [hempf]; exact Bool.false_ne_true), hp]
  cases rest with
  | nil =>
      have hnone : (getNode s.nodes a).next = none := by
        rw [hnode, hnxhead]; rfl
      have hempty1 : (⟨s.nodes, (getNode s.nodes a).next, s.tail, s.size - 1⟩ :
          SinglyLinkedList).is_empty = true := by
        rw [SinglyLinkedList.is_empty, hnone]; rfl
      rw [hdel, if_pos hempty1]
      refine ⟨(getNode s.nodes a).data,
        ⟨s.nodes, (getNode s.nodes a).next, none, s.size - 1⟩,
        rfl, ⟨?_, rfl, ?_⟩, rfl, rfl, ?_, rfl, fun _ => rfl⟩
      · show NullChain (nextF s.nodes) (getNode s.nodes a).next []
        rw [hnone]; exact Seg.nil
      · have := h.size_eq
        simp only [List.length_cons, List.length_nil] at this
        simp [this]
      · rw [hnone]; rfl
  | cons b l =>
      have hsome : (getNode s.nodes a).next = some b := by
        rw [hnode, hnxhead]; rfl
      have hempty1 : (⟨s.nodes, (getNode s.nodes a).next, s.tail, s.size - 1⟩ :
          SinglyLinkedList).is_empty = false := by
        rw [SinglyLinkedList.is_empty, hsome]; rfl
      rw [hdel, if_neg (by rw [hempty1]; exact Bool.false_ne_true)]
      have hszeq : s.size - 1 = (b :: l).length := by
        have := h.size_eq
        simp only [List.length_cons] at this ⊢
        omega
      refine ⟨(getNode s.nodes a).data,
        ⟨s.nodes, (getNode s.nodes a).next, s.tail, s.size - 1⟩,
        rfl, ⟨?_, ?_, hszeq⟩, rfl, rfl, ?_, rfl, ?_⟩
      · show NullChain (nextF s.nodes) (getNode s.nodes a).next (b :: l)
        rw [hnode]; exact hr
      · show s.tail = (b :: l).getLast?
        rw [h.tail_eq, List.getLast?_cons_cons]
      · rw [hsome]; rfl
      · intro hzero
        rw [hszeq] at hzero
        simp at hzero

theorem sll_findPred_aux {ns : List Node} {t c : Nat} {ys : List Nat} {p : Option Nat}
    {fuel : Nat} (h : NullChain (nextF ns) p (ys ++ [c, t]))
    (htn : t ∉ ys ++ [c]) (hf : ys.length + 1 ≤ fuel) :
    SinglyLinkedList.findPred ns (some t) p fuel = some c := by
  induction ys generalizing p fuel with
  | nil =>
      obtain ⟨hp, nx, hnx, hr⟩ := seg_cons_inv h
      have hnxt : nx = some t := nullchain_head_eq hr
      cases fuel with
      | zero => omega
      | succ f =>
          subst hp
          show (if (getNode ns c).next = some t then some c
            else SinglyLinkedList.findPred ns (some t) (getNode ns c).next f) = some c
          rw [(nextF_getNode hnx).1, hnxt, if_pos rfl]
  | cons y ys ih =>
      simp only [List.cons_append] at h htn
      obtain ⟨hp, nx, hnx, hr⟩ := seg_cons_inv h
      subst hp
      have hnxhead : nx = (ys ++ [c, t]).head? := nullchain_head_eq hr
      have htn2 : t ∉ ys ++ [c] := fun hm => htn (List.mem_cons_of_mem y hm)
      have hne : nx ≠ some t := by
        intro heq
        rw [hnxhead] at heq
        cases ys with
        | nil =>
            simp only [List.nil_append, List.head?_cons] at heq
            exact htn2 (by simp [Option.some.inj heq])
        | cons z zs =>
            simp only [List.cons_append, List.head?_cons] at heq
            have : z = t := Option.some.inj heq
            exact htn2 (by simp [this])
      cases fuel with
      | zero => simp at hf
      | succ f =>
          show (if (getNode ns y).next = some t then some y
            else SinglyLinkedList.findPred ns (some t) (getNode ns y).next f) = some c
          rw [(nextF_getNode hnx).1, if_neg hne]
          exact ih hr htn2 (by simp at hf ⊢; omega)

theorem sll_delete_last_err {s : SinglyLinkedList} {xs : List Nat} (h : SInv s xs)
    (hsz : s.size = 0) : s.delete_last = (.error .emptyCollection, s) := by
  have hxs : xs = [] := by
    have := h.size_eq
    rw [hsz] at this
    exact List.eq_nil_of_length_eq_zero this.symm
  have hemp : s.is_empty = true := (sinv_is_empty_iff h).mpr hxs
  rw [SinglyLinkedList.delete_last, if_pos hemp]

theorem sll_delete_last_ok {s : SinglyLinkedList} {xs : List Nat} (h : SInv s xs)
    (hsz : s.size ≠ 0) :
    ∃ v s2, s.delete_last = (.ok v, s2) ∧ SInv s2 xs.dropLast ∧
      (valuesOf s.nodes xs).getLast? = some v ∧
      valuesOf s2.nodes xs.dropLast = (valuesOf s.nodes xs).dropLast ∧
      s2.size = s.size - 1 := by
  have hxs : xs ≠ [] := by
    intro hh
    rw [h.size_eq, hh] at hsz
    exact hsz rfl
  have hempf : s.is_empty = false := by
    cases hb : s.is_empty with
    | true => exact absurd ((sinv_is_empty_iff h).mp hb) hxs
    | false => rfl
  by_cases hone : xs.length = 1
  · obtain ⟨a, rfl⟩ : ∃ a, xs = [a] := by
      cases xs with
      | nil => exact absurd rfl hxs
      | cons a l =>
          cases l with
          | nil => exact ⟨a, rfl⟩
          | cons b m => simp at hone
    have hp : s.head = some a := sinv_head_eq h
    have ht : s.tail = some a := h.tail_eq
    have hdel : s.delete_last =
        (.ok (getNode s.nodes a).data, ⟨s.nodes, none, none, s.size - 1⟩) := by
      rw [SinglyLinkedList.delete_last,
        if_neg (by rw [hempf]; exact Bool.false_ne_true),
        if_pos (hp.trans ht.symm), hp]
    refine ⟨(getNode s.nodes a).data, ⟨s.nodes, none, none, s.size - 1⟩, hdel,
      ⟨Seg.nil, rfl, ?_⟩, ?_, rfl, ?_⟩
    · have := h.size_eq
      simp only [List.length_cons, List.length_nil] at this
      simp [this]
    · rfl
    · rfl
  · -- at least two nodes
    have hlen2 : 2 ≤ xs.length := by
      cases xs with
      | nil => exact absurd rfl hxs
      | cons a l =>
          cases l with
          | nil => exact absurd rfl hone
          | cons b m => simp
    have hdl : xs.dropLast ≠ [] := by
      have hld : xs.dropLast.length = xs.length - 1 := List.length_dropLast xs
      intro hh
      rw [hh] at hld
      simp at hld
      omega
    set t := xs.getLast hxs with htdef
    set c := xs.dropLast.getLast hdl with hcdef
    set ys := xs.dropLast.dropLast with hysdef
    have hx1 : xs.dropLast ++ [t] = xs := List.dropLast_append_getLast hxs
    have hx2 : ys ++ [c] = xs.dropLast := List.dropLast_append_getLast hdl
    have hxsplit : ys ++ [c, t] = xs := by
      rw [← hx1, ← hx2]
      simp [List.append_assoc]
    have hnodup := sinv_nodup h
    have htail : s.tail = some t := by rw [h.tail_eq, List.getLast?_eq_getLast xs hxs]
    have htnotin : t ∉ ys ++ [c] := by
      rw [hx2]
      have hnd : (xs.dropLast ++ [t]).Nodup := hx1.symm ▸ hnodup
      have h2 := List.nodup_append.mp hnd
      intro hmem
      exact h2.2.2 hmem (List.mem_singleton.mpr rfl)
    have hchain2 : NullChain (nextF s.nodes) s.head (ys ++ [c, t]) := hxsplit.symm ▸ h.chain
    have hfp : SinglyLinkedList.findPred s.nodes (some t) s.head s.size = some c := by
      apply sll_findPred_aux hchain2 htnotin
      have hy : ys.length = xs.length - 2 := by
        rw [hysdef, List.length_dropLast, List.length_dropLast]
        omega
      rw [h.size_eq]
      omega
    have hneq : s.head ≠ s.tail := by
      intro heq
      rw [sinv_head_eq h, htail] at heq
      rw [List.head?_eq_head hxs] at heq
      have h1 : xs.head hxs = t := Option.some.inj heq
      rw [htdef] at h1
      rw [List.head_eq_getElem, List.getLast_eq_getElem] at h1
      have h2 := (hnodup.getElem_inj_iff).mp h1
      omega
    obtain ⟨qc, hqc1, hqc2⟩ := seg_split hchain2
    obtain ⟨hqcc, nxc, hnxc, hrest⟩ := seg_cons_inv hqc2
    have hclt : c < s.nodes.length := (nextF_getNode hnxc).2
    have hcnotys : c ∉ ys := by
      have hnd2 : (ys ++ [c]).Nodup := by
        rw [hx2]
        exact (List.nodup_append.mp ((hx1.symm ▸ hnodup) :
          (xs.dropLast ++ [t]).Nodup)).1
      have h2 := List.nodup_append.mp hnd2
      intro hmem
      exact h2.2.2 hmem (List.mem_singleton.mpr rfl)
    set m : Node := { getNode s.nodes c with next := none } with hmdef
    set ns1 := s.nodes.set c m with hns1
    have hdel : s.delete_last =
        (.ok (getNode s.nodes t).data, ⟨ns1, s.head, some c, s.size - 1⟩) := by
      rw [SinglyLinkedList.delete_last,
        if_neg (by rw [hempf]; exact Bool.false_ne_true),
        if_neg hneq, htail, hfp]
    refine ⟨(getNode s.nodes t).data, ⟨ns1, s.head, some c, s.size - 1⟩, hdel,
      ⟨?_, ?_, ?_⟩, ?_, ?_, rfl⟩
    · -- new chain: ys ++ [c]
      rw [← hx2]
      have hseg1 : Seg (nextF ns1) s.head ys qc := by
        apply seg_congr _ hqc1
        intro i hi
        apply nextF_eq_of_getElem_eq
        rw [hns1, List.getElem?_set_ne (fun hh => hcnotys (by rw [hh]; exact hi))]
      have hseg2 : Seg (nextF ns1) qc [c] none := by
        rw [hqcc]
        refine Seg.cons ?_ Seg.nil
        show (ns1[c]?).map Node.next = some none
        rw [hns1, List.getElem?_set_self hclt]
        rfl
      exact seg_trans hseg1 hseg2
    · show some c = xs.dropLast.getLast?
      rw [List.getLast?_eq_getLast xs.dropLast hdl]
    · show s.size - 1 = xs.dropLast.length
      rw [h.size_eq, List.length_dropLast]
    · rw [← hxsplit]
      show (valuesOf s.nodes (ys ++ [c, t])).getLast? = some (getNode s.nodes t).data
      rw [valuesOf, List.map_append, List.getLast?_append_of_ne_nil _ (by simp)]
      simp [dataOf]
    · show valuesOf ns1 xs.dropLast = (valuesOf s.nodes xs).dropLast
      have hv1 : valuesOf ns1 xs.dropLast = valuesOf s.nodes xs.dropLast := by
        apply valuesOf_congr
        intro i hi
        exact dataOf_set_samedata (by rw [hmdef]) i
      rw [hv1]
      exact List.map_dropLast _ _

theorem sll_insert_at_err {s : SinglyLinkedList} (index d : Int)
    (hi : index < 0 ∨ (s.size : Int) < index) :
    s.insert_at index d = (.error (.outOfRange index), s) := by
  rw [SinglyLinkedList.insert_at, if_pos hi]

theorem sll_insert_at_ok {s : SinglyLinkedList} {xs : List Nat} (h : SInv s xs)
    {index : Int} (h0 : 0 ≤ index) (h1 : index ≤ (s.size : Int)) (d : Int) :
    ∃ xs2 s2, s.insert_at index d = (.ok (), s2) ∧ SInv s2 xs2 ∧
      xs2.length = xs.length + 1 := by
  by_cases hi0 : index = 0
  · refine ⟨s.nodes.length :: xs, s.prepend d, ?_, (sll_prepend_spec d h).1, by simp⟩
    rw [SinglyLinkedList.insert_at, if_neg (by omega), if_pos hi0]
  · by_cases his : index = (s.size : Int)
    · refine ⟨xs ++ [s.nodes.length], s.append d, ?_, (sll_append_spec d h).1, by simp⟩
      rw [SinglyLinkedList.insert_at, if_neg (by omega), if_neg hi0, if_pos his]
    · -- middle insertion
      set k := index.toNat with hkdef
      have hk1 : 1 ≤ k := by omega
      have hklt : k < xs.length := by rw [← h.size_eq]; omega
      have hkm1 : k - 1 < xs.length := by omega
      have hkm11 : k - 1 + 1 = k := by omega
      set newIdx := s.nodes.length with hnidef
      set ns := s.nodes ++ [(⟨d, none⟩ : Node)] with hnsdef
      have hnslen : ns.length = s.nodes.length + 1 := by
        rw [hnsdef, List.length_append, List.length_singleton]
      have hchain_ns : NullChain (nextF ns) s.head xs := by
        apply seg_congr _ h.chain
        intro i hi
        apply nextF_eq_of_getElem_eq
        rw [hnsdef, List.getElem?_append_left (sinv_mem_lt h i hi)]
      set c := xs.get ⟨k - 1, hkm1⟩ with hcdef
      have hptrk1 : ptrAt xs (k - 1) = some c := by
        rw [ptrAt, List.drop_eq_getElem_cons hkm1, List.head?_cons, hcdef,
          List.get_eq_getElem]
      have hwalk : walkN (nextF ns) s.head (index.toNat - 1) = some c := by
        rw [← hkdef, nullchain_walk hchain_ns (by omega), hptrk1]
      have hclt : c < s.nodes.length :=
        sinv_mem_lt h c (by rw [hcdef]; exact List.get_mem xs (k - 1) hkm1)
      -- decompose the chain at position k-1
      have hx : xs.take (k - 1) ++ xs.drop (k - 1) = xs := List.take_append_drop _ xs
      obtain ⟨q1, hA, hrest1⟩ := seg_split
        (p := s.head) (r := none) (hx ▸ hchain_ns)
      have hdropc : xs.drop (k - 1) = c :: xs.drop k := by
        rw [List.drop_eq_getElem_cons hkm1, hkm11, hcdef, List.get_eq_getElem]
      rw [hdropc] at hrest1
      obtain ⟨hq1c, nxk, hnxk, hB⟩ := seg_cons_inv hrest1
      have hcnext : (getNode ns c).next = nxk := (nextF_getNode hnxk).1
      set ns1 := ns.set newIdx (⟨d, (getNode ns c).next⟩ : Node) with hns1def
      set ns2 := ns1.set c { getNode ns1 c with next := some newIdx } with hns2def
      have hresult : s.insert_at index d = (.ok (), ⟨ns2, s.head, s.tail, s.size + 1⟩) := by
        rw [SinglyLinkedList.insert_at, if_neg (by omega), if_neg hi0, if_neg his]
        dsimp only
        rw [hwalk]
      -- nodup facts
      have hnodup := sinv_nodup h
      have hndsplit : (xs.take (k - 1) ++ (c :: xs.drop k)).Nodup := by
        rw [← hdropc, hx]; exact hnodup
      have hnd2 := List.nodup_append.mp hndsplit
      have hcnottake : c ∉ xs.take (k - 1) := by
        intro hmem
        exact hnd2.2.2 hmem (List.mem_cons_self c _)
      have hcnotdrop : c ∉ xs.drop k := (List.nodup_cons.mp hnd2.2.1).1
      have hnewnot : ∀ i ∈ xs, i ≠ newIdx := by
        intro i hi
        have := sinv_mem_lt h i hi
        omega
      have hcneqnew : c ≠ newIdx := by
        have := hclt; omega
      -- frame lemma for untouched nodes
      have hframe : ∀ i ∈ xs, i ≠ c → nextF ns2 i = nextF s.nodes i := by
        intro i hi hic
        have hilt : i < s.nodes.length := sinv_mem_lt h i hi
        apply nextF_eq_of_getElem_eq
        rw [hns2def, List.getElem?_set_ne (fun hh => hic hh.symm),
          hns1def, List.getElem?_set_ne (by omega), hnsdef,
          List.getElem?_append_left hilt]
      -- chain segments in the new arena
      have hsegA : Seg (nextF ns2) s.head (xs.take (k - 1)) (some c) := by
        rw [← hq1c]
        apply seg_congr _ hA
        intro i hi
        have himem : i ∈ xs := by
          rw [← hx]; exact List.mem_append_left _ hi
        have hic : i ≠ c := fun hh => hcnottake (hh ▸ hi)
        rw [hframe i himem hic]
        apply (nextF_eq_of_getElem_eq _).symm
        rw [hnsdef, List.getElem?_append_left (sinv_mem_lt h i himem)]
      have hsegC : Seg (nextF ns2) (some c) [c] (some newIdx) := by
        refine Seg.cons ?_ Seg.nil
        show (ns2[c]?).map Node.next = some (some newIdx)
        rw [hns2def, List.getElem?_set_self (by rw [hns1def, List.length_set]; omega)]
        rfl
      have hsegD : Seg (nextF ns2) (some newIdx) [newIdx] nxk := by
        refine Seg.cons ?_ Seg.nil
        show (ns2[newIdx]?).map Node.next = some nxk
        rw [hns2def, List.getElem?_set_ne hcneqnew,
          hns1def, List.getElem?_set_self (by omega)]
        simp [hcnext]
      have hsegB : Seg (nextF ns2) nxk (xs.drop k) none := by
        apply seg_congr _ hB
        intro i hi
        have himem : i ∈ xs := List.mem_of_mem_drop hi
        have hic : i ≠ c := fun hh => hcnotdrop (hh ▸ hi)
        rw [hframe i himem hic]
        exact (nextF_eq_of_getElem_eq (by
          rw [hnsdef, List.getElem?_append_left (sinv_mem_lt h i himem)])).symm
      set xs2 := xs.take k ++ newIdx :: xs.drop k with hxs2def
      have htakek : xs.take k = xs.take (k - 1) ++ [c] := by
        have : xs.take (k - 1 + 1) = xs.take (k - 1) ++ (xs[k - 1]?).toList :=
          List.take_succ
        rw [hkm11] at this
        rw [this, List.getElem?_eq_getElem hkm1]
        rw [hcdef, List.get_eq_getElem]
        rfl
      have hchain2 : NullChain (nextF ns2) s.head xs2 := by
        have hglue := seg_trans hsegA (seg_trans hsegC (seg_trans hsegD hsegB))
        have hshape : xs.take (k - 1) ++ ([c] ++ ([newIdx] ++ xs.drop k)) = xs2 := by
          rw [hxs2def, htakek]
          simp [List.append_assoc]
        rw [← hshape]
        exact hglue
      refine ⟨xs2, ⟨ns2, s.head, s.tail, s.size + 1⟩, hresult, ⟨hchain2, ?_, ?_⟩, ?_⟩
      · show s.tail = xs2.getLast?
        rw [h.tail_eq, hxs2def]
        have hdropne : xs.drop k ≠ [] := by
          intro hh
          have := List.length_drop k xs
          rw [hh] at this
          simp at this
          omega
        rw [List.getLast?_append_of_ne_nil _ (by simp)]
        have hcons : (newIdx :: xs.drop k).getLast? = (xs.drop k).getLast? := by
          cases hdk : xs.drop k with
          | nil => exact absurd hdk hdropne
          | cons b l => rw [List.getLast?_cons_cons]
        rw [hcons, ← List.take_append_drop k xs,
          List.getLast?_append_of_ne_nil _ hdropne]
        rw [List.take_append_drop]
      · show s.size + 1 = xs2.length
        rw [h.size_eq, hxs2def]
        simp only [List.length_append, List.length_cons, List.length_take,
          List.length_drop]
        omega
      · rw [hxs2def]
        simp only [List.length_append, List.length_cons, List.length_take,
          List.length_drop]
        omega

theorem sll_delete_at_err {s : SinglyLinkedList} (index : Int)
    (hi : index < 0 ∨ (s.size : Int) ≤ index) :
    s.delete_at index = (.error (.outOfRange index), s) := by
  rw [SinglyLinkedList.delete_at, if_pos hi]

theorem sll_delete_at_ok {s : SinglyLinkedList} {xs : List Nat} (h : SInv s xs)
    {index : Int} (h0 : 0 ≤ index) (h1 : index < (s.size : Int)) :
    ∃ v s2 xs2, s.delete_at index = (.ok v, s2) ∧ SInv s2 xs2 ∧
      xs2.length = xs.length - 1 := by
  by_cases hi0 : index = 0
  · have hsz : s.size ≠ 0 := by omega
    obtain ⟨v, s2, hdel, hinv, _, _, _, _, _⟩ := sll_delete_first_ok h hsz
    refine ⟨v, s2, xs.tail, ?_, hinv, ?_⟩
    · rw [SinglyLinkedList.delete_at, if_neg (by omega), if_pos hi0, hdel]
    · rw [List.length_tail]
  · set k := index.toNat with hkdef
    have hk1 : 1 ≤ k := by omega
    have hklt : k < xs.length := by rw [← h.size_eq]; omega
    have hkm1 : k - 1 < xs.length := by omega
    have hkm11 : k - 1 + 1 = k := by omega
    set c := xs.get ⟨k - 1, hkm1⟩ with hcdef
    have hptrk1 : ptrAt xs (k - 1) = some c := by
      rw [ptrAt, List.drop_eq_getElem_cons hkm1, List.head?_cons, hcdef,
        List.get_eq_getElem]
    have hwalk : walkN (nextF s.nodes) s.head (index.toNat - 1) = some c := by
      rw [← hkdef, nullchain_walk h.chain (by omega), hptrk1]
    have hclt : c < s.nodes.length :=
      sinv_mem_lt h c (by rw [hcdef]; exact List.get_mem xs (k - 1) hkm1)
    -- decompose the chain
    have hx : xs.take (k - 1) ++ xs.drop (k - 1) = xs := List.take_append_drop _ xs
    obtain ⟨q1, hA, hrest1⟩ := seg_split (p := s.head) (r := none) (hx ▸ h.chain)
    have hdropc : xs.drop (k - 1) = c :: xs.drop k := by
      rw [List.drop_eq_getElem_cons hkm1, hkm11, hcdef, List.get_eq_getElem]
    rw [hdropc] at hrest1
    obtain ⟨hq1c, nxk, hnxk, hB⟩ := seg_cons_inv hrest1
    have hcnext : (getNode s.nodes c).next = nxk := (nextF_getNode hnxk).1
    set victim := xs.get ⟨k, hklt⟩ with hvdef
    have hdropk : xs.drop k = victim :: xs.drop (k + 1) := by
      rw [List.drop_eq_getElem_cons hklt, hvdef, List.get_eq_getElem]
    rw [hdropk] at hB
    obtain ⟨hnxv, nxv, hnxv2, hC⟩ := seg_cons_inv hB
    have hvnext : (getNode s.nodes victim).next = nxv := (nextF_getNode hnxv2).1
    set m : Node := { getNode s.nodes c with next := (getNode s.nodes victim).next }
      with hmdef
    set ns1 := s.nodes.set c m with hns1def
    set tl := if index = (s.size : Int) - 1 then some c else s.tail with htldef
    have hresult : s.delete_at index =
        (.ok (getNode s.nodes victim).data, ⟨ns1, s.head, tl, s.size - 1⟩) := by
      rw [SinglyLinkedList.delete_at, if_neg (by omega), if_neg hi0]
      dsimp only
      rw [hwalk]
      dsimp only
      rw [hcnext, hnxv]
    -- nodup bookkeeping
    have hnodup := sinv_nodup h
    have hndsplit : (xs.take (k - 1) ++ (c :: victim :: xs.drop (k + 1))).Nodup := by
      rw [← hdropk, ← hdropc, hx]; exact hnodup
    have hnd2 := List.nodup_append.mp hndsplit
    have hcnottake : c ∉ xs.take (k - 1) := by
      intro hmem
      exact hnd2.2.2 hmem (List.mem_cons_self c _)
    have hcnotdrop : c ∉ xs.drop (k + 1) := by
      have := (List.nodup_cons.mp hnd2.2.1).1
      intro hmem
      exact this (List.mem_cons_of_mem victim hmem)
    -- frame
    have hframe : ∀ i ∈ xs, i ≠ c → nextF ns1 i = nextF s.nodes i := by
      intro i hi hic
      apply nextF_eq_of_getElem_eq
      rw [hns1def, List.getElem?_set_ne (fun hh => hic hh.symm)]
    have hsegA : Seg (nextF ns1) s.head (xs.take (k - 1)) (some c) := by
      rw [← hq1c]
      apply seg_congr _ hA
      intro i hi
      have himem : i ∈ xs := by rw [← hx]; exact List.mem_append_left _ hi
      exact hframe i himem (fun hh => hcnottake (hh ▸ hi))
    have hsegC : Seg (nextF ns1) (some c) [c] nxv := by
      refine Seg.cons ?_ Seg.nil
      show (ns1[c]?).map Node.next = some nxv
      rw [hns1def, List.getElem?_set_self hclt]
      simp [hmdef, hvnext]
    have hsegB : Seg (nextF ns1) nxv (xs.drop (k + 1)) none := by
      apply seg_congr _ hC
      intro i hi
      have himem : i ∈ xs := List.mem_of_mem_drop hi
      exact hframe i himem (fun hh => hcnotdrop (hh ▸ hi))
    set xs2 := xs.take (k - 1) ++ c :: xs.drop (k + 1) with hxs2def
    have hchain2 : NullChain (nextF ns1) s.head xs2 := by
      have hglue := seg_trans hsegA (seg_trans hsegC hsegB)
      have hshape : xs.take (k - 1) ++ ([c] ++ xs.drop (k + 1)) = xs2 := by
        rw [hxs2def]; simp
      rw [← hshape]
      exact hglue
    refine ⟨(getNode s.nodes victim).data, ⟨ns1, s.head, tl, s.size - 1⟩, xs2,
      hresult, ⟨hchain2, ?_, ?_⟩, ?_⟩
    · show tl = xs2.getLast?
      rw [htldef, hxs2def]
      by_cases hlast : index = (s.size : Int) - 1
      · rw [if_pos hlast]
        have hdropnil : xs.drop (k + 1) = [] := by
          apply List.drop_eq_nil_of_le
          rw [← h.size_eq] at hklt ⊢
          omega
        rw [hdropnil, List.getLast?_append_of_ne_nil _ (by simp)]
        rfl
      · rw [if_neg hlast, h.tail_eq]
        have hdropne : xs.drop (k + 1) ≠ [] := by
          intro hh
          have hld := List.length_drop (k + 1) xs
          rw [hh] at hld
          simp at hld
          have hsz := h.size_eq
          omega
        rw [List.getLast?_append_of_ne_nil _ (by
          intro hh
          cases hh2 : xs.drop (k + 1) with
          | nil => exact hdropne hh2
          | cons b l => rw [hh2] at hh; cases hh)]
        have hcons : (c :: xs.drop (k + 1)).getLast? = (xs.drop (k + 1)).getLast? := by
          cases hdk : xs.drop (k + 1) with
          | nil => exact absurd hdk hdropne
          | cons b l => rw [List.getLast?_cons_cons]
        rw [hcons, ← List.take_append_drop (k + 1) xs,
          List.getLast?_append_of_ne_nil _ hdropne, List.take_append_drop]
    · show s.size - 1 = xs2.length
      rw [h.size_eq, hxs2def]
      simp only [List.length_append, List.length_cons, List.length_take,
        List.length_drop]
      omega
    · rw [hxs2def]
      simp only [List.length_append, List.length_cons, List.length_take,
        List.length_drop]
      omega

theorem sll_revLoop_spec {ns : List Node} {prv cur : Option Nat} {done sfx : List Nat}
    {fuel : Nat} (hsfx : NullChain (nextF ns) cur sfx)
    (hdone : NullChain (nextF ns) prv done)
    (hdisj : ∀ i ∈ sfx, i ∉ done)
    (hf : sfx.length ≤ fuel) :
    ∃ ns2 p2, SinglyLinkedList.revLoop ns prv cur fuel = (ns2, p2) ∧
      NullChain (nextF ns2) p2 (sfx.reverse ++ done) ∧
      (∀ i, i ∉ sfx → ns2[i]? = ns[i]?) ∧
      (∀ i, dataOf ns2 i = dataOf ns i) ∧ ns2.length = ns.length := by
  induction sfx generalizing ns prv cur fuel done with
  | nil =>
      have hc := seg_nil_inv hsfx
      subst hc
      refine ⟨ns, prv, ?_, by simpa using hdone, fun i _ => rfl, fun i => rfl, rfl⟩
      cases fuel <;> rfl
  | cons c rest ih =>
      obtain ⟨hcur, nx, hnx, hr⟩ := seg_cons_inv hsfx
      subst hcur
      cases fuel with
      | zero => simp at hf
      | succ f =>
          have hnode := (nextF_getNode hnx).1
          have hclt := (nextF_getNode hnx).2
          have hnd := nullchain_nodup hsfx
          have hcnotrest : c ∉ rest := (List.nodup_cons.mp hnd).1
          set ns1 := ns.set c { getNode ns c with next := prv } with hns1def
          have hstep : SinglyLinkedList.revLoop ns prv (some c) (f + 1) =
              SinglyLinkedList.revLoop ns1 (some c) nx f := by
            show SinglyLinkedList.revLoop ns1 (some c) (getNode ns c).next f =
              SinglyLinkedList.revLoop ns1 (some c) nx f
            rw [hnode]
          have hc1 : nextF ns1 c = some prv := by
            show (ns1[c]?).map Node.next = some prv
            rw [hns1def, List.getElem?_set_self hclt]
            rfl
          have hc2 : Seg (nextF ns1) prv done none := by
            apply seg_congr _ hdone
            intro i hi
            apply nextF_eq_of_getElem_eq
            rw [hns1def, List.getElem?_set_ne
              (fun hh => (hdisj c (List.mem_cons_self c rest)) (by rw [hh]; exact hi))]
          have hchain_done1 : NullChain (nextF ns1) (some c) (c :: done) :=
            Seg.cons hc1 hc2
          have hchain_sfx1 : NullChain (nextF ns1) nx rest := by
            apply seg_congr _ hr
            intro i hi
            apply nextF_eq_of_getElem_eq
            rw [hns1def, List.getElem?_set_ne (fun hh => hcnotrest (by rw [hh]; exact hi))]
          have hdisj1 : ∀ i ∈ rest, i ∉ c :: done := by
            intro i hi hmem
            rcases List.mem_cons.mp hmem with hh | hmem2
            · exact hcnotrest (hh ▸ hi)
            · exact hdisj i (List.mem_cons_of_mem c hi) hmem2
          obtain ⟨ns2, p2, hrun, hchain2, hframe2, hdata2, hlenr⟩ :=
            ih hchain_sfx1 hchain_done1 hdisj1 (by simpa using hf)
          refine ⟨ns2, p2, ?_, ?_, ?_, ?_, ?_⟩
          · rw [hstep, hrun]
          · have hshape : rest.reverse ++ (c :: done) = (c :: rest).reverse ++ done := by
              rw [List.reverse_cons]
              simp [List.append_assoc]
            rw [← hshape]
            exact hchain2
          · intro i hi
            have hic : i ≠ c := fun hh => hi (hh ▸ List.mem_cons_self c rest)
            have hirest : i ∉ rest := fun hh => hi (List.mem_cons_of_mem c hh)
            rw [hframe2 i hirest, hns1def,
              List.getElem?_set_ne (fun hh => hic hh.symm)]
          · intro i
            rw [hdata2 i, hns1def]
            apply dataOf_set_samedata
            rfl
          · rw [hlenr, hns1def, List.length_set]

theorem sll_reverse_spec {s : SinglyLinkedList} {xs : List Nat} (h : SInv s xs) :
    SInv s.reverse xs.reverse ∧
      (∀ i, dataOf s.reverse.nodes i = dataOf s.nodes i) := by
  by_cases hguard : s.is_empty = true ∨ s.head = s.tail
  · have hrev : s.reverse = s := by
      rw [SinglyLinkedList.reverse, if_pos hguard]
    have hxsrev : xs.reverse = xs := by
      rcases hguard with hemp | heq
      · rw [(sinv_is_empty_iff h).mp hemp]
        rfl
      · cases hxs : xs with
        | nil => rfl
        | cons a l =>
            cases hl : l with
            | nil => rfl
            | cons b l2 =>
                exfalso
                rw [sinv_head_eq h, h.tail_eq] at heq
                have hne : xs ≠ [] := by rw [hxs]; exact List.cons_ne_nil a l
                rw [List.head?_eq_head hne, List.getLast?_eq_getLast xs hne] at heq
                have h1 := Option.some.inj heq
                rw [List.head_eq_getElem, List.getLast_eq_getElem] at h1
                have h2 := ((sinv_nodup h).getElem_inj_iff).mp h1
                rw [hxs, hl] at h2
                simp at h2
    rw [hrev, hxsrev]
    exact ⟨h, fun i => rfl⟩
  · obtain ⟨ns2, p2, hrun, hchain2, _, hdata2, _⟩ :=
      sll_revLoop_spec h.chain (Seg.nil : NullChain (nextF s.nodes) none [])
        (fun i _ hmem => (List.not_mem_nil i) hmem) (le_of_eq h.size_eq.symm)
    have hrev : s.reverse = ⟨ns2, p2, s.head, s.size⟩ := by
      rw [SinglyLinkedList.reverse, if_neg hguard]
      dsimp only
      rw [hrun]
    rw [hrev]
    refine ⟨⟨?_, ?_, ?_⟩, fun i => hdata2 i⟩
    · show NullChain (nextF ns2) p2 xs.reverse
      simpa using hchain2
    · show s.head = xs.reverse.getLast?
      rw [List.getLast?_reverse, sinv_head_eq h]
    · show s.size = xs.reverse.length
      rw [h.size_eq, List.length_reverse]

/-! Derived facts from the doubly invariant, and per-operation
specifications. -/

theorem dinv_head_eq {s : DoublyLinkedList} {xs : List Nat} (h : DInv s xs) :
    s.head = xs.head? := nullchain_head_eq h.fwd

theorem dinv_tail_eq {s : DoublyLinkedList} {xs : List Nat} (h : DInv s xs) :
    s.tail = xs.getLast? := by
  rw [nullchain_head_eq h.bwd, List.head?_reverse]

theorem dinv_mem_lt {s : DoublyLinkedList} {xs : List Nat} (h : DInv s xs) :
    ∀ i ∈ xs, i < s.nodes.length := dseg_next_mem_lt h.fwd

theorem dinv_nodup {s : DoublyLinkedList} {xs : List Nat} (h : DInv s xs) :
    xs.Nodup := nullchain_nodup h.fwd

theorem dinv_is_empty_iff {s : DoublyLinkedList} {xs : List Nat} (h : DInv s xs) :
    s.is_empty = true ↔ xs = [] := by
  rw [DoublyLinkedList.is_empty, dinv_head_eq h, Option.isNone_iff_eq_none,
    List.head?_eq_none_iff]

theorem dnextF_eq_of_getElem_eq {ns2 ns : List DNode} {i : Nat}
    (h : ns2[i]? = ns[i]?) : dnextF ns2 i = dnextF ns i := by
  simp [dnextF, h]

theorem dprevF_eq_of_getElem_eq {ns2 ns : List DNode} {i : Nat}
    (h : ns2[i]? = ns[i]?) : dprevF ns2 i = dprevF ns i := by
  simp [dprevF, h]

theorem ddataOf_eq_of_getElem_eq {ns2 ns : List DNode} {i : Nat}
    (h : ns2[i]? = ns[i]?) : ddataOf ns2 i = ddataOf ns i := by
  simp [ddataOf, getDNode, h]

theorem dvaluesOf_congr2 {ns2 ns : List DNode} {xs : List Nat}
    (h : ∀ i ∈ xs, ddataOf ns2 i = ddataOf ns i) :
    dvaluesOf ns2 xs = dvaluesOf ns xs :=
  List.map_congr_left h

theorem ddataOf_set_samedata {ns : List DNode} {c : Nat} {m : DNode}
    (hd : m.data = (getDNode ns c).data) (i : Nat) :
    ddataOf (ns.set c m) i = ddataOf ns i := by
  by_cases hic : i = c
  · subst hic
    by_cases hlt : i < ns.length
    · have h1 : (ns.set i m)[i]? = some m := List.getElem?_set_self hlt
      simp only [ddataOf, getDNode, h1, Option.getD_some]
      exact hd
    · rw [List.set_eq_of_length_le (by omega)]
  · have h1 : (ns.set c m)[i]? = ns[i]? := List.getElem?_set_ne (fun hh => hic hh.symm)
    simp only [ddataOf, getDNode, h1]

theorem dll_empty_inv : DInv DoublyLinkedList.empty [] := ⟨Seg.nil, Seg.nil, rfl⟩

theorem dll_append_spec {s : DoublyLinkedList} {xs : List Nat} (d : Int) (h : DInv s xs) :
    DInv (s.append d) (xs ++ [s.nodes.length]) ∧
      dvaluesOf (s.append d).nodes (xs ++ [s.nodes.length]) =
        dvaluesOf s.nodes xs ++ [d] := by
  by_cases hemp : s.is_empty = true
  · have hxs : xs = [] := (dinv_is_empty_iff h).mp hemp
    subst hxs
    have happ : s.append d =
        ⟨s.nodes ++ [⟨d, none, none⟩], some s.nodes.length, some s.nodes.length,
          s.size + 1⟩ := by
      simp [DoublyLinkedList.append, hemp]
    rw [happ]
    refine ⟨⟨?_, ?_, by simpa using h.size_eq⟩, ?_⟩
    · refine Seg.cons ?_ Seg.nil
      show ((s.nodes ++ [⟨d, none, none⟩])[s.nodes.length]?).map DNode.next = some none
      rw [List.getElem?_concat_length]
      rfl
    · refine Seg.cons ?_ Seg.nil
      show ((s.nodes ++ [⟨d, none, none⟩])[s.nodes.length]?).map DNode.prev = some none
      rw [List.getElem?_concat_length]
      rfl
    · simp [dvaluesOf, ddataOf, getDNode, List.getElem?_concat_length]
  · have hxs : xs ≠ [] := fun hh => hemp ((dinv_is_empty_iff h).mpr hh)
    have htail : s.tail = some (xs.getLast hxs) := by
      rw [dinv_tail_eq h, List.getLast?_eq_getLast xs hxs]
    have hempf : s.is_empty = false := by
      cases hb : s.is_empty with
      | true => exact absurd hb hemp
      | false => rfl
    set t := xs.getLast hxs with ht
    set newIdx := s.nodes.length with hni
    set ns := s.nodes ++ [(⟨d, none, none⟩ : DNode)] with hns
    set ns1 := ns.set newIdx (⟨d, none, some t⟩ : DNode) with hns1
    set m : DNode := { getDNode ns1 t with next := some newIdx } with hm
    set ns2 := ns1.set t m with hns2
    have happ : s.append d = ⟨ns2, s.head, some newIdx, s.size + 1⟩ := by
      simp only [DoublyLinkedList.append, hempf, Bool.false_eq_true, if_false, htail]
    have htlt : t < s.nodes.length := dinv_mem_lt h t (List.getLast_mem hxs)
    have hnewlt : newIdx < ns.length := by rw [hns, List.length_append]; simp
    have htnew : t ≠ newIdx := by omega
    have hnodup := dinv_nodup h
    have hsplit : xs.dropLast ++ [t] = xs := List.dropLast_append_getLast hxs
    have htnotin : t ∉ xs.dropLast := by
      have hnd : (xs.dropLast ++ [t]).Nodup := hsplit.symm ▸ hnodup
      have h2 := List.nodup_append.mp hnd
      intro hmem
      exact h2.2.2 hmem (List.mem_singleton.mpr rfl)
    have hold : ∀ i, i ∈ xs → i ≠ t → ns2[i]? = s.nodes[i]? := by
      intro i hi hit
      have hilt : i < s.nodes.length := dinv_mem_lt h i hi
      rw [hns2, List.getElem?_set_ne (fun hh => hit hh.symm),
        hns1, List.getElem?_set_ne (by omega), hns,
        List.getElem?_append_left hilt]
    have ht1 : ns1[t]? = s.nodes[t]? := by
      rw [hns1, List.getElem?_set_ne (by omega), hns, List.getElem?_append_left htlt]
    have ht2 : ns2[t]? = some m := by
      rw [hns2]
      apply List.getElem?_set_self
      rw [hns1, List.length_set]
      omega
    have hnew2 : ns2[newIdx]? = some ⟨d, none, some t⟩ := by
      rw [hns2, List.getElem?_set_ne htnew, hns1]
      exact List.getElem?_set_self hnewlt
    have hprevt : dprevF ns2 t = dprevF s.nodes t := by
      show (ns2[t]?).map DNode.prev = (s.nodes[t]?).map DNode.prev
      rw [ht2, List.getElem?_eq_getElem htlt]
      simp only [Option.map_some']
      congr 1
      rw [getDNode, ht1, List.getElem?_eq_getElem htlt, Option.getD_some]
    have hdatat : ddataOf ns2 t = ddataOf s.nodes t := by
      simp only [ddataOf, getDNode, ht2, Option.getD_some, hm]
      show (getDNode ns1 t).data = ((s.nodes[t]?).getD ⟨0, none, none⟩).data
      rw [getDNode, ht1]
    rw [happ]
    refine ⟨⟨?_, ?_, ?_⟩, ?_⟩
    · -- forward chain xs ++ [newIdx]
      obtain ⟨q, hq1, hq2⟩ := seg_split (p := s.head) (r := none) (hsplit ▸ h.fwd)
      obtain ⟨hqt, nx, hnx, hnil⟩ := seg_cons_inv hq2
      have hseg1 : Seg (dnextF ns2) s.head xs.dropLast q := by
        apply seg_congr _ hq1
        intro i hi
        apply dnextF_eq_of_getElem_eq
        exact hold i (hsplit ▸ List.mem_append_left [t] hi)
          (fun hh => htnotin (hh ▸ hi))
      have hseg2 : Seg (dnextF ns2) q [t] (some newIdx) := by
        rw [hqt]
        refine Seg.cons ?_ Seg.nil
        show (ns2[t]?).map DNode.next = some (some newIdx)
        rw [ht2]
        rfl
      have hseg3 : Seg (dnextF ns2) (some newIdx) [newIdx] none := by
        refine Seg.cons ?_ Seg.nil
        show (ns2[newIdx]?).map DNode.next = some none
        rw [hnew2]
        rfl
      have hglue := seg_trans (seg_trans hseg1 hseg2) hseg3
      show NullChain (dnextF ns2) s.head (xs ++ [newIdx])
      rw [← hsplit]
      simpa using hglue
    · -- backward chain: (xs ++ [newIdx]).reverse = newIdx :: xs.reverse
      show NullChain (dprevF ns2) (some newIdx) (xs ++ [newIdx]).reverse
      have hrevshape : (xs ++ [newIdx]).reverse = newIdx :: xs.reverse := by simp
      rw [hrevshape]
      have hp1 : dprevF ns2 newIdx = some (some t) := by
        show (ns2[newIdx]?).map DNode.prev = some (some t)
        rw [hnew2]
        rfl
      have hp2 : Seg (dprevF ns2) (some t) xs.reverse none := by
        have hb := h.bwd
        rw [dinv_tail_eq h, List.getLast?_eq_getLast xs hxs] at hb
        apply seg_congr _ hb
        intro i hi
        have himem : i ∈ xs := List.mem_reverse.mp hi
        by_cases hit : i = t
        · rw [hit]
          exact hprevt
        · exact dprevF_eq_of_getElem_eq (hold i himem hit)
      exact Seg.cons hp1 hp2
    · show s.size + 1 = (xs ++ [newIdx]).length
      rw [h.size_eq, List.length_append, List.length_singleton]
    · show dvaluesOf ns2 (xs ++ [newIdx]) = dvaluesOf s.nodes xs ++ [d]
      rw [dvaluesOf, List.map_append]
      have hdata : ∀ i ∈ xs, ddataOf ns2 i = ddataOf s.nodes i := by
        intro i hi
        by_cases hit : i = t
        · rw [hit]; exact hdatat
        · exact ddataOf_eq_of_getElem_eq (hold i hi hit)
      rw [List.map_congr_left hdata]
      congr 1
      show [ddataOf ns2 newIdx] = [d]
      congr 1
      simp only [ddataOf, getDNode, hnew2, Option.getD_some]

theorem dll_prepend_spec {s : DoublyLinkedList} {xs : List Nat} (d : Int) (h : DInv s xs) :
    DInv (s.prepend d) (s.nodes.length :: xs) ∧
      dvaluesOf (s.prepend d).nodes (s.nodes.length :: xs) =
        d :: dvaluesOf s.nodes xs := by
  by_cases hemp : s.is_empty = true
  · have hxs : xs = [] := (dinv_is_empty_iff h).mp hemp
    subst hxs
    have hpre : s.prepend d =
        ⟨s.nodes ++ [⟨d, none, none⟩], some s.nodes.length, some s.nodes.length,
          s.size + 1⟩ := by
      simp [DoublyLinkedList.prepend, hemp]
    rw [hpre]
    refine ⟨⟨?_, ?_, by simpa using h.size_eq⟩, ?_⟩
    · refine Seg.cons ?_ Seg.nil
      show ((s.nodes ++ [⟨d, none, none⟩])[s.nodes.length]?).map DNode.next = some none
      rw [List.getElem?_concat_length]
      rfl
    · refine Seg.cons ?_ Seg.nil
      show ((s.nodes ++ [⟨d, none, none⟩])[s.nodes.length]?).map DNode.prev = some none
      rw [List.getElem?_concat_length]
      rfl
    · simp [dvaluesOf, ddataOf, getDNode, List.getElem?_concat_length]
  · have hxs : xs ≠ [] := fun hh => hemp ((dinv_is_empty_iff h).mpr hh)
    have hempf : s.is_empty = false := by
      cases hb : s.is_empty with
      | true => exact absurd hb hemp
      | false => rfl
    set h0 := xs.head hxs with hh0
    have hhead : s.head = some h0 := by
      rw [dinv_head_eq h, List.head?_eq_head hxs]
    set newIdx := s.nodes.length with hni
    set ns := s.nodes ++ [(⟨d, none, none⟩ : DNode)] with hns
    set ns1 := ns.set newIdx (⟨d, some h0, none⟩ : DNode) with hns1
    set m : DNode := { getDNode ns1 h0 with prev := some newIdx } with hm
    set ns2 := ns1.set h0 m with hns2
    have hpre : s.prepend d = ⟨ns2, some newIdx, s.tail, s.size + 1⟩ := by
      simp only [DoublyLinkedList.prepend, hempf, Bool.false_eq_true, if_false, hhead]
    have hh0lt : h0 < s.nodes.length := dinv_mem_lt h h0 (List.head_mem hxs)
    have hnewlt : newIdx < ns.length := by rw [hns, List.length_append]; simp
    have hh0new : h0 ≠ newIdx := by omega
    have hnodup := dinv_nodup h
    have hold : ∀ i, i ∈ xs → i ≠ h0 → ns2[i]? = s.nodes[i]? := by
      intro i hi hih
      have hilt : i < s.nodes.length := dinv_mem_lt h i hi
      rw [hns2, List.getElem?_set_ne (fun hh => hih hh.symm),
        hns1, List.getElem?_set_ne (by omega), hns,
        List.getElem?_append_left hilt]
    have hh1 : ns1[h0]? = s.nodes[h0]? := by
      rw [hns1, List.getElem?_set_ne (by omega), hns, List.getElem?_append_left hh0lt]
    have hh2 : ns2[h0]? = some m := by
      rw [hns2]
      apply List.getElem?_set_self
      rw [hns1, List.length_set]
      omega
    have hnew2 : ns2[newIdx]? = some ⟨d, some h0, none⟩ := by
      rw [hns2, List.getElem?_set_ne hh0new, hns1]
      exact List.getElem?_set_self hnewlt
    have hnexth0 : dnextF ns2 h0 = dnextF s.nodes h0 := by
      show (ns2[h0]?).map DNode.next = (s.nodes[h0]?).map DNode.next
      rw [hh2, List.getElem?_eq_getElem hh0lt]
      simp only [Option.map_some']
      congr 1
      rw [getDNode, hh1, List.getElem?_eq_getElem hh0lt, Option.getD_some]
    have hdatah0 : ddataOf ns2 h0 = ddataOf s.nodes h0 := by
      simp only [ddataOf, getDNode, hh2, Option.getD_some, hm]
      show (getDNode ns1 h0).data = ((s.nodes[h0]?).getD ⟨0, none, none⟩).data
      rw [getDNode, hh1]
    rw [hpre]
    refine ⟨⟨?_, ?_, ?_⟩, ?_⟩
    · -- forward chain newIdx :: xs
      have hc1 : dnextF ns2 newIdx = some (some h0) := by
        show (ns2[newIdx]?).map DNode.next = some (some h0)
        rw [hnew2]
        rfl
      have hc2 : Seg (dnextF ns2) (some h0) xs none := by
        have hf := h.fwd
        rw [hhead] at hf
        apply seg_congr _ hf
        intro i hi
        by_cases hih : i = h0
        · rw [hih]; exact hnexth0
        · exact dnextF_eq_of_getElem_eq (hold i hi hih)
      exact Seg.cons hc1 hc2
    · -- backward chain (newIdx :: xs).reverse = xs.reverse ++ [newIdx]
      show NullChain (dprevF ns2) s.tail (newIdx :: xs).reverse
      rw [List.reverse_cons]
      have hrevne : xs.reverse ≠ [] := by
        intro hh
        exact hxs (by simpa using congrArg List.reverse hh)
      have hrevlast : xs.reverse.getLast hrevne = h0 := by
        have h1 : xs.reverse.getLast? = some (xs.reverse.getLast hrevne) :=
          List.getLast?_eq_getLast xs.reverse hrevne
        rw [List.getLast?_reverse, List.head?_eq_head hxs] at h1
        exact (Option.some.inj h1).symm
      have hrsplit : xs.reverse.dropLast ++ [h0] = xs.reverse := by
        rw [← hrevlast]
        exact List.dropLast_append_getLast hrevne
      have hh0notdl : h0 ∉ xs.reverse.dropLast := by
        have hndr : xs.reverse.Nodup := by
          rw [List.nodup_reverse]
          exact hnodup
        have hnd : (xs.reverse.dropLast ++ [h0]).Nodup := hrsplit.symm ▸ hndr
        have h2 := List.nodup_append.mp hnd
        intro hmem
        exact h2.2.2 hmem (List.mem_singleton.mpr rfl)
      obtain ⟨q, hq1, hq2⟩ := seg_split (p := s.tail) (r := none) (hrsplit ▸ h.bwd)
      obtain ⟨hqh, nx, hnx, hnil⟩ := seg_cons_inv hq2
      have hseg1 : Seg (dprevF ns2) s.tail xs.reverse.dropLast q := by
        apply seg_congr _ hq1
        intro i hi
        have himem : i ∈ xs := by
          rw [← List.mem_reverse, ← hrsplit]
          exact List.mem_append_left [h0] hi
        apply dprevF_eq_of_getElem_eq
        exact hold i himem (fun hh => hh0notdl (hh ▸ hi))
      have hseg2 : Seg (dprevF ns2) q [h0] (some newIdx) := by
        rw [hqh]
        refine Seg.cons ?_ Seg.nil
        show (ns2[h0]?).map DNode.prev = some (some newIdx)
        rw [hh2]
        rfl
      have hseg3 : Seg (dprevF ns2) (some newIdx) [newIdx] none := by
        refine Seg.cons ?_ Seg.nil
        show (ns2[newIdx]?).map DNode.prev = some none
        rw [hnew2]
        rfl
      have hglue := seg_trans (seg_trans hseg1 hseg2) hseg3
      have hshape : xs.reverse.dropLast ++ [h0] ++ [newIdx] = xs.reverse ++ [newIdx] := by
        rw [hrsplit]
      rw [← hshape]
      simpa using hglue
    · show s.size + 1 = (newIdx :: xs).length
      rw [h.size_eq]
      rfl
    · show dvaluesOf ns2 (newIdx :: xs) = d :: dvaluesOf s.nodes xs
      have hd0 : ddataOf ns2 newIdx = d := by
        simp only [ddataOf, getDNode, hnew2, Option.getD_some]
      have hrest : dvaluesOf ns2 xs = dvaluesOf s.nodes xs := by
        apply dvaluesOf_congr2
        intro i hi
        by_cases hih : i = h0
        · rw [hih]; exact hdatah0
        · exact ddataOf_eq_of_getElem_eq (hold i hi hih)
      show ddataOf ns2 newIdx :: dvaluesOf ns2 xs = d :: dvaluesOf s.nodes xs
      rw [hd0, hrest]

theorem sll_get_err {s : SinglyLinkedList} (index : Int)
    (hi : index < 0 ∨ (s.size : Int) ≤ index) :
    s.get index = (.error (.outOfRange index), s) := by
  rw [SinglyLinkedList.get, if_pos hi]

theorem dll_get_err {s : DoublyLinkedList} (index : Int)
    (hi : index < 0 ∨ (s.size : Int) ≤ index) :
    s.get index = (.error (.outOfRange index), s) := by
  rw [DoublyLinkedList.get, if_pos hi]

theorem dll_iterLoop_spec {ns : List DNode} {p : Option Nat} {xs : List Nat} {fuel : Nat}
    (h : NullChain (dnextF ns) p xs) (hf : xs.length ≤ fuel) :
    DoublyLinkedList.iterLoop ns p fuel = dvaluesOf ns xs := by
  induction xs generalizing p fuel with
  | nil =>
      have hp := seg_nil_inv h
      subst hp
      cases fuel <;> rfl
  | cons i rest ih =>
      obtain ⟨hp, nx, hnx, hr⟩ := seg_cons_inv h
      subst hp
      cases fuel with
      | zero => simp at hf
      | succ f =>
          have hnode := (dnextF_getDNode hnx).1
          show (getDNode ns i).data :: DoublyLinkedList.iterLoop ns (getDNode ns i).next f = _
          rw [hnode, ih hr (by simpa using hf)]
          rfl

theorem dll_reverseIterLoop_spec {ns : List DNode} {p : Option Nat} {xs : List Nat}
    {fuel : Nat} (h : NullChain (dprevF ns) p xs) (hf : xs.length ≤ fuel) :
    DoublyLinkedList.reverseIterLoop ns p fuel = dvaluesOf ns xs := by
  induction xs generalizing p fuel with
  | nil =>
      have hp := seg_nil_inv h
      subst hp
      cases fuel <;> rfl
  | cons i rest ih =>
      obtain ⟨hp, nx, hnx, hr⟩ := seg_cons_inv h
      subst hp
      cases fuel with
      | zero => simp at hf
      | succ f =>
          have hnode := (dprevF_getDNode hnx).1
          show (getDNode ns i).data ::
            DoublyLinkedList.reverseIterLoop ns (getDNode ns i).prev f = _
          rw [hnode, ih hr (by simpa using hf)]
          rfl

theorem dll_searchLoop_spec {ns : List DNode} {d : Int} {p : Option Nat} {xs : List Nat}
    {k fuel : Nat} (h : NullChain (dnextF ns) p xs) (hf : xs.length ≤ fuel) :
    DoublyLinkedList.searchLoop ns d p k fuel =
      match (dvaluesOf ns xs).findIdx? (fun v => v == d) with
      | some j => ((k + j : Nat) : Int)
      | none => -1 := by
  induction xs generalizing p fuel k with
  | nil =>
      have hp := seg_nil_inv h
      subst hp
      cases fuel <;> simp [DoublyLinkedList.searchLoop, dvaluesOf]
  | cons i rest ih =>
      obtain ⟨hp, nx, hnx, hr⟩ := seg_cons_inv h
      subst hp
      cases fuel with
      | zero => simp at hf
      | succ f =>
          have hnode := (dnextF_getDNode hnx).1
          have hds : ddataOf ns i = (getDNode ns i).data := rfl
          show (if (getDNode ns i).data = d then (k : Int)
            else DoublyLinkedList.searchLoop ns d (getDNode ns i).next (k + 1) f) = _
          rw [hnode]
          have hvals : dvaluesOf ns (i :: rest) = ddataOf ns i :: dvaluesOf ns rest := rfl
          rw [hvals, List.findIdx?_cons, List.findIdx?_succ]
          by_cases hd : (getDNode ns i).data = d
          · rw [if_pos hd]
            have hb : (ddataOf ns i == d) = true := by rw [hds]; simp [hd]
            rw [hb]
            simp
          · rw [if_neg hd]
            have hb : (ddataOf ns i == d) = false := by rw [hds]; simp [hd]
            rw [hb]
            rw [ih hr (by simpa using hf)]
            cases hfind : (dvaluesOf ns rest).findIdx? (fun v => v == d) with
            | none => simp
            | some j =>
                simp only [Option.map_some']
                show ((k + 1 + j : Nat) : Int) = ((k + (j + 1) : Nat) : Int)
                congr 1
                omega

theorem dll_toList_eq {s : DoublyLinkedList} {xs : List Nat} (h : DInv s xs) :
    s.toList = dvaluesOf s.nodes xs :=
  dll_iterLoop_spec h.fwd (le_of_eq h.size_eq.symm)

theorem dll_reverse_iter_eq {s : DoublyLinkedList} {xs : List Nat} (h : DInv s xs) :
    s.reverse_iter = dvaluesOf s.nodes xs.reverse :=
  dll_reverseIterLoop_spec h.bwd
    (by rw [List.length_reverse]; exact le_of_eq h.size_eq.symm)

theorem dll_search_eq {s : DoublyLinkedList} {xs : List Nat} (h : DInv s xs) (d : Int) :
    s.search d =
      match (dvaluesOf s.nodes xs).findIdx? (fun v => v == d) with
      | some j => (j : Int)
      | none => -1 := by
  rw [DoublyLinkedList.search, dll_searchLoop_spec h.fwd (le_of_eq h.size_eq.symm)]
  cases (dvaluesOf s.nodes xs).findIdx? (fun v => v == d) <;> simp

theorem dll_toStr_eq {s : DoublyLinkedList} {xs : List Nat} (h : DInv s xs) :
    s.toStr = if xs = [] then "[]"
      else String.intercalate " <-> " ((dvaluesOf s.nodes xs).map toString) := by
  rw [DoublyLinkedList.toStr]
  by_cases hemp : s.is_empty = true
  · rw [if_pos hemp, if_pos ((dinv_is_empty_iff h).mp hemp)]
  · have hxs : xs ≠ [] := fun hh => hemp ((dinv_is_empty_iff h).mpr hh)
    rw [if_neg hemp, if_neg hxs, dll_iterLoop_spec h.fwd (le_of_eq h.size_eq.symm)]

theorem dll_str_reverse_eq {s : DoublyLinkedList} {xs : List Nat} (h : DInv s xs) :
    s.str_reverse = if xs = [] then "[]"
      else String.intercalate " <-> " ((dvaluesOf s.nodes xs.reverse).map toString) := by
  rw [DoublyLinkedList.str_reverse]
  by_cases hemp : s.is_empty = true
  · rw [if_pos hemp, if_pos ((dinv_is_empty_iff h).mp hemp)]
  · have hxs : xs ≠ [] := fun hh => hemp ((dinv_is_empty_iff h).mpr hh)
    rw [if_neg hemp, if_neg hxs, dll_reverseIterLoop_spec h.bwd
      (by rw [List.length_reverse]; exact le_of_eq h.size_eq.symm)]

theorem dll_cursor_spec {s : DoublyLinkedList} {xs : List Nat} (h : DInv s xs)
    {index : Int} (h0 : 0 ≤ index) (h1 : index < (s.size : Int))
    (hk : index.toNat < xs.length) :
    s.cursor index = some (xs.get ⟨index.toNat, hk⟩) := by
  have hsz := h.size_eq
  rw [DoublyLinkedList.cursor]
  by_cases hbr : index < ((s.size / 2 : Nat) : Int)
  · rw [if_pos hbr, nullchain_walk h.fwd (le_of_lt hk), ptrAt,
      List.drop_eq_getElem_cons hk]
    simp [List.get_eq_getElem]
  · rw [if_neg hbr]
    have hjlt : ((s.size : Int) - index - 1).toNat < xs.reverse.length := by
      rw [List.length_reverse]
      omega
    rw [nullchain_walk h.bwd (le_of_lt hjlt), ptrAt,
      List.drop_eq_getElem_cons hjlt, List.head?_cons]
    congr 1
    rw [List.getElem_reverse, List.get_eq_getElem]
    have hidx : xs.length - 1 - ((s.size : Int) - index - 1).toNat = index.toNat := by
      omega
    simp only [hidx]

theorem dll_get_ok {s : DoublyLinkedList} {xs : List Nat} (h : DInv s xs) {index : Int}
    (h0 : 0 ≤ index) (h1 : index < (s.size : Int)) :
    ∃ v, (dvaluesOf s.nodes xs)[index.toNat]? = some v ∧ s.get index = (.ok v, s) := by
  have hk : index.toNat < xs.length := by
    rw [← h.size_eq]; omega
  have hcur := dll_cursor_spec h h0 h1 hk
  refine ⟨ddataOf s.nodes (xs.get ⟨index.toNat, hk⟩), ?_, ?_⟩
  · rw [dvaluesOf, List.getElem?_eq_getElem (by simpa using hk)]
    simp [List.get_eq_getElem]
  · rw [DoublyLinkedList.get, if_neg (by omega), hcur]
    rfl

theorem nodup_head_ne_getLast {xs : List Nat} (hnd : xs.Nodup) (h2 : 2 ≤ xs.length)
    (hne : xs ≠ []) : xs.head hne ≠ xs.getLast hne := by
  intro heq
  rw [List.head_eq_getElem, List.getLast_eq_getElem] at heq
  have := (hnd.getElem_inj_iff).mp heq
  omega

theorem dll_delete_first_err {s : DoublyLinkedList} {xs : List Nat} (h : DInv s xs)
    (hsz : s.size = 0) : s.delete_first = (.error .emptyCollection, s) := by
  have hxs : xs = [] := by
    have := h.size_eq
    rw [hsz] at this
    exact List.eq_nil_of_length_eq_zero this.symm
  have hemp : s.is_empty = true := (dinv_is_empty_iff h).mpr hxs
  rw [DoublyLinkedList.delete_first, if_pos hemp]

theorem dll_delete_last_err {s : DoublyLinkedList} {xs : List Nat} (h : DInv s xs)
    (hsz : s.size = 0) : s.delete_last = (.error .emptyCollection, s) := by
  have hxs : xs = [] := by
    have := h.size_eq
    rw [hsz] at this
    exact List.eq_nil_of_length_eq_zero this.symm
  have hemp : s.is_empty = true := (dinv_is_empty_iff h).mpr hxs
  rw [DoublyLinkedList.delete_last, if_pos hemp]

theorem dll_delete_first_ok {s : DoublyLinkedList} {xs : List Nat} (h : DInv s xs)
    (hsz : s.size ≠ 0) :
    ∃ v s2, s.delete_first = (.ok v, s2) ∧ DInv s2 xs.tail ∧
      (dvaluesOf s.nodes xs).head? = some v ∧
      dvaluesOf s2.nodes xs.tail = (dvaluesOf s.nodes xs).tail ∧
      s2.head = ptrAt xs 1 ∧ s2.size = s.size - 1 ∧
      (s2.size = 0 → s2.tail = none) := by
  have hxs : xs ≠ [] := by
    intro hh
    rw [h.size_eq, hh] at hsz
    exact hsz rfl
  obtain ⟨a, rest, rfl⟩ : ∃ a l, xs = a :: l := by
    cases xs with
    | nil => exact absurd rfl hxs
    | cons a l => exact ⟨a, l, rfl⟩
  obtain ⟨hp, nx, hnx, hr⟩ := seg_cons_inv h.fwd
  have hempf : s.is_empty = false := by rw [DoublyLinkedList.is_empty, hp]; rfl
  have hnode := (dnextF_getDNode hnx).1
  have halt : a < s.nodes.length := (dnextF_getDNode hnx).2
  have hnxhead : nx = rest.head? := nullchain_head_eq hr
  cases rest with
  | nil =>
      have hteq : s.tail = some a := dinv_tail_eq h
      have hdel : s.delete_first =
          (.ok (getDNode s.nodes a).data, ⟨s.nodes, none, none, s.size - 1⟩) := by
        rw [DoublyLinkedList.delete_first,
          if_neg (by rw [hempf]; exact Bool.false_ne_true), hp]
        dsimp only
        rw [if_pos hteq.symm]
      have hsz1 : s.size - 1 = 0 := by
        have := h.size_eq
        simp only [List.length_cons, List.length_nil] at this
        omega
      refine ⟨(getDNode s.nodes a).data, ⟨s.nodes, none, none, s.size - 1⟩, hdel,
        ⟨Seg.nil, Seg.nil, by simpa using hsz1⟩, rfl, rfl, rfl, rfl, fun _ => rfl⟩
  | cons b l =>
      have hsome : nx = some b := by rw [hnxhead]; rfl
      have hlen2 : 2 ≤ (a :: b :: l).length := by simp
      have hneq : s.head ≠ s.tail := by
        rw [hp, dinv_tail_eq h, List.getLast?_eq_getLast _ hxs]
        intro heq
        have ha : a = (a :: b :: l).head hxs := rfl
        exact nodup_head_ne_getLast (dinv_nodup h) hlen2 hxs
          (ha ▸ Option.some.inj heq)
      have hblt : b < s.nodes.length :=
        dinv_mem_lt h b (List.mem_cons_of_mem a (List.mem_cons_self b l))
      set m : DNode := { getDNode s.nodes b with prev := none } with hmdef
      set ns1 := s.nodes.set b m with hns1def
      have hdel : s.delete_first =
          (.ok (getDNode s.nodes a).data, ⟨ns1, some b, s.tail, s.size - 1⟩) := by
        rw [DoublyLinkedList.delete_first,
          if_neg (by rw [hempf]; exact Bool.false_ne_true), hp]
        dsimp only
        rw [if_neg (fun heq => hneq (hp.trans heq)), hnode, hsome]
      have hnd := nullchain_nodup h.fwd
      have hanotbl : a ∉ b :: l := (List.nodup_cons.mp hnd).1
      -- next links are untouched by a prev-only update
      have hnexts : ∀ i, dnextF ns1 i = dnextF s.nodes i := by
        intro i
        by_cases hib : i = b
        · subst hib
          show (ns1[i]?).map DNode.next = (s.nodes[i]?).map DNode.next
          rw [hns1def, List.getElem?_set_self hblt,
            List.getElem?_eq_getElem hblt]
          simp only [Option.map_some']
          congr 1
          rw [getDNode, List.getElem?_eq_getElem hblt, Option.getD_some]
        · show (ns1[i]?).map DNode.next = (s.nodes[i]?).map DNode.next
          rw [hns1def, List.getElem?_set_ne (fun hh => hib hh.symm)]
      have hdatas : ∀ i, ddataOf ns1 i = ddataOf s.nodes i := by
        intro i
        rw [hns1def]
        apply ddataOf_set_samedata
        rw [hmdef]
      have hfwd1 : NullChain (dnextF ns1) (some b) (b :: l) := by
        apply seg_congr _ (hsome ▸ hr)
        intro i hi
        exact hnexts i
      have hbwd1 : NullChain (dprevF ns1) s.tail (b :: l).reverse := by
        -- old backward chain: (a :: b :: l).reverse = (b :: l).reverse ++ [a]
        have hb := h.bwd
        have hshape : (a :: b :: l).reverse = (b :: l).reverse ++ [a] :=
          List.reverse_cons a (b :: l)
        rw [hshape] at hb
        obtain ⟨q, hq1, hq2⟩ := seg_split hb
        -- identify the last element of (b :: l).reverse as b
        have hrevne : (b :: l).reverse ≠ [] := by simp
        have hrevlast : (b :: l).reverse.getLast hrevne = b := by
          have h1 := List.getLast?_eq_getLast (b :: l).reverse hrevne
          rw [List.getLast?_reverse, List.head?_cons] at h1
          exact (Option.some.inj h1).symm
        have hrsplit : (b :: l).reverse.dropLast ++ [b] = (b :: l).reverse := by
          have hh := List.dropLast_append_getLast hrevne
          rw [hrevlast] at hh
          exact hh
        have hbnotdl : b ∉ (b :: l).reverse.dropLast := by
          have hndr : (b :: l).reverse.Nodup := by
            rw [List.nodup_reverse]
            exact (List.nodup_cons.mp hnd).2
          have hnd3 : ((b :: l).reverse.dropLast ++ [b]).Nodup := hrsplit.symm ▸ hndr
          have h2 := List.nodup_append.mp hnd3
          intro hmem
          exact h2.2.2 hmem (List.mem_singleton.mpr rfl)
        obtain ⟨q2, hq21, hq22⟩ := seg_split (p := s.tail) (r := q) (hrsplit ▸ hq1)
        obtain ⟨hq2b, nxb, hnxb, hnilb⟩ := seg_cons_inv hq22
        have hseg1 : Seg (dprevF ns1) s.tail (b :: l).reverse.dropLast q2 := by
          apply seg_congr _ hq21
          intro i hi
          apply dprevF_eq_of_getElem_eq
          rw [hns1def, List.getElem?_set_ne (fun hh => hbnotdl
            (Eq.subst (motive := fun x => x ∈ (b :: l).reverse.dropLast) hh.symm hi))]
        have hseg2 : Seg (dprevF ns1) q2 [b] none := by
          rw [hq2b]
          refine Seg.cons ?_ Seg.nil
          show (ns1[b]?).map DNode.prev = some none
          rw [hns1def, List.getElem?_set_self hblt]
          rfl
        have hglue := seg_trans hseg1 hseg2
        rw [← hrsplit]
        exact hglue
      have hszeq : s.size - 1 = (b :: l).length := by
        have := h.size_eq
        simp only [List.length_cons] at this ⊢
        omega
      refine ⟨(getDNode s.nodes a).data, ⟨ns1, some b, s.tail, s.size - 1⟩, hdel,
        ⟨hfwd1, hbwd1, hszeq⟩, rfl, ?_, rfl, rfl, ?_⟩
      · show dvaluesOf ns1 (b :: l) = (dvaluesOf s.nodes (a :: b :: l)).tail
        have h1 : dvaluesOf ns1 (b :: l) = dvaluesOf s.nodes (b :: l) :=
          dvaluesOf_congr2 (fun i _ => hdatas i)
        rw [h1]
        rfl
      · intro hzero
        rw [hszeq] at hzero
        simp at hzero

theorem dll_delete_last_ok {s : DoublyLinkedList} {xs : List Nat} (h : DInv s xs)
    (hsz : s.size ≠ 0) :
    ∃ v s2, s.delete_last = (.ok v, s2) ∧ DInv s2 xs.dropLast ∧
      (dvaluesOf s.nodes xs).getLast? = some v ∧
      dvaluesOf s2.nodes xs.dropLast = (dvaluesOf s.nodes xs).dropLast ∧
      s2.size = s.size - 1 := by
  have hxs : xs ≠ [] := by
    intro hh
    rw [h.size_eq, hh] at hsz
    exact hsz rfl
  have hempf : s.is_empty = false := by
    cases hb : s.is_empty with
    | true => exact absurd ((dinv_is_empty_iff h).mp hb) hxs
    | false => rfl
  set t := xs.getLast hxs with htdef
  have htail : s.tail = some t := by
    rw [dinv_tail_eq h, List.getLast?_eq_getLast xs hxs]
  by_cases hone : xs.length = 1
  · obtain ⟨a, rfl⟩ : ∃ a, xs = [a] := by
      cases xs with
      | nil => exact absurd rfl hxs
      | cons a l =>
          cases l with
          | nil => exact ⟨a, rfl⟩
          | cons b m => simp at hone
    have hp : s.head = some a := dinv_head_eq h
    have hta : s.tail = some a := dinv_tail_eq h
    have hdel : s.delete_last =
        (.ok (getDNode s.nodes a).data, ⟨s.nodes, none, none, s.size - 1⟩) := by
      rw [DoublyLinkedList.delete_last,
        if_neg (by rw [hempf]; exact Bool.false_ne_true), hta]
      dsimp only
      rw [if_pos hp]
    have hsz1 : s.size - 1 = 0 := by
      have := h.size_eq
      simp only [List.length_cons, List.length_nil] at this
      omega
    refine ⟨(getDNode s.nodes a).data, ⟨s.nodes, none, none, s.size - 1⟩, hdel,
      ⟨Seg.nil, Seg.nil, by simpa using hsz1⟩, rfl, rfl, rfl⟩
  · have hlen2 : 2 ≤ xs.length := by
      cases xs with
      | nil => exact absurd rfl hxs
      | cons a l =>
          cases l with
          | nil => exact absurd rfl hone
          | cons b m => simp
    have hneq : s.head ≠ s.tail := by
      rw [dinv_head_eq h, htail, List.head?_eq_head hxs]
      intro heq
      exact nodup_head_ne_getLast (dinv_nodup h) hlen2 hxs (Option.some.inj heq)
    have hdl : xs.dropLast ≠ [] := by
      have hld : xs.dropLast.length = xs.length - 1 := List.length_dropLast xs
      intro hh
      rw [hh] at hld
      simp at hld
      omega
    set c := xs.dropLast.getLast hdl with hcdef
    have hx1 : xs.dropLast ++ [t] = xs := List.dropLast_append_getLast hxs
    have hnodup := dinv_nodup h
    have htnotin : t ∉ xs.dropLast := by
      have hnd : (xs.dropLast ++ [t]).Nodup := hx1.symm ▸ hnodup
      have h2 := List.nodup_append.mp hnd
      intro hmem
      exact h2.2.2 hmem (List.mem_singleton.mpr rfl)
    -- backward chain gives t's prev pointer
    have hrevshape : xs.reverse = t :: xs.dropLast.reverse := by
      rw [← hx1]
      simp
    have hb := h.bwd
    rw [hrevshape] at hb
    obtain ⟨hpt, nx2, hnx2, hrb⟩ := seg_cons_inv hb
    have htprev : (getDNode s.nodes t).prev = nx2 := (dprevF_getDNode hnx2).1
    have hnx2c : nx2 = some c := by
      have := nullchain_head_eq hrb
      rw [this]
      rw [List.head?_reverse, List.getLast?_eq_getLast xs.dropLast hdl]
    have hclt : c < s.nodes.length :=
      dinv_mem_lt h c (by
        rw [← hx1]
        exact List.mem_append_left [t] (List.getLast_mem hdl))
    set m : DNode := { getDNode s.nodes c with next := none } with hmdef
    set ns1 := s.nodes.set c m with hns1def
    have hdel : s.delete_last =
        (.ok (getDNode s.nodes t).data, ⟨ns1, s.head, some c, s.size - 1⟩) := by
      rw [DoublyLinkedList.delete_last,
        if_neg (by rw [hempf]; exact Bool.false_ne_true), htail]
      dsimp only
      rw [if_neg (fun heq => hneq (heq.trans htail.symm)), htprev, hnx2c]
    -- forward chain of the new state: xs.dropLast
    have hx2 : xs.dropLast.dropLast ++ [c] = xs.dropLast := List.dropLast_append_getLast hdl
    have hcnotys : c ∉ xs.dropLast.dropLast := by
      have hnd2 : (xs.dropLast.dropLast ++ [c]).Nodup := by
        rw [hx2]
        exact (List.nodup_append.mp ((hx1.symm ▸ hnodup) :
          (xs.dropLast ++ [t]).Nodup)).1
      have h2 := List.nodup_append.mp hnd2
      intro hmem
      exact h2.2.2 hmem (List.mem_singleton.mpr rfl)
    have hfsplit : xs.dropLast.dropLast ++ ([c] ++ [t]) = xs := by
      rw [← List.append_assoc, hx2, hx1]
    have hfwd := h.fwd
    rw [← hfsplit] at hfwd
    obtain ⟨qc, hqc1, hqc2⟩ := seg_split hfwd
    obtain ⟨qt, hqt1, hqt2⟩ := seg_split hqc2
    obtain ⟨hqcc, nxc, hnxc, hmid⟩ := seg_cons_inv hqt1
    have hfwd1 : NullChain (dnextF ns1) s.head xs.dropLast := by
      rw [← hx2]
      have hseg1 : Seg (dnextF ns1) s.head xs.dropLast.dropLast qc := by
        apply seg_congr _ hqc1
        intro i hi
        apply dnextF_eq_of_getElem_eq
        rw [hns1def, List.getElem?_set_ne (fun hh => hcnotys
          (Eq.subst (motive := fun x => x ∈ xs.dropLast.dropLast) hh.symm hi))]
      have hseg2 : Seg (dnextF ns1) qc [c] none := by
        rw [hqcc]
        refine Seg.cons ?_ Seg.nil
        show (ns1[c]?).map DNode.next = some none
        rw [hns1def, List.getElem?_set_self hclt]
        rfl
      exact seg_trans hseg1 hseg2
    -- backward chain: prev links are untouched by a next-only update
    have hprevs : ∀ i, dprevF ns1 i = dprevF s.nodes i := by
      intro i
      by_cases hic : i = c
      · rw [hic]
        show (ns1[c]?).map DNode.prev = (s.nodes[c]?).map DNode.prev
        rw [hns1def, List.getElem?_set_self hclt, List.getElem?_eq_getElem hclt]
        simp only [Option.map_some']
        congr 1
        rw [getDNode, List.getElem?_eq_getElem hclt, Option.getD_some]
      · show (ns1[i]?).map DNode.prev = (s.nodes[i]?).map DNode.prev
        rw [hns1def, List.getElem?_set_ne (fun hh => hic hh.symm)]
    have hbwd1 : NullChain (dprevF ns1) (some c) xs.dropLast.reverse := by
      apply seg_congr _ (hnx2c ▸ hrb)
      intro i hi
      exact hprevs i
    have hszeq : s.size - 1 = xs.dropLast.length := by
      rw [h.size_eq, List.length_dropLast]
    refine ⟨(getDNode s.nodes t).data, ⟨ns1, s.head, some c, s.size - 1⟩, hdel,
      ⟨hfwd1, hbwd1, hszeq⟩, ?_, ?_, rfl⟩
    · rw [← hx1]
      show (dvaluesOf s.nodes (xs.dropLast ++ [t])).getLast? = some (getDNode s.nodes t).data
      rw [dvaluesOf, List.map_append, List.getLast?_append_of_ne_nil _ (by simp)]
      simp [ddataOf]
    · show dvaluesOf ns1 xs.dropLast = (dvaluesOf s.nodes xs).dropLast
      have hv1 : dvaluesOf ns1 xs.dropLast = dvaluesOf s.nodes xs.dropLast := by
        apply dvaluesOf_congr2
        intro i hi
        rw [hns1def]
        apply ddataOf_set_samedata
        rw [hmdef]
      rw [hv1]
      exact List.map_dropLast _ _

theorem dinv_prev_at {s : DoublyLinkedList} {xs : List Nat} (h : DInv s xs) {k : Nat}
    (hk : k < xs.length) (hk1 : 1 ≤ k) :
    dprevF s.nodes (xs.get ⟨k, hk⟩) =
      some (some (xs.get ⟨k - 1, by omega⟩)) := by
  have hj : xs.length - 1 - k < xs.reverse.length := by
    rw [List.length_reverse]; omega
  have h1 := nullchain_next_at h.bwd hj
  have he : xs.reverse.get ⟨xs.length - 1 - k, hj⟩ = xs.get ⟨k, hk⟩ := by
    simp only [List.get_eq_getElem, List.getElem_reverse]
    have hidx : xs.length - 1 - (xs.length - 1 - k) = k := by omega
    simp only [hidx]
  rw [he] at h1
  have hj2 : xs.length - 1 - k + 1 < xs.reverse.length := by
    rw [List.length_reverse]; omega
  have hp2 : ptrAt xs.reverse (xs.length - 1 - k + 1) =
      some (xs.get ⟨k - 1, by omega⟩) := by
    rw [ptrAt, List.drop_eq_getElem_cons hj2, List.head?_cons]
    simp only [List.get_eq_getElem, List.getElem_reverse]
    have hidx : xs.length - 1 - (xs.length - 1 - k + 1) = k - 1 := by omega
    simp only [hidx]
  rw [hp2] at h1
  exact h1

theorem dll_insert_at_err {s : DoublyLinkedList} (index d : Int)
    (hi : index < 0 ∨ (s.size : Int) < index) :
    s.insert_at index d = (.error (.outOfRange index), s) := by
  rw [DoublyLinkedList.insert_at, if_pos hi]

theorem dll_delete_at_err {s : DoublyLinkedList} (index : Int)
    (hi : index < 0 ∨ (s.size : Int) ≤ index) :
    s.delete_at index = (.error (.outOfRange index), s) := by
  rw [DoublyLinkedList.delete_at, if_pos hi]

theorem dll_insert_at_ok {s : DoublyLinkedList} {xs : List Nat} (h : DInv s xs)
    {index : Int} (h0 : 0 ≤ index) (h1 : index ≤ (s.size : Int)) (d : Int) :
    ∃ xs2 s2, s.insert_at index d = (.ok (), s2) ∧ DInv s2 xs2 ∧
      xs2.length = xs.length + 1 := by
  by_cases hi0 : index = 0
  · refine ⟨s.nodes.length :: xs, s.prepend d, ?_, (dll_prepend_spec d h).1, by simp⟩
    rw [DoublyLinkedList.insert_at, if_neg (by omega), if_pos hi0]
  · by_cases his : index = (s.size : Int)
    · refine ⟨xs ++ [s.nodes.length], s.append d, ?_, (dll_append_spec d h).1, by simp⟩
      rw [DoublyLinkedList.insert_at, if_neg (by omega), if_neg hi0, if_pos his]
    · set k := index.toNat with hkdef
      have hk1 : 1 ≤ k := by omega
      have hklt : k < xs.length := by rw [← h.size_eq]; omega
      have hkm1 : k - 1 < xs.length := by omega
      have hkm11 : k - 1 + 1 = k := by omega
      set newIdx := s.nodes.length with hnidef
      set ns := s.nodes ++ [(⟨d, none, none⟩ : DNode)] with hnsdef
      set sp : DoublyLinkedList := ⟨ns, s.head, s.tail, s.size⟩ with hspdef
      have hframe_app : ∀ i ∈ xs, ns[i]? = s.nodes[i]? := by
        intro i hi
        rw [hnsdef, List.getElem?_append_left (dinv_mem_lt h i hi)]
      have hspinv : DInv sp xs := by
        refine ⟨?_, ?_, h.size_eq⟩
        · exact seg_congr
            (fun i hi => dnextF_eq_of_getElem_eq (hframe_app i hi)) h.fwd
        · exact seg_congr
            (fun i hi => dprevF_eq_of_getElem_eq
              (hframe_app i (List.mem_reverse.mp hi))) h.bwd
      set c := xs.get ⟨k, hklt⟩ with hcdef
      set p := xs.get ⟨k - 1, hkm1⟩ with hpdef
      have hcur : sp.cursor index = some c := by
        have h1s : index < ((sp.size : Nat) : Int) := by
          show index < ((s.size : Nat) : Int)
          omega
        exact dll_cursor_spec hspinv h0 h1s hklt
      have hclt : c < s.nodes.length :=
        dinv_mem_lt h c (by rw [hcdef]; exact List.get_mem xs k hklt)
      have hplt : p < s.nodes.length :=
        dinv_mem_lt h p (by rw [hpdef]; exact List.get_mem xs (k - 1) hkm1)
      have hprevc : (getDNode s.nodes c).prev = some p := by
        have := dinv_prev_at h hklt hk1
        rw [← hcdef, ← hpdef] at this
        exact (dprevF_getDNode this).1
      have hgetc : getDNode ns c = getDNode s.nodes c := by
        rw [getDNode, getDNode, hframe_app c (by rw [hcdef]; exact List.get_mem xs k hklt)]
      have hprevc2 : (getDNode ns c).prev = some p := by
        rw [hgetc]
        exact hprevc
      -- the arena updates
      set ns1 := ns.set newIdx (⟨d, some c, some p⟩ : DNode) with hns1def
      set m2 : DNode := { getDNode ns1 p with next := some newIdx } with hm2def
      set ns2 := ns1.set p m2 with hns2def
      set m3 : DNode := { getDNode ns2 c with prev := some newIdx } with hm3def
      set ns3 := ns2.set c m3 with hns3def
      have hresult : s.insert_at index d =
          (.ok (), ⟨ns3, s.head, s.tail, s.size + 1⟩) := by
        rw [DoublyLinkedList.insert_at, if_neg (by omega), if_neg hi0, if_neg his]
        dsimp only
        rw [show DoublyLinkedList.cursor ⟨ns, s.head, s.tail, s.size⟩ index =
          some c from hcur]
        dsimp only
        rw [hprevc2]
      -- distinctness
      have hnodup := dinv_nodup h
      have hpc : p ≠ c := by
        intro heq
        rw [hpdef, hcdef] at heq
        have h2 := (hnodup.get_inj_iff).mp heq
        have h3 := congrArg Fin.val h2
        simp only at h3
        omega
      have hcnew : c ≠ newIdx := by omega
      have hpnew : p ≠ newIdx := by omega
      -- reads through the three updates
      have hread_old : ∀ i, i ∈ xs → i ≠ c → i ≠ p → ns3[i]? = s.nodes[i]? := by
        intro i hi hic hip
        rw [hns3def, List.getElem?_set_ne (fun hh => hic hh.symm),
          hns2def, List.getElem?_set_ne (fun hh => hip hh.symm),
          hns1def, List.getElem?_set_ne (by
            have := dinv_mem_lt h i hi
            omega),
          hframe_app i hi]
      have hns1p : ns1[p]? = s.nodes[p]? := by
        rw [hns1def, List.getElem?_set_ne (by omega), hframe_app p (by
          rw [hpdef]; exact List.get_mem xs (k - 1) hkm1)]
      have hns2c : ns2[c]? = s.nodes[c]? := by
        rw [hns2def, List.getElem?_set_ne hpc,
          hns1def, List.getElem?_set_ne (by omega),
          hframe_app c (by rw [hcdef]; exact List.get_mem xs k hklt)]
      have hread_p : ns3[p]? = some m2 := by
        rw [hns3def, List.getElem?_set_ne (Ne.symm hpc), hns2def]
        apply List.getElem?_set_self
        rw [hns1def, List.length_set, hnsdef, List.length_append]
        omega
      have hread_c : ns3[c]? = some m3 := by
        rw [hns3def]
        apply List.getElem?_set_self
        rw [hns2def, List.length_set, hns1def, List.length_set, hnsdef,
          List.length_append]
        omega
      have hread_new : ns3[newIdx]? = some ⟨d, some c, some p⟩ := by
        rw [hns3def, List.getElem?_set_ne hcnew, hns2def,
          List.getElem?_set_ne hpnew, hns1def]
        apply List.getElem?_set_self
        rw [hnsdef, List.length_append]
        simp
      -- field values of the rewired nodes
      have hm2next : dnextF ns3 p = some (some newIdx) := by
        show (ns3[p]?).map DNode.next = some (some newIdx)
        rw [hread_p]
        rfl
      have hm2prev : dprevF ns3 p = dprevF s.nodes p := by
        show (ns3[p]?).map DNode.prev = (s.nodes[p]?).map DNode.prev
        rw [hread_p, List.getElem?_eq_getElem hplt]
        simp only [Option.map_some']
        congr 1
        rw [getDNode, hns1p, List.getElem?_eq_getElem hplt, Option.getD_some]
      have hm3prev : dprevF ns3 c = some (some newIdx) := by
        show (ns3[c]?).map DNode.prev = some (some newIdx)
        rw [hread_c]
        rfl
      have hm3next : dnextF ns3 c = dnextF s.nodes c := by
        show (ns3[c]?).map DNode.next = (s.nodes[c]?).map DNode.next
        rw [hread_c, List.getElem?_eq_getElem hclt]
        simp only [Option.map_some']
        congr 1
        rw [getDNode, hns2c, List.getElem?_eq_getElem hclt, Option.getD_some]
      have hnew_next : dnextF ns3 newIdx = some (some c) := by
        show (ns3[newIdx]?).map DNode.next = some (some c)
        rw [hread_new]
        rfl
      have hnew_prev : dprevF ns3 newIdx = some (some p) := by
        show (ns3[newIdx]?).map DNode.prev = some (some p)
        rw [hread_new]
        rfl
      -- decompose the index list around positions k-1 and k
      set A := xs.take (k - 1) with hAdef
      set B := xs.drop (k + 1) with hBdef
      have hxsplit : A ++ p :: c :: B = xs := by
        rw [hAdef, hBdef, hpdef, hcdef]
        conv_rhs => rw [← List.take_append_drop (k - 1) xs]
        congr 1
        rw [List.drop_eq_getElem_cons hkm1, hkm11, List.get_eq_getElem]
        congr 1
        rw [List.drop_eq_getElem_cons hklt, List.get_eq_getElem]
      have hmemA : ∀ i ∈ A, i ∈ xs := by
        intro i hi
        rw [← hxsplit]
        exact List.mem_append_left _ hi
      have hmemB : ∀ i ∈ B, i ∈ xs := by
        intro i hi
        rw [← hxsplit]
        exact List.mem_append_right _
          (List.mem_cons_of_mem p (List.mem_cons_of_mem c hi))
      have hndsplit : (A ++ p :: c :: B).Nodup := by
        rw [hxsplit]
        exact hnodup
      have hnd2 := List.nodup_append.mp hndsplit
      have hpnotA : p ∉ A := by
        intro hmem
        exact hnd2.2.2 hmem (List.mem_cons_self p _)
      have hcnotA : c ∉ A := by
        intro hmem
        exact hnd2.2.2 hmem (List.mem_cons_of_mem p (List.mem_cons_self c _))
      have hpnotB : p ∉ B := by
        have := (List.nodup_cons.mp hnd2.2.1).1
        intro hmem
        exact this (List.mem_cons_of_mem c hmem)
      have hcnotB : c ∉ B := by
        have := (List.nodup_cons.mp (List.nodup_cons.mp hnd2.2.1).2).1
        exact this
      -- original chains in decomposed form
      have hfwd2 : Seg (dnextF s.nodes) s.head (A ++ p :: c :: B) none := by
        rw [hxsplit]
        exact h.fwd
      obtain ⟨q1, hfA, hf1⟩ := seg_split hfwd2
      obtain ⟨hq1p, nx1, hfp, hf2⟩ := seg_cons_inv hf1
      obtain ⟨hnx1c, nx2, hfc, hfB⟩ := seg_cons_inv hf2
      have hrevshape : xs.reverse = B.reverse ++ c :: p :: A.reverse := by
        rw [← hxsplit]
        simp
      have hbwd2 : Seg (dprevF s.nodes) s.tail (B.reverse ++ c :: p :: A.reverse) none := by
        rw [← hrevshape]
        exact h.bwd
      obtain ⟨r1, hbB, hb1⟩ := seg_split hbwd2
      obtain ⟨hr1c, mx1, hbc, hb2⟩ := seg_cons_inv hb1
      obtain ⟨hmx1p, mx2, hbp, hbA⟩ := seg_cons_inv hb2
      -- new forward chain
      set xs2 := A ++ p :: newIdx :: c :: B with hxs2def
      have hfwd3 : NullChain (dnextF ns3) s.head xs2 := by
        have hsegA : Seg (dnextF ns3) s.head A q1 := by
          apply seg_congr _ hfA
          intro i hi
          exact dnextF_eq_of_getElem_eq (hread_old i (hmemA i hi)
            (fun hh => hcnotA (hh ▸ hi)) (fun hh => hpnotA (hh ▸ hi)))
        have hsegB : Seg (dnextF ns3) nx2 B none := by
          apply seg_congr _ hfB
          intro i hi
          exact dnextF_eq_of_getElem_eq (hread_old i (hmemB i hi)
            (fun hh => hcnotB (hh ▸ hi)) (fun hh => hpnotB (hh ▸ hi)))
        have htailseg : Seg (dnextF ns3) (some p) (p :: newIdx :: c :: B) none :=
          Seg.cons hm2next (Seg.cons hnew_next
            (Seg.cons (hm3next.trans hfc) hsegB))
        have htailseg2 : Seg (dnextF ns3) q1 (p :: newIdx :: c :: B) none := by
          rw [hq1p]
          exact htailseg
        show NullChain (dnextF ns3) s.head (A ++ p :: newIdx :: c :: B)
        exact seg_trans hsegA htailseg2
      -- new backward chain
      have hbwd3 : NullChain (dprevF ns3) s.tail xs2.reverse := by
        have hrev2 : xs2.reverse = B.reverse ++ c :: newIdx :: p :: A.reverse := by
          rw [hxs2def]
          simp
        rw [hrev2]
        have hsegBrev : Seg (dprevF ns3) s.tail B.reverse r1 := by
          apply seg_congr _ hbB
          intro i hi
          have himem : i ∈ xs := hmemB i (List.mem_reverse.mp hi)
          exact dprevF_eq_of_getElem_eq (hread_old i himem
            (fun hh => hcnotB (hh ▸ List.mem_reverse.mp hi))
            (fun hh => hpnotB (hh ▸ List.mem_reverse.mp hi)))
        have hsegArev : Seg (dprevF ns3) mx2 A.reverse none := by
          apply seg_congr _ hbA
          intro i hi
          have hiA : i ∈ A := List.mem_reverse.mp hi
          exact dprevF_eq_of_getElem_eq (hread_old i (hmemA i hiA)
            (fun hh => hcnotA (hh ▸ hiA)) (fun hh => hpnotA (hh ▸ hiA)))
        have htailseg : Seg (dprevF ns3) (some c) (c :: newIdx :: p :: A.reverse) none :=
          Seg.cons hm3prev (Seg.cons hnew_prev
            (Seg.cons (hm2prev.trans hbp) hsegArev))
        have htailseg2 : Seg (dprevF ns3) r1 (c :: newIdx :: p :: A.reverse) none := by
          rw [hr1c]
          exact htailseg
        exact seg_trans hsegBrev htailseg2
      have hlens : xs.length = A.length + 2 + B.length := by
        have := congrArg List.length hxsplit
        simp only [List.length_append, List.length_cons] at this
        omega
      refine ⟨xs2, ⟨ns3, s.head, s.tail, s.size + 1⟩, hresult,
        ⟨hfwd3, hbwd3, ?_⟩, ?_⟩
      · show s.size + 1 = xs2.length
        rw [h.size_eq, hxs2def]
        simp only [List.length_append, List.length_cons]
        omega
      · rw [hxs2def]
        simp only [List.length_append, List.length_cons]
        omega

theorem dll_delete_at_ok {s : DoublyLinkedList} {xs : List Nat} (h : DInv s xs)
    {index : Int} (h0 : 0 ≤ index) (h1 : index < (s.size : Int)) :
    ∃ v s2 xs2, s.delete_at index = (.ok v, s2) ∧ DInv s2 xs2 ∧
      xs2.length = xs.length - 1 := by
  by_cases hi0 : index = 0
  · have hsz : s.size ≠ 0 := by omega
    obtain ⟨v, s2, hdel, hinv, _, _, _, _, _⟩ := dll_delete_first_ok h hsz
    refine ⟨v, s2, xs.tail, ?_, hinv, ?_⟩
    · rw [DoublyLinkedList.delete_at, if_neg (by omega), if_pos hi0, hdel]
    · rw [List.length_tail]
  · by_cases hilast : index = (s.size : Int) - 1
    · have hsz : s.size ≠ 0 := by omega
      obtain ⟨v, s2, hdel, hinv, _, _, _⟩ := dll_delete_last_ok h hsz
      refine ⟨v, s2, xs.dropLast, ?_, hinv, ?_⟩
      · rw [DoublyLinkedList.delete_at, if_neg (by omega), if_neg hi0,
          if_pos hilast, hdel]
      · rw [List.length_dropLast]
    · -- strictly interior deletion
      set k := index.toNat with hkdef
      have hk1 : 1 ≤ k := by omega
      have hklt : k < xs.length := by rw [← h.size_eq]; omega
      have hkp1 : k + 1 < xs.length := by
        have := h.size_eq
        omega
      have hkm1 : k - 1 < xs.length := by omega
      have hkm11 : k - 1 + 1 = k := by omega
      set c := xs.get ⟨k, hklt⟩ with hcdef
      set p := xs.get ⟨k - 1, hkm1⟩ with hpdef
      set w := xs.get ⟨k + 1, hkp1⟩ with hwdef
      have hcur : s.cursor index = some c := by
        exact dll_cursor_spec h h0 (by omega) hklt
      have hclt : c < s.nodes.length :=
        dinv_mem_lt h c (by rw [hcdef]; exact List.get_mem xs k hklt)
      have hplt : p < s.nodes.length :=
        dinv_mem_lt h p (by rw [hpdef]; exact List.get_mem xs (k - 1) hkm1)
      have hwlt : w < s.nodes.length :=
        dinv_mem_lt h w (by rw [hwdef]; exact List.get_mem xs (k + 1) hkp1)
      have hprevc : (getDNode s.nodes c).prev = some p := by
        have := dinv_prev_at h hklt hk1
        rw [← hcdef, ← hpdef] at this
        exact (dprevF_getDNode this).1
      have hnextc : (getDNode s.nodes c).next = some w := by
        have := nullchain_next_at h.fwd hklt
        have hpt : ptrAt xs (k + 1) = some w := by
          rw [ptrAt, List.drop_eq_getElem_cons hkp1, List.head?_cons, hwdef,
            List.get_eq_getElem]
        rw [hpt] at this
        exact (dnextF_getDNode this).1
      -- distinctness
      have hnodup := dinv_nodup h
      have hfinne : ∀ (a b : Nat) (ha : a < xs.length) (hb : b < xs.length),
          a ≠ b → xs.get ⟨a, ha⟩ ≠ xs.get ⟨b, hb⟩ := by
        intro a b ha hb hab heq
        have h2 := (hnodup.get_inj_iff).mp heq
        have h3 := congrArg Fin.val h2
        simp only at h3
        exact hab h3
      have hpc : p ≠ c := by
        rw [hpdef, hcdef]
        exact hfinne _ _ _ _ (by omega)
      have hpw : p ≠ w := by
        rw [hpdef, hwdef]
        exact hfinne _ _ _ _ (by omega)
      have hcw : c ≠ w := by
        rw [hcdef, hwdef]
        exact hfinne _ _ _ _ (by omega)
      set mp : DNode := { getDNode s.nodes p with next := some w } with hmpdef
      set ns1 := s.nodes.set p mp with hns1def
      set mw : DNode := { getDNode ns1 w with prev := some p } with hmwdef
      set ns2 := ns1.set w mw with hns2def
      have hresult : s.delete_at index =
          (.ok (getDNode s.nodes c).data, ⟨ns2, s.head, s.tail, s.size - 1⟩) := by
        rw [DoublyLinkedList.delete_at, if_neg (by omega), if_neg hi0,
          if_neg hilast]
        dsimp only
        rw [hcur]
        dsimp only
        rw [hprevc, hnextc]
      -- reads
      have hns1w : ns1[w]? = s.nodes[w]? := by
        rw [hns1def, List.getElem?_set_ne hpw]
      have hread_old : ∀ i, i ≠ p → i ≠ w → ns2[i]? = s.nodes[i]? := by
        intro i hip hiw
        rw [hns2def, List.getElem?_set_ne (fun hh => hiw hh.symm),
          hns1def, List.getElem?_set_ne (fun hh => hip hh.symm)]
      have hread_p : ns2[p]? = some mp := by
        rw [hns2def, List.getElem?_set_ne (Ne.symm hpw), hns1def]
        exact List.getElem?_set_self hplt
      have hread_w : ns2[w]? = some mw := by
        rw [hns2def]
        apply List.getElem?_set_self
        rw [hns1def, List.length_set]
        exact hwlt
      have hmpnext : dnextF ns2 p = some (some w) := by
        show (ns2[p]?).map DNode.next = some (some w)
        rw [hread_p]
        rfl
      have hmpprev : dprevF ns2 p = dprevF s.nodes p := by
        show (ns2[p]?).map DNode.prev = (s.nodes[p]?).map DNode.prev
        rw [hread_p, List.getElem?_eq_getElem hplt]
        simp only [Option.map_some']
        congr 1
        rw [getDNode, List.getElem?_eq_getElem hplt, Option.getD_some]
      have hmwprev : dprevF ns2 w = some (some p) := by
        show (ns2[w]?).map DNode.prev = some (some p)
        rw [hread_w]
        rfl
      have hmwnext : dnextF ns2 w = dnextF s.nodes w := by
        show (ns2[w]?).map DNode.next = (s.nodes[w]?).map DNode.next
        rw [hread_w, List.getElem?_eq_getElem hwlt]
        simp only [Option.map_some']
        congr 1
        rw [getDNode, hns1w, List.getElem?_eq_getElem hwlt, Option.getD_some]
      -- decomposition
      set A := xs.take (k - 1) with hAdef
      set B := xs.drop (k + 2) with hBdef
      have hxsplit : A ++ p :: c :: w :: B = xs := by
        rw [hAdef, hBdef, hpdef, hcdef, hwdef]
        conv_rhs => rw [← List.take_append_drop (k - 1) xs]
        congr 1
        rw [List.drop_eq_getElem_cons hkm1, hkm11, List.get_eq_getElem]
        congr 1
        rw [List.drop_eq_getElem_cons hklt, List.get_eq_getElem]
        congr 1
        rw [List.drop_eq_getElem_cons hkp1, List.get_eq_getElem]
      have hmemA : ∀ i ∈ A, i ∈ xs := by
        intro i hi
        rw [← hxsplit]
        exact List.mem_append_left _ hi
      have hmemB : ∀ i ∈ B, i ∈ xs := by
        intro i hi
        rw [← hxsplit]
        exact List.mem_append_right _ (List.mem_cons_of_mem p
          (List.mem_cons_of_mem c (List.mem_cons_of_mem w hi)))
      have hndsplit : (A ++ p :: c :: w :: B).Nodup := by
        rw [hxsplit]
        exact hnodup
      have hnd2 := List.nodup_append.mp hndsplit
      have hpnotA : p ∉ A := by
        intro hmem
        exact hnd2.2.2 hmem (List.mem_cons_self p _)
      have hwnotA : w ∉ A := by
        intro hmem
        exact hnd2.2.2 hmem (List.mem_cons_of_mem p
          (List.mem_cons_of_mem c (List.mem_cons_self w _)))
      have hpnotB : p ∉ B := by
        have := (List.nodup_cons.mp hnd2.2.1).1
        intro hmem
        exact this (List.mem_cons_of_mem c (List.mem_cons_of_mem w hmem))
      have hwnotB : w ∉ B := by
        have := (List.nodup_cons.mp
          (List.nodup_cons.mp (List.nodup_cons.mp hnd2.2.1).2).2).1
        exact this
      -- original chains decomposed
      have hfwd2 : Seg (dnextF s.nodes) s.head (A ++ p :: c :: w :: B) none := by
        rw [hxsplit]
        exact h.fwd
      obtain ⟨q1, hfA, hf1⟩ := seg_split hfwd2
      obtain ⟨hq1p, nx1, hfp, hf2⟩ := seg_cons_inv hf1
      obtain ⟨hnx1c, nx2, hfc, hf3⟩ := seg_cons_inv hf2
      obtain ⟨hnx2w, nx3, hfw, hfB⟩ := seg_cons_inv hf3
      have hrevshape : xs.reverse = B.reverse ++ w :: c :: p :: A.reverse := by
        rw [← hxsplit]
        simp
      have hbwd2 : Seg (dprevF s.nodes) s.tail
          (B.reverse ++ w :: c :: p :: A.reverse) none := by
        rw [← hrevshape]
        exact h.bwd
      obtain ⟨r1, hbB, hb1⟩ := seg_split hbwd2
      obtain ⟨hr1w, mx1, hbw, hb2⟩ := seg_cons_inv hb1
      obtain ⟨hmx1c, mx2, hbc, hb3⟩ := seg_cons_inv hb2
      obtain ⟨hmx2p, mx3, hbp, hbA⟩ := seg_cons_inv hb3
      set xs2 := A ++ p :: w :: B with hxs2def
      have hfwd3 : NullChain (dnextF ns2) s.head xs2 := by
        have hsegA : Seg (dnextF ns2) s.head A q1 := by
          apply seg_congr _ hfA
          intro i hi
          exact dnextF_eq_of_getElem_eq (hread_old i
            (fun hh => hpnotA (hh ▸ hi)) (fun hh => hwnotA (hh ▸ hi)))
        have hsegB : Seg (dnextF ns2) nx3 B none := by
          apply seg_congr _ hfB
          intro i hi
          exact dnextF_eq_of_getElem_eq (hread_old i
            (fun hh => hpnotB (hh ▸ hi)) (fun hh => hwnotB (hh ▸ hi)))
        have htailseg : Seg (dnextF ns2) (some p) (p :: w :: B) none :=
          Seg.cons hmpnext (Seg.cons (hmwnext.trans hfw) hsegB)
        have htailseg2 : Seg (dnextF ns2) q1 (p :: w :: B) none := by
          rw [hq1p]
          exact htailseg
        show NullChain (dnextF ns2) s.head (A ++ p :: w :: B)
        exact seg_trans hsegA htailseg2
      have hbwd3 : NullChain (dprevF ns2) s.tail xs2.reverse := by
        have hrev2 : xs2.reverse = B.reverse ++ w :: p :: A.reverse := by
          rw [hxs2def]
          simp
        rw [hrev2]
        have hsegBrev : Seg (dprevF ns2) s.tail B.reverse r1 := by
          apply seg_congr _ hbB
          intro i hi
          have hiB : i ∈ B := List.mem_reverse.mp hi
          exact dprevF_eq_of_getElem_eq (hread_old i
            (fun hh => hpnotB (hh ▸ hiB)) (fun hh => hwnotB (hh ▸ hiB)))
        have hsegArev : Seg (dprevF ns2) mx3 A.reverse none := by
          apply seg_congr _ hbA
          intro i hi
          have hiA : i ∈ A := List.mem_reverse.mp hi
          exact dprevF_eq_of_getElem_eq (hread_old i
            (fun hh => hpnotA (hh ▸ hiA)) (fun hh => hwnotA (hh ▸ hiA)))
        have htailseg : Seg (dprevF ns2) (some w) (w :: p :: A.reverse) none :=
          Seg.cons hmwprev (Seg.cons (hmpprev.trans hbp) hsegArev)
        have htailseg2 : Seg (dprevF ns2) r1 (w :: p :: A.reverse) none := by
          rw [hr1w]
          exact htailseg
        exact seg_trans hsegBrev htailseg2
      have hlens : xs.length = A.length + 3 + B.length := by
        have := congrArg List.length hxsplit
        simp only [List.length_append, List.length_cons] at this
        omega
      refine ⟨(getDNode s.nodes c).data, ⟨ns2, s.head, s.tail, s.size - 1⟩, xs2,
        hresult, ⟨hfwd3, hbwd3, ?_⟩, ?_⟩
      · show s.size - 1 = xs2.length
        rw [h.size_eq, hxs2def]
        simp only [List.length_append, List.length_cons]
        omega
      · rw [hxs2def]
        simp only [List.length_append, List.length_cons]
        omega

theorem dll_revLoop_spec {ns : List DNode} {cur : Option Nat} {sfx : List Nat}
    {fuel : Nat} (hsfx : NullChain (dnextF ns) cur sfx) (hf : sfx.length ≤ fuel) :
    (∀ i, i ∉ sfx → (DoublyLinkedList.revLoop ns cur fuel)[i]? = ns[i]?) ∧
      (∀ i, i ∈ sfx → (DoublyLinkedList.revLoop ns cur fuel)[i]? =
        (ns[i]?).map (fun n => ⟨n.data, n.prev, n.next⟩)) := by
  induction sfx generalizing ns cur fuel with
  | nil =>
      have hc := seg_nil_inv hsfx
      subst hc
      have hloop : ∀ f : Nat, DoublyLinkedList.revLoop ns none f = ns := by
        intro f
        cases f <;> rfl
      refine ⟨fun i _ => by rw [hloop], fun i hi => absurd hi (List.not_mem_nil i)⟩
  | cons c rest ih =>
      obtain ⟨hcur, nx, hnx, hr⟩ := seg_cons_inv hsfx
      subst hcur
      cases fuel with
      | zero => simp at hf
      | succ f =>
          have hnode := (dnextF_getDNode hnx).1
          have hclt := (dnextF_getDNode hnx).2
          have hnd := nullchain_nodup hsfx
          have hcnotrest : c ∉ rest := (List.nodup_cons.mp hnd).1
          set n := getDNode ns c with hndef
          set ns1 := ns.set c { n with next := n.prev, prev := n.next } with hns1def
          have hstep : DoublyLinkedList.revLoop ns (some c) (f + 1) =
              DoublyLinkedList.revLoop ns1 n.next f := rfl
          have hchain1 : NullChain (dnextF ns1) nx rest := by
            apply seg_congr _ hr
            intro i hi
            apply dnextF_eq_of_getElem_eq
            rw [hns1def, List.getElem?_set_ne (fun hh => hcnotrest
              (Eq.subst (motive := fun x => x ∈ rest) hh.symm hi))]
          have hnnx : n.next = nx := by rw [hndef]; exact hnode
          obtain ⟨ihold, ihswap⟩ := ih (hnnx.symm ▸ hchain1) (by simpa using hf)
          constructor
          · intro i hi
            have hic : i ≠ c := fun hh => hi (hh ▸ List.mem_cons_self c rest)
            have hirest : i ∉ rest := fun hh => hi (List.mem_cons_of_mem c hh)
            rw [hstep, ihold i hirest, hns1def,
              List.getElem?_set_ne (fun hh => hic hh.symm)]
          · intro i hi
            rcases List.mem_cons.mp hi with hh | hmem2
            · -- i = c : the swapped node, untouched by the recursive call
              rw [hstep, hh, ihold c hcnotrest, hns1def,
                List.getElem?_set_self hclt, List.getElem?_eq_getElem hclt]
              simp only [Option.map_some']
              congr 1
              rw [hndef, getDNode, List.getElem?_eq_getElem hclt, Option.getD_some]
            · rw [hstep, ihswap i hmem2, hns1def,
                List.getElem?_set_ne (fun hh => hcnotrest
                  (Eq.subst (motive := fun x => x ∈ rest) hh.symm hmem2))]

theorem dll_reverse_spec {s : DoublyLinkedList} {xs : List Nat} (h : DInv s xs) :
    DInv s.reverse xs.reverse ∧
      (∀ i, ddataOf s.reverse.nodes i = ddataOf s.nodes i) := by
  by_cases hguard : s.is_empty = true ∨ s.head = s.tail
  · have hrev : s.reverse = s := by
      rw [DoublyLinkedList.reverse, if_pos hguard]
    have hxsrev : xs.reverse = xs := by
      rcases hguard with hemp | heq
      · rw [(dinv_is_empty_iff h).mp hemp]
        rfl
      · cases hxs : xs with
        | nil => rfl
        | cons a l =>
            cases hl : l with
            | nil => rfl
            | cons b l2 =>
                exfalso
                rw [dinv_head_eq h, dinv_tail_eq h] at heq
                have hne : xs ≠ [] := by rw [hxs]; exact List.cons_ne_nil a l
                rw [List.head?_eq_head hne, List.getLast?_eq_getLast xs hne] at heq
                have h1 := Option.some.inj heq
                have h2 := nodup_head_ne_getLast (dinv_nodup h)
                  (by rw [hxs, hl]; simp) hne
                exact h2 h1
    rw [hrev, hxsrev]
    exact ⟨h, fun i => rfl⟩
  · obtain ⟨hold, hswap⟩ := dll_revLoop_spec h.fwd (le_of_eq h.size_eq.symm)
    set ns2 := DoublyLinkedList.revLoop s.nodes s.head s.size with hns2def
    have hrev : s.reverse = ⟨ns2, s.tail, s.head, s.size⟩ := by
      rw [DoublyLinkedList.reverse, if_neg hguard]
    have hnextswap : ∀ i ∈ xs, dnextF ns2 i = dprevF s.nodes i := by
      intro i hi
      show (ns2[i]?).map DNode.next = (s.nodes[i]?).map DNode.prev
      rw [hswap i hi]
      cases s.nodes[i]? <;> rfl
    have hprevswap : ∀ i ∈ xs, dprevF ns2 i = dnextF s.nodes i := by
      intro i hi
      show (ns2[i]?).map DNode.prev = (s.nodes[i]?).map DNode.next
      rw [hswap i hi]
      cases s.nodes[i]? <;> rfl
    rw [hrev]
    refine ⟨⟨?_, ?_, ?_⟩, ?_⟩
    · show NullChain (dnextF ns2) s.tail xs.reverse
      apply seg_congr _ h.bwd
      intro i hi
      exact (hnextswap i (List.mem_reverse.mp hi))
    · show NullChain (dprevF ns2) s.head xs.reverse.reverse
      rw [List.reverse_reverse]
      apply seg_congr _ h.fwd
      intro i hi
      exact (hprevswap i hi)
    · show s.size = xs.reverse.length
      rw [h.size_eq, List.length_reverse]
    · intro i
      show ddataOf ns2 i = ddataOf s.nodes i
      by_cases hi : i ∈ xs
      · rw [ddataOf, ddataOf, getDNode, getDNode, hswap i hi]
        cases s.nodes[i]? <;> rfl
      · rw [ddataOf, ddataOf, getDNode, getDNode, hold i hi]

/-! Whole-run lemmas for operation sequences. -/

theorem runInsS_aux (ops : List InsOp) (s : SinglyLinkedList) (xs : List Nat)
    (h : SInv s xs) :
    ∃ xs2, SInv (ops.foldl (fun s op =>
        match op with
        | .append v => s.append v
        | .prepend v => s.prepend v) s) xs2 ∧
      valuesOf (ops.foldl (fun s op =>
        match op with
        | .append v => s.append v
        | .prepend v => s.prepend v) s).nodes xs2 =
      ops.foldl (fun l op =>
        match op with
        | .append v => l ++ [v]
        | .prepend v => v :: l) (valuesOf s.nodes xs) := by
  induction ops generalizing s xs with
  | nil => exact ⟨xs, h, rfl⟩
  | cons op rest ih =>
      cases op with
      | append v =>
          obtain ⟨hinv, hvals⟩ := sll_append_spec v h
          obtain ⟨xs2, hinv2, hvals2⟩ := ih (s.append v) _ hinv
          exact ⟨xs2, hinv2, by rw [List.foldl_cons, List.foldl_cons, hvals2, hvals]⟩
      | prepend v =>
          obtain ⟨hinv, hvals⟩ := sll_prepend_spec v h
          obtain ⟨xs2, hinv2, hvals2⟩ := ih (s.prepend v) _ hinv
          exact ⟨xs2, hinv2, by rw [List.foldl_cons, List.foldl_cons, hvals2, hvals]⟩

theorem runInsD_aux (ops : List InsOp) (s : DoublyLinkedList) (xs : List Nat)
    (h : DInv s xs) :
    ∃ xs2, DInv (ops.foldl (fun s op =>
        match op with
        | .append v => s.append v
        | .prepend v => s.prepend v) s) xs2 ∧
      dvaluesOf (ops.foldl (fun s op =>
        match op with
        | .append v => s.append v
        | .prepend v => s.prepend v) s).nodes xs2 =
      ops.foldl (fun l op =>
        match op with
        | .append v => l ++ [v]
        | .prepend v => v :: l) (dvaluesOf s.nodes xs) := by
  induction ops generalizing s xs with
  | nil => exact ⟨xs, h, rfl⟩
  | cons op rest ih =>
      cases op with
      | append v =>
          obtain ⟨hinv, hvals⟩ := dll_append_spec v h
          obtain ⟨xs2, hinv2, hvals2⟩ := ih (s.append v) _ hinv
          exact ⟨xs2, hinv2, by rw [List.foldl_cons, List.foldl_cons, hvals2, hvals]⟩
      | prepend v =>
          obtain ⟨hinv, hvals⟩ := dll_prepend_spec v h
          obtain ⟨xs2, hinv2, hvals2⟩ := ih (s.prepend v) _ hinv
          exact ⟨xs2, hinv2, by rw [List.foldl_cons, List.foldl_cons, hvals2, hvals]⟩


/-- Whole-run structural lemma for the singly list: after any operation
sequence the representation invariant holds for some index list whose
length satisfies the accounting `final + removals = initial + insertions`
(successful operations only, raising calls count nothing). -/
theorem runS_aux (ops : List ListOp) (s : SinglyLinkedList) (xs : List Nat)
    (h : SInv s xs) :
    ∃ xs2, SInv (ops.foldl stepS s) xs2 ∧
      xs2.length + (countS s ops).2 = xs.length + (countS s ops).1 := by
  induction ops generalizing s xs with
  | nil => exact ⟨xs, h, rfl⟩
  | cons op rest ih =>
      rw [List.foldl_cons]
      cases op with
      | append v =>
          obtain ⟨hinv, _⟩ := sll_append_spec v h
          obtain ⟨xs2, hinv2, hlen⟩ := ih (stepS s (ListOp.append v)) _ hinv
          refine ⟨xs2, hinv2, ?_⟩
          simp only [countS]
          simp only [List.length_append, List.length_cons, List.length_nil] at hlen
          omega
      | prepend v =>
          obtain ⟨hinv, _⟩ := sll_prepend_spec v h
          obtain ⟨xs2, hinv2, hlen⟩ := ih (stepS s (ListOp.prepend v)) _ hinv
          refine ⟨xs2, hinv2, ?_⟩
          simp only [countS]
          simp only [List.length_cons] at hlen
          omega
      | insert_at i v =>
          by_cases hg : i < 0 ∨ (s.size : Int) < i
          · have herr := sll_insert_at_err i v hg
            have hfst : (s.insert_at i v).1 = Except.error (Err.outOfRange i) := by
              rw [herr]
            have hstep : stepS s (ListOp.insert_at i v) = s := by
              show (s.insert_at i v).2 = s
              rw [herr]
            obtain ⟨xs2, hinv2, hlen⟩ := ih (stepS s (ListOp.insert_at i v)) xs
              (by rw [hstep]; exact h)
            refine ⟨xs2, hinv2, ?_⟩
            simp only [countS]
            rw [hfst]
            exact hlen
          · push_neg at hg
            obtain ⟨xs3, s2, hres, hinv, hlen3⟩ :=
              sll_insert_at_ok h hg.1 hg.2 v
            have hfst : (s.insert_at i v).1 = Except.ok () := by rw [hres]
            have hstep : stepS s (ListOp.insert_at i v) = s2 := by
              show (s.insert_at i v).2 = s2
              rw [hres]
            obtain ⟨xs2, hinv2, hlen⟩ := ih (stepS s (ListOp.insert_at i v)) xs3
              (by rw [hstep]; exact hinv)
            refine ⟨xs2, hinv2, ?_⟩
            simp only [countS]
            rw [hfst]
            dsimp only
            omega
      | delete_first =>
          by_cases hsz : s.size = 0
          · have herr := sll_delete_first_err h hsz
            have hfst : s.delete_first.1 = Except.error Err.emptyCollection := by
              rw [herr]
            have hstep : stepS s ListOp.delete_first = s := by
              show s.delete_first.2 = s
              rw [herr]
            obtain ⟨xs2, hinv2, hlen⟩ := ih (stepS s ListOp.delete_first) xs
              (by rw [hstep]; exact h)
            refine ⟨xs2, hinv2, ?_⟩
            simp only [countS]
            rw [hfst]
            exact hlen
          · obtain ⟨v, s2, hres, hinv, _, _, _, _, _⟩ := sll_delete_first_ok h hsz
            have hfst : s.delete_first.1 = Except.ok v := by rw [hres]
            have hstep : stepS s ListOp.delete_first = s2 := by
              show s.delete_first.2 = s2
              rw [hres]
            obtain ⟨xs2, hinv2, hlen⟩ := ih (stepS s ListOp.delete_first) xs.tail
              (by rw [hstep]; exact hinv)
            refine ⟨xs2, hinv2, ?_⟩
            simp only [countS]
            rw [hfst]
            dsimp only
            have hxslen : s.size = xs.length := h.size_eq
            have htl : xs.tail.length = xs.length - 1 := List.length_tail xs
            omega
      | delete_last =>
          by_cases hsz : s.size = 0
          · have herr := sll_delete_last_err h hsz
            have hfst : s.delete_last.1 = Except.error Err.emptyCollection := by
              rw [herr]
            have hstep : stepS s ListOp.delete_last = s := by
              show s.delete_last.2 = s
              rw [herr]
            obtain ⟨xs2, hinv2, hlen⟩ := ih (stepS s ListOp.delete_last) xs
              (by rw [hstep]; exact h)
            refine ⟨xs2, hinv2, ?_⟩
            simp only [countS]
            rw [hfst]
            exact hlen
          · obtain ⟨v, s2, hres, hinv, _, _, _⟩ := sll_delete_last_ok h hsz
            have hfst : s.delete_last.1 = Except.ok v := by rw [hres]
            have hstep : stepS s ListOp.delete_last = s2 := by
              show s.delete_last.2 = s2
              rw [hres]
            obtain ⟨xs2, hinv2, hlen⟩ := ih (stepS s ListOp.delete_last) xs.dropLast
              (by rw [hstep]; exact hinv)
            refine ⟨xs2, hinv2, ?_⟩
            simp only [countS]
            rw [hfst]
            dsimp only
            have hxslen : s.size = xs.length := h.size_eq
            have htl : xs.dropLast.length = xs.length - 1 := List.length_dropLast xs
            omega
      | delete_at i =>
          by_cases hg : i < 0 ∨ (s.size : Int) ≤ i
          · have herr := sll_delete_at_err i hg
            have hfst : (s.delete_at i).1 = Except.error (Err.outOfRange i) := by
              rw [herr]
            have hstep : stepS s (ListOp.delete_at i) = s := by
              show (s.delete_at i).2 = s
              rw [herr]
            obtain ⟨xs2, hinv2, hlen⟩ := ih (stepS s (ListOp.delete_at i)) xs
              (by rw [hstep]; exact h)
            refine ⟨xs2, hinv2, ?_⟩
            simp only [countS]
            rw [hfst]
            exact hlen
          · push_neg at hg
            obtain ⟨v, s2, xs3, hres, hinv, hlen3⟩ := sll_delete_at_ok h hg.1 hg.2
            have hfst : (s.delete_at i).1 = Except.ok v := by rw [hres]
            have hstep : stepS s (ListOp.delete_at i) = s2 := by
              show (s.delete_at i).2 = s2
              rw [hres]
            obtain ⟨xs2, hinv2, hlen⟩ := ih (stepS s (ListOp.delete_at i)) xs3
              (by rw [hstep]; exact hinv)
            refine ⟨xs2, hinv2, ?_⟩
            simp only [countS]
            rw [hfst]
            dsimp only
            have hxslen : s.size = xs.length := h.size_eq
            have hszpos : 0 < s.size := by omega
            omega
      | reverse =>
          obtain ⟨hinv, _⟩ := sll_reverse_spec h
          obtain ⟨xs2, hinv2, hlen⟩ := ih (stepS s ListOp.reverse) _ hinv
          refine ⟨xs2, hinv2, ?_⟩
          simp only [countS]
          simp only [List.length_reverse] at hlen
          omega

/-- Whole-run structural lemma for the doubly list: after any operation
sequence the representation invariant holds for some index list whose
length satisfies the accounting `final + removals = initial + insertions`
(successful operations only, raising calls count nothing). -/
theorem runD_aux (ops : List ListOp) (s : DoublyLinkedList) (xs : List Nat)
    (h : DInv s xs) :
    ∃ xs2, DInv (ops.foldl stepD s) xs2 ∧
      xs2.length + (countD s ops).2 = xs.length + (countD s ops).1 := by
  induction ops generalizing s xs with
  | nil => exact ⟨xs, h, rfl⟩
  | cons op rest ih =>
      rw [List.foldl_cons]
      cases op with
      | append v =>
          obtain ⟨hinv, _⟩ := dll_append_spec v h
          obtain ⟨xs2, hinv2, hlen⟩ := ih (stepD s (ListOp.append v)) _ hinv
          refine ⟨xs2, hinv2, ?_⟩
          simp only [countD]
          simp only [List.length_append, List.length_cons, List.length_nil] at hlen
          omega
      | prepend v =>
          obtain ⟨hinv, _⟩ := dll_prepend_spec v h
          obtain ⟨xs2, hinv2, hlen⟩ := ih (stepD s (ListOp.prepend v)) _ hinv
          refine ⟨xs2, hinv2, ?_⟩
          simp only [countD]
          simp only [List.length_cons] at hlen
          omega
      | insert_at i v =>
          by_cases hg : i < 0 ∨ (s.size : Int) < i
          · have herr := dll_insert_at_err i v hg
            have hfst : (s.insert_at i v).1 = Except.error (Err.outOfRange i) := by
              rw [herr]
            have hstep : stepD s (ListOp.insert_at i v) = s := by
              show (s.insert_at i v).2 = s
              rw [herr]
            obtain ⟨xs2, hinv2, hlen⟩ := ih (stepD s (ListOp.insert_at i v)) xs
              (by rw [hstep]; exact h)
            refine ⟨xs2, hinv2, ?_⟩
            simp only [countD]
            rw [hfst]
            exact hlen
          · push_neg at hg
            obtain ⟨xs3, s2, hres, hinv, hlen3⟩ :=
              dll_insert_at_ok h hg.1 hg.2 v
            have hfst : (s.insert_at i v).1 = Except.ok () := by rw [hres]
            have hstep : stepD s (ListOp.insert_at i v) = s2 := by
              show (s.insert_at i v).2 = s2
              rw [hres]
            obtain ⟨xs2, hinv2, hlen⟩ := ih (stepD s (ListOp.insert_at i v)) xs3
              (by rw [hstep]; exact hinv)
            refine ⟨xs2, hinv2, ?_⟩
            simp only [countD]
            rw [hfst]
            dsimp only
            omega
      | delete_first =>
          by_cases hsz : s.size = 0
          · have herr := dll_delete_first_err h hsz
            have hfst : s.delete_first.1 = Except.error Err.emptyCollection := by
              rw [herr]
            have hstep : stepD s ListOp.delete_first = s := by
              show s.delete_first.2 = s
              rw [herr]
            obtain ⟨xs2, hinv2, hlen⟩ := ih (stepD s ListOp.delete_first) xs
              (by rw [hstep]; exact h)
            refine ⟨xs2, hinv2, ?_⟩
            simp only [countD]
            rw [hfst]
            exact hlen
          · obtain ⟨v, s2, hres, hinv, _, _, _, _, _⟩ := dll_delete_first_ok h hsz
            have hfst : s.delete_first.1 = Except.ok v := by rw [hres]
            have hstep : stepD s ListOp.delete_first = s2 := by
              show s.delete_first.2 = s2
              rw [hres]
            obtain ⟨xs2, hinv2, hlen⟩ := ih (stepD s ListOp.delete_first) xs.tail
              (by rw [hstep]; exact hinv)
            refine ⟨xs2, hinv2, ?_⟩
            simp only [countD]
            rw [hfst]
            dsimp only
            have hxslen : s.size = xs.length := h.size_eq
            have htl : xs.tail.length = xs.length - 1 := List.length_tail xs
            omega
      | delete_last =>
          by_cases hsz : s.size = 0
          · have herr := dll_delete_last_err h hsz
            have hfst : s.delete_last.1 = Except.error Err.emptyCollection := by
              rw [herr]
            have hstep : stepD s ListOp.delete_last = s := by
              show s.delete_last.2 = s
              rw [herr]
            obtain ⟨xs2, hinv2, hlen⟩ := ih (stepD s ListOp.delete_last) xs
              (by rw [hstep]; exact h)
            refine ⟨xs2, hinv2, ?_⟩
            simp only [countD]
            rw [hfst]
            exact hlen
          · obtain ⟨v, s2, hres, hinv, _, _, _⟩ := dll_delete_last_ok h hsz
            have hfst : s.delete_last.1 = Except.ok v := by rw [hres]
            have hstep : stepD s ListOp.delete_last = s2 := by
              show s.delete_last.2 = s2
              rw [hres]
            obtain ⟨xs2, hinv2, hlen⟩ := ih (stepD s ListOp.delete_last) xs.dropLast
              (by rw [hstep]; exact hinv)
            refine ⟨xs2, hinv2, ?_⟩
            simp only [countD]
            rw [hfst]
            dsimp only
            have hxslen : s.size = xs.length := h.size_eq
            have htl : xs.dropLast.length = xs.length - 1 := List.length_dropLast xs
            omega
      | delete_at i =>
          by_cases hg : i < 0 ∨ (s.size : Int) ≤ i
          · have herr := dll_delete_at_err i hg
            have hfst : (s.delete_at i).1 = Except.error (Err.outOfRange i) := by
              rw [herr]
            have hstep : stepD s (ListOp.delete_at i) = s := by
              show (s.delete_at i).2 = s
              rw [herr]
            obtain ⟨xs2, hinv2, hlen⟩ := ih (stepD s (ListOp.delete_at i)) xs
              (by rw [hstep]; exact h)
            refine ⟨xs2, hinv2, ?_⟩
            simp only [countD]
            rw [hfst]
            exact hlen
          · push_neg at hg
            obtain ⟨v, s2, xs3, hres, hinv, hlen3⟩ := dll_delete_at_ok h hg.1 hg.2
            have hfst : (s.delete_at i).1 = Except.ok v := by rw [hres]
            have hstep : stepD s (ListOp.delete_at i) = s2 := by
              show (s.delete_at i).2 = s2
              rw [hres]
            obtain ⟨xs2, hinv2, hlen⟩ := ih (stepD s (ListOp.delete_at i)) xs3
              (by rw [hstep]; exact hinv)
            refine ⟨xs2, hinv2, ?_⟩
            simp only [countD]
            rw [hfst]
            dsimp only
            have hxslen : s.size = xs.length := h.size_eq
            have hszpos : 0 < s.size := by omega
            omega
      | reverse =>
          obtain ⟨hinv, _⟩ := dll_reverse_spec h
          obtain ⟨xs2, hinv2, hlen⟩ := ih (stepD s ListOp.reverse) _ hinv
          refine ⟨xs2, hinv2, ?_⟩
          simp only [countD]
          simp only [List.length_reverse] at hlen
          omega

/-! Invariants of the concrete scenario chains, and small list facts. -/

theorem demoS3_inv : SInv demoS3 [0, 1, 2] :=
  (sll_append_spec 3 (sll_append_spec 2 (sll_append_spec 1 sll_empty_inv).1).1).1

theorem demoD3_inv : DInv demoD3 [0, 1, 2] :=
  (dll_append_spec 3 (dll_append_spec 2 (dll_append_spec 1 dll_empty_inv).1).1).1

theorem demoSearchS_inv : SInv demoSearchS [0, 1, 2] :=
  (sll_append_spec 30 (sll_append_spec 20 (sll_append_spec 10 sll_empty_inv).1).1).1

theorem demoSearchD_inv : DInv demoSearchD [0, 1, 2] :=
  (dll_append_spec 30 (dll_append_spec 20 (dll_append_spec 10 dll_empty_inv).1).1).1

theorem demoS10_inv : SInv demoS10 [0, 1, 2, 3, 4, 5, 6, 7, 8, 9] := by
  have h1 := (sll_append_spec 1 sll_empty_inv).1
  have h2 := (sll_append_spec 2 h1).1
  have h3 := (sll_append_spec 3 h2).1
  have h4 := (sll_append_spec 4 h3).1
  have h5 := (sll_append_spec 5 h4).1
  have h6 := (sll_append_spec 6 h5).1
  have h7 := (sll_append_spec 7 h6).1
  have h8 := (sll_append_spec 8 h7).1
  have h9 := (sll_append_spec 9 h8).1
  have h10 := (sll_append_spec 10 h9).1
  exact h10

theorem demoD10_inv : DInv demoD10 [0, 1, 2, 3, 4, 5, 6, 7, 8, 9] := by
  have h1 := (dll_append_spec 1 dll_empty_inv).1
  have h2 := (dll_append_spec 2 h1).1
  have h3 := (dll_append_spec 3 h2).1
  have h4 := (dll_append_spec 4 h3).1
  have h5 := (dll_append_spec 5 h4).1
  have h6 := (dll_append_spec 6 h5).1
  have h7 := (dll_append_spec 7 h6).1
  have h8 := (dll_append_spec 8 h7).1
  have h9 := (dll_append_spec 9 h8).1
  have h10 := (dll_append_spec 10 h9).1
  exact h10

theorem valuesOf_tail (ns : List Node) (xs : List Nat) :
    valuesOf ns xs.tail = (valuesOf ns xs).tail := by
  cases xs <;> rfl

/-- C1: append places its value at the logical end and prepend at the
logical start; for every sequence of append/prepend operations, forward
iteration of either chain variant yields exactly the contents of a
reference array built with the equivalent end/start insertions. -/
theorem claim_C1 (ops : List InsOp) :
    (runInsS ops).toList = refArray ops ∧ (runInsD ops).toList = refArray ops := by
  constructor
  · obtain ⟨xs2, hinv2, hvals2⟩ :=
      runInsS_aux ops SinglyLinkedList.empty [] sll_empty_inv
    have h1 : (runInsS ops).toList = valuesOf (runInsS ops).nodes xs2 :=
      sll_toList_eq hinv2
    have h2 : valuesOf (runInsS ops).nodes xs2 = refArray ops := hvals2
    exact h1.trans h2
  · obtain ⟨ys2, hinv2, hvals2⟩ :=
      runInsD_aux ops DoublyLinkedList.empty [] dll_empty_inv
    have h1 : (runInsD ops).toList = dvaluesOf (runInsD ops).nodes ys2 :=
      dll_toList_eq hinv2
    have h2 : dvaluesOf (runInsD ops).nodes ys2 = refArray ops := hvals2
    exact h1.trans h2

/-- C2: on both chain variants, get at -1 or at size, insert_at at
size + 1 and delete_at at size each return the OutOfRange error carrying
the offending index, delete_first and delete_last on a size-0 chain each
return the EmptyCollection error, and every such failed call returns the
entry state unchanged (size, head and tail untouched). -/
theorem claim_C2 {s : SinglyLinkedList} {xs : List Nat} (h : SInv s xs)
    {t : DoublyLinkedList} {ys : List Nat} (hd : DInv t ys) (x : Int) :
    (s.get (-1) = (.error (.outOfRange (-1)), s) ∧
      s.get (s.size : Int) = (.error (.outOfRange (s.size : Int)), s) ∧
      s.insert_at ((s.size : Int) + 1) x =
        (.error (.outOfRange ((s.size : Int) + 1)), s) ∧
      s.delete_at (s.size : Int) = (.error (.outOfRange (s.size : Int)), s) ∧
      (s.size = 0 → s.delete_first = (.error .emptyCollection, s) ∧
        s.delete_last = (.error .emptyCollection, s))) ∧
    (t.get (-1) = (.error (.outOfRange (-1)), t) ∧
      t.get (t.size : Int) = (.error (.outOfRange (t.size : Int)), t) ∧
      t.insert_at ((t.size : Int) + 1) x =
        (.error (.outOfRange ((t.size : Int) + 1)), t) ∧
      t.delete_at (t.size : Int) = (.error (.outOfRange (t.size : Int)), t) ∧
      (t.size = 0 → t.delete_first = (.error .emptyCollection, t) ∧
        t.delete_last = (.error .emptyCollection, t))) := by
  refine ⟨⟨?_, ?_, ?_, ?_, fun hsz => ⟨?_, ?_⟩⟩,
    ⟨?_, ?_, ?_, ?_, fun hsz => ⟨?_, ?_⟩⟩⟩
  · exact sll_get_err (-1) (Or.inl (by decide))
  · exact sll_get_err _ (Or.inr le_rfl)
  · exact sll_insert_at_err _ x (Or.inr (by omega))
  · exact sll_delete_at_err _ (Or.inr le_rfl)
  · exact sll_delete_first_err h hsz
  · exact sll_delete_last_err h hsz
  · exact dll_get_err (-1) (Or.inl (by decide))
  · exact dll_get_err _ (Or.inr le_rfl)
  · exact dll_insert_at_err _ x (Or.inr (by omega))
  · exact dll_delete_at_err _ (Or.inr le_rfl)
  · exact dll_delete_first_err hd hsz
  · exact dll_delete_last_err hd hsz

theorem claim_C2_witness :
    SinglyLinkedList.empty.delete_first =
      (.error .emptyCollection, SinglyLinkedList.empty) ∧
    DoublyLinkedList.empty.delete_last =
      (.error .emptyCollection, DoublyLinkedList.empty) :=
  ⟨((claim_C2 sll_empty_inv dll_empty_inv 0).1.2.2.2.2 rfl).1,
    ((claim_C2 sll_empty_inv dll_empty_inv 0).2.2.2.2.2 rfl).2⟩

/-- C3: after any operation sequence from a fresh chain, the structural
representation invariant holds for both variants (forward chain from head
of length size terminating null at tail, plus the symmetric backward
chain for the doubly variant), the final length plus the successful
removals equals the successful insertions, and size 0, head none, tail
none and is_empty all coincide. -/
theorem claim_C3 (ops : List ListOp) :
    (∃ xs, SInv (runS ops) xs) ∧
    (runS ops).len + (countS SinglyLinkedList.empty ops).2 =
      (countS SinglyLinkedList.empty ops).1 ∧
    ((runS ops).size = 0 ↔ (runS ops).head = none) ∧
    ((runS ops).size = 0 ↔ (runS ops).tail = none) ∧
    ((runS ops).is_empty = true ↔ (runS ops).len = 0) ∧
    (∃ ys, DInv (runD ops) ys) ∧
    (runD ops).len + (countD DoublyLinkedList.empty ops).2 =
      (countD DoublyLinkedList.empty ops).1 ∧
    ((runD ops).size = 0 ↔ (runD ops).head = none) ∧
    ((runD ops).size = 0 ↔ (runD ops).tail = none) ∧
    ((runD ops).is_empty = true ↔ (runD ops).len = 0) := by
  obtain ⟨xs, hinv0, hlen⟩ := runS_aux ops SinglyLinkedList.empty [] sll_empty_inv
  obtain ⟨ys, hdinv0, hdlen⟩ := runD_aux ops DoublyLinkedList.empty [] dll_empty_inv
  have hinv : SInv (runS ops) xs := hinv0
  have hdinv : DInv (runD ops) ys := hdinv0
  simp only [List.length_nil, Nat.zero_add] at hlen hdlen
  have hslen : (runS ops).len = xs.length := hinv.size_eq
  have hdlen2 : (runD ops).len = ys.length := hdinv.size_eq
  refine ⟨⟨xs, hinv⟩, by omega, ?_, ?_, ?_, ⟨ys, hdinv⟩, by omega, ?_, ?_, ?_⟩
  · rw [hinv.size_eq, sinv_head_eq hinv, List.head?_eq_none_iff,
      List.length_eq_zero]
  · rw [hinv.size_eq, hinv.tail_eq, List.getLast?_eq_none_iff,
      List.length_eq_zero]
  · rw [sinv_is_empty_iff hinv]
    show _ ↔ (runS ops).size = 0
    rw [hinv.size_eq, List.length_eq_zero]
  · rw [hdinv.size_eq, dinv_head_eq hdinv, List.head?_eq_none_iff,
      List.length_eq_zero]
  · rw [hdinv.size_eq, dinv_tail_eq hdinv, List.getLast?_eq_none_iff,
      List.length_eq_zero]
  · rw [dinv_is_empty_iff hdinv]
    show _ ↔ (runD ops).size = 0
    rw [hdinv.size_eq, List.length_eq_zero]

/-- C4: reversing twice restores the original forward iteration order and
the original head and tail references, on both variants; on a size-0
chain a single reverse is already the identity. -/
theorem claim_C4 {s : SinglyLinkedList} {xs : List Nat} (h : SInv s xs)
    {t : DoublyLinkedList} {ys : List Nat} (hd : DInv t ys) :
    s.reverse.reverse.toList = s.toList ∧
    s.reverse.reverse.head = s.head ∧
    s.reverse.reverse.tail = s.tail ∧
    (s.size = 0 → s.reverse = s) ∧
    t.reverse.reverse.toList = t.toList ∧
    t.reverse.reverse.head = t.head ∧
    t.reverse.reverse.tail = t.tail ∧
    (t.size = 0 → t.reverse = t) := by
  obtain ⟨hinv1, hdata1⟩ := sll_reverse_spec h
  obtain ⟨hinv2, hdata2⟩ := sll_reverse_spec hinv1
  rw [List.reverse_reverse] at hinv2
  obtain ⟨hdinv1, hddata1⟩ := dll_reverse_spec hd
  obtain ⟨hdinv2, hddata2⟩ := dll_reverse_spec hdinv1
  rw [List.reverse_reverse] at hdinv2
  refine ⟨?_, ?_, ?_, ?_, ?_, ?_, ?_, ?_⟩
  · rw [sll_toList_eq hinv2, sll_toList_eq h, valuesOf, valuesOf]
    exact List.map_congr_left fun a _ => (hdata2 a).trans (hdata1 a)
  · rw [sinv_head_eq hinv2, sinv_head_eq h]
  · rw [hinv2.tail_eq, h.tail_eq]
  · intro hsz
    have hxs : xs = [] := by
      have : xs.length = 0 := by rw [← h.size_eq]; exact hsz
      exact List.length_eq_zero.mp this
    have hemp : s.is_empty = true := (sinv_is_empty_iff h).mpr hxs
    rw [SinglyLinkedList.reverse, if_pos (Or.inl hemp)]
  · rw [dll_toList_eq hdinv2, dll_toList_eq hd, dvaluesOf, dvaluesOf]
    exact List.map_congr_left fun a _ => (hddata2 a).trans (hddata1 a)
  · rw [dinv_head_eq hdinv2, dinv_head_eq hd]
  · rw [dinv_tail_eq hdinv2, dinv_tail_eq hd]
  · intro hsz
    have hys : ys = [] := by
      have : ys.length = 0 := by rw [← hd.size_eq]; exact hsz
      exact List.length_eq_zero.mp this
    have hemp : t.is_empty = true := (dinv_is_empty_iff hd).mpr hys
    rw [DoublyLinkedList.reverse, if_pos (Or.inl hemp)]

theorem claim_C4_witness :
    demoS3.reverse.reverse.toList = demoS3.toList ∧
    demoS3.reverse.reverse.head = demoS3.head ∧
    demoS3.reverse.reverse.tail = demoS3.tail ∧
    (demoS3.size = 0 → demoS3.reverse = demoS3) ∧
    demoD3.reverse.reverse.toList = demoD3.toList ∧
    demoD3.reverse.reverse.head = demoD3.head ∧
    demoD3.reverse.reverse.tail = demoD3.tail ∧
    (demoD3.size = 0 → demoD3.reverse = demoD3) :=
  claim_C4 demoS3_inv demoD3_inv

/-- C5: for a non-empty doubly-linked chain, the forward iteration
sequence reversed equals the backward iteration sequence produced by
reverse_iter. -/
theorem claim_C5 {t : DoublyLinkedList} {ys : List Nat} (hd : DInv t ys)
    (_hne : t.is_empty = false) :
    t.toList.reverse = t.reverse_iter := by
  rw [dll_toList_eq hd, dll_reverse_iter_eq hd, dvaluesOf, dvaluesOf,
    List.map_reverse]

theorem claim_C5_witness : demoD3.toList.reverse = demoD3.reverse_iter :=
  claim_C5 demoD3_inv rfl

/-- C6: on a non-empty chain of either variant delete_last removes and
returns exactly the tail element; in particular after append 1, 2, 3 it
returns 3 and leaves forward iteration equal to [1, 2]. -/
theorem claim_C6 {s : SinglyLinkedList} {xs : List Nat} (h : SInv s xs)
    {t : DoublyLinkedList} {ys : List Nat} (hd : DInv t ys)
    (hs : s.size ≠ 0) (ht : t.size ≠ 0) :
    (∃ v s2, s.delete_last = (.ok v, s2) ∧ s.toList.getLast? = some v ∧
      s2.toList = s.toList.dropLast) ∧
    (∃ v t2, t.delete_last = (.ok v, t2) ∧ t.toList.getLast? = some v ∧
      t2.toList = t.toList.dropLast) ∧
    demoS3.delete_last.1 = Except.ok 3 ∧ demoS3.delete_last.2.toList = [1, 2] ∧
    demoD3.delete_last.1 = Except.ok 3 ∧ demoD3.delete_last.2.toList = [1, 2] := by
  refine ⟨?_, ?_, rfl, rfl, rfl, rfl⟩
  · obtain ⟨v, s2, hres, hinv2, hlast, hvals, _⟩ := sll_delete_last_ok h hs
    refine ⟨v, s2, hres, ?_, ?_⟩
    · rw [sll_toList_eq h]
      exact hlast
    · rw [sll_toList_eq hinv2, sll_toList_eq h]
      exact hvals
  · obtain ⟨v, t2, hres, hinv2, hlast, hvals, _⟩ := dll_delete_last_ok hd ht
    refine ⟨v, t2, hres, ?_, ?_⟩
    · rw [dll_toList_eq hd]
      exact hlast
    · rw [dll_toList_eq hinv2, dll_toList_eq hd]
      exact hvals

theorem claim_C6_witness :
    (∃ v s2, demoS3.delete_last = (.ok v, s2) ∧
      demoS3.toList.getLast? = some v ∧ s2.toList = demoS3.toList.dropLast) ∧
    (∃ v t2, demoD3.delete_last = (.ok v, t2) ∧
      demoD3.toList.getLast? = some v ∧ t2.toList = demoD3.toList.dropLast) ∧
    demoS3.delete_last.1 = Except.ok 3 ∧ demoS3.delete_last.2.toList = [1, 2] ∧
    demoD3.delete_last.1 = Except.ok 3 ∧ demoD3.delete_last.2.toList = [1, 2] :=
  claim_C6 demoS3_inv demoD3_inv (by decide) (by decide)

/-- C7: search never fails: it returns the zero-based index of the first
stored value equal to the argument, and -1 when no value is equal; in
particular after append 10, 20, 30, search 20 returns 1 and search 99
returns -1, on both variants. -/
theorem claim_C7 {s : SinglyLinkedList} {xs : List Nat} (h : SInv s xs)
    {t : DoublyLinkedList} {ys : List Nat} (hd : DInv t ys) (d : Int) :
    (s.search d = match s.toList.findIdx? (fun v => v == d) with
      | some j => (j : Int)
      | none => -1) ∧
    (t.search d = match t.toList.findIdx? (fun v => v == d) with
      | some j => (j : Int)
      | none => -1) ∧
    demoSearchS.search 20 = 1 ∧ demoSearchS.search 99 = -1 ∧
    demoSearchD.search 20 = 1 ∧ demoSearchD.search 99 = -1 := by
  refine ⟨?_, ?_, by decide, by decide, by decide, by decide⟩
  · rw [sll_toList_eq h]
    exact sll_search_eq h d
  · rw [dll_toList_eq hd]
    exact dll_search_eq hd d

theorem claim_C7_witness :
    (demoSearchS.search 20 =
      match demoSearchS.toList.findIdx? (fun v => v == 20) with
      | some j => (j : Int)
      | none => -1) ∧
    (demoSearchD.search 20 =
      match demoSearchD.toList.findIdx? (fun v => v == 20) with
      | some j => (j : Int)
      | none => -1) ∧
    demoSearchS.search 20 = 1 ∧ demoSearchS.search 99 = -1 ∧
    demoSearchD.search 20 = 1 ∧ demoSearchD.search 99 = -1 :=
  claim_C7 demoSearchS_inv demoSearchD_inv 20

/-- C8: on equal contents the nearest-end-selecting doubly-linked get is
extensionally equal to the forward-walk singly-linked get at every index
(same result on success and on failure), both leave the chain unchanged,
and in the size-10 scenario get 1 and get 8 return the stored values 2
and 9 through the forward and the backward walk respectively. -/
theorem claim_C8 {s : SinglyLinkedList} {xs : List Nat} {t : DoublyLinkedList}
    {ys : List Nat} (h : SInv s xs) (hd : DInv t ys)
    (heq : t.toList = s.toList) (index : Int) :
    (t.get index).1 = (s.get index).1 ∧
    (t.get index).2 = t ∧ (s.get index).2 = s ∧
    (demoD10.get 1).1 = Except.ok 2 ∧ (demoD10.get 8).1 = Except.ok 9 := by
  have hlen : ys.length = xs.length := by
    have h1 : t.toList.length = ys.length := by
      rw [dll_toList_eq hd, dvaluesOf, List.length_map]
    have h2 : s.toList.length = xs.length := by
      rw [sll_toList_eq h, valuesOf, List.length_map]
    rw [← h1, ← h2, heq]
  have hsz : t.size = s.size := by rw [hd.size_eq, h.size_eq, hlen]
  by_cases hb : 0 ≤ index ∧ index < (s.size : Int)
  · obtain ⟨v, hv, hget⟩ := sll_get_ok h hb.1 hb.2
    obtain ⟨w, hw, hdget⟩ := dll_get_ok hd hb.1 (by rw [hsz]; exact hb.2)
    have hlists : dvaluesOf t.nodes ys = valuesOf s.nodes xs := by
      rw [← dll_toList_eq hd, ← sll_toList_eq h, heq]
    rw [hlists, hv] at hw
    refine ⟨?_, by rw [hdget], by rw [hget], rfl, rfl⟩
    rw [hdget, hget]
    show Except.ok w = Except.ok v
    rw [Option.some.inj hw]
  · have hb2 : index < 0 ∨ (s.size : Int) ≤ index := by omega
    have herrS := sll_get_err index hb2
    have herrT := dll_get_err index (by rw [hsz]; exact hb2)
    exact ⟨by rw [herrS, herrT], by rw [herrT], by rw [herrS], rfl, rfl⟩

theorem claim_C8_witness :
    (demoD10.get 1).1 = (demoS10.get 1).1 ∧
    (demoD10.get 1).2 = demoD10 ∧ (demoS10.get 1).2 = demoS10 ∧
    (demoD10.get 1).1 = Except.ok 2 ∧ (demoD10.get 8).1 = Except.ok 9 :=
  claim_C8 demoS10_inv demoD10_inv rfl 1

/-- C9: delete_first on a size-0 chain returns the EmptyCollection error,
and otherwise returns the head value, advances head to the next node,
decrements size by one, and clears tail when the chain becomes empty, on
both variants. -/
theorem claim_C9 {s : SinglyLinkedList} {xs : List Nat} (h : SInv s xs)
    {t : DoublyLinkedList} {ys : List Nat} (hd : DInv t ys) :
    (s.size = 0 → s.delete_first = (.error .emptyCollection, s)) ∧
    (s.size ≠ 0 → ∃ v s2, s.delete_first = (.ok v, s2) ∧
      s.toList.head? = some v ∧ s2.toList = s.toList.tail ∧
      s2.head = ptrAt xs 1 ∧ s2.size = s.size - 1 ∧
      (s2.size = 0 → s2.tail = none)) ∧
    (t.size = 0 → t.delete_first = (.error .emptyCollection, t)) ∧
    (t.size ≠ 0 → ∃ v t2, t.delete_first = (.ok v, t2) ∧
      t.toList.head? = some v ∧ t2.toList = t.toList.tail ∧
      t2.head = ptrAt ys 1 ∧ t2.size = t.size - 1 ∧
      (t2.size = 0 → t2.tail = none)) := by
  refine ⟨fun hsz => sll_delete_first_err h hsz, fun hsz => ?_,
    fun hsz => dll_delete_first_err hd hsz, fun hsz => ?_⟩
  · obtain ⟨v, s2, hres, hinv2, hhead, hnodes, hh, hs2, htl⟩ :=
      sll_delete_first_ok h hsz
    refine ⟨v, s2, hres, ?_, ?_, hh, hs2, htl⟩
    · rw [sll_toList_eq h]
      exact hhead
    · rw [sll_toList_eq hinv2, sll_toList_eq h, hnodes]
      exact valuesOf_tail s.nodes xs
  · obtain ⟨v, t2, hres, hinv2, hhead, hvals, hh, ht2, htl⟩ :=
      dll_delete_first_ok hd hsz
    refine ⟨v, t2, hres, ?_, ?_, hh, ht2, htl⟩
    · rw [dll_toList_eq hd]
      exact hhead
    · rw [dll_toList_eq hinv2, dll_toList_eq hd]
      exact hvals

theorem claim_C9_witness :
    (demoS3.size = 0 → demoS3.delete_first = (.error .emptyCollection, demoS3)) ∧
    (demoS3.size ≠ 0 → ∃ v s2, demoS3.delete_first = (.ok v, s2) ∧
      demoS3.toList.head? = some v ∧ s2.toList = demoS3.toList.tail ∧
      s2.head = ptrAt [0, 1, 2] 1 ∧ s2.size = demoS3.size - 1 ∧
      (s2.size = 0 → s2.tail = none)) ∧
    (demoD3.size = 0 → demoD3.delete_first = (.error .emptyCollection, demoD3)) ∧
    (demoD3.size ≠ 0 → ∃ v t2, demoD3.delete_first = (.ok v, t2) ∧
      demoD3.toList.head? = some v ∧ t2.toList = demoD3.toList.tail ∧
      t2.head = ptrAt [0, 1, 2] 1 ∧ t2.size = demoD3.size - 1 ∧
      (t2.size = 0 → t2.tail = none)) :=
  claim_C9 demoS3_inv demoD3_inv

/-- C10: the textual rendering of a size-0 chain is the literal string
"[]" (also for the backward rendering str_reverse of the doubly variant),
and the rendering of a non-empty chain joins the elements' decimal forms
with the separator " -> " (singly) or " <-> " (doubly) in forward order,
str_reverse joining them in backward order. -/
theorem claim_C10 {s : SinglyLinkedList} {xs : List Nat} (h : SInv s xs)
    {t : DoublyLinkedList} {ys : List Nat} (hd : DInv t ys) :
    (s.size = 0 → s.toStr = "[]") ∧
    (s.size ≠ 0 →
      s.toStr = String.intercalate " -> " (s.toList.map toString)) ∧
    (t.size = 0 → t.toStr = "[]" ∧ t.str_reverse = "[]") ∧
    (t.size ≠ 0 →
      t.toStr = String.intercalate " <-> " (t.toList.map toString) ∧
      t.str_reverse =
        String.intercalate " <-> " (t.toList.reverse.map toString)) := by
  have hxe : s.size = 0 ↔ xs = [] := by rw [h.size_eq, List.length_eq_zero]
  have hye : t.size = 0 ↔ ys = [] := by rw [hd.size_eq, List.length_eq_zero]
  refine ⟨fun hsz => ?_, fun hsz => ?_, fun hsz => ⟨?_, ?_⟩, fun hsz => ⟨?_, ?_⟩⟩
  · rw [sll_toStr_eq h, if_pos (hxe.mp hsz)]
  · rw [sll_toStr_eq h, if_neg (fun hh => hsz (hxe.mpr hh)), sll_toList_eq h]
  · rw [dll_toStr_eq hd, if_pos (hye.mp hsz)]
  · rw [dll_str_reverse_eq hd, if_pos (hye.mp hsz)]
  · rw [dll_toStr_eq hd, if_neg (fun hh => hsz (hye.mpr hh)), dll_toList_eq hd]
  · rw [dll_str_reverse_eq hd, if_neg (fun hh => hsz (hye.mpr hh)),
      dll_toList_eq hd, dvaluesOf, List.map_reverse]
    rfl

theorem claim_C10_witness :
    (SinglyLinkedList.empty.size = 0 → SinglyLinkedList.empty.toStr = "[]") ∧
    (SinglyLinkedList.empty.size ≠ 0 →
      SinglyLinkedList.empty.toStr =
        String.intercalate " -> " (SinglyLinkedList.empty.toList.map toString)) ∧
    (DoublyLinkedList.empty.size = 0 → DoublyLinkedList.empty.toStr = "[]" ∧
      DoublyLinkedList.empty.str_reverse = "[]") ∧
    (DoublyLinkedList.empty.size ≠ 0 →
      DoublyLinkedList.empty.toStr =
        String.intercalate " <-> " (DoublyLinkedList.empty.toList.map toString) ∧
      DoublyLinkedList.empty.str_reverse =
        String.intercalate " <-> "
          (DoublyLinkedList.empty.toList.reverse.map toString)) :=
  claim_C10 sll_empty_inv dll_empty_inv
